import Mathlib

/-!
# lazy::list — a coroutine-fed singly linked list (`lazy/list.h`)

Embedding conventions.

* A `node_ptr` is a machine address, a natural number; `nullptr` is `0`.
* The chain hanging off `m_RootNode` is an ownership list: every node owns its
  successor.  It is kept as the list of its nodes in link order, each node
  carrying its own address; `m_Next` of a node is the address of the node that
  follows it in the list (`nullptr` for the last one).
* `operator new` is an oracle: `heap n` is the address handed out by the
  `n`-th allocation and `allocs` counts the allocations made so far.  The
  definitions assume nothing of it; a theorem names what it needs, either an
  allocator that never hands out an address twice (`heap_ok`) or one that is
  sound call by call and may hand out released addresses again (`fresh_for`,
  `sound_run`).
* Where two names may denote one object (move assignment), the list objects
  of a program are a memory `Nat → list T` indexed by place.
* The coroutine body is the sequence of its `co_yield` operands: `body n` is
  the operand of the `n`-th `co_yield` reached, `none` once the body returns.
* A member function that dereferences a null or dangling pointer, or calls
  `done()` on a null handle, has undefined behaviour: the embedding returns
  `none`.  `throw` is `Except.error`.
* `size_t` values are natural numbers: every index and count below is bounded
  by the number of live nodes, so no arithmetic wraps.
-/

namespace lazy

/-- The node type `list<T>::node`: the payload, plus the address the node lives at. -/
structure node (T : Type) where
  addr : Nat
  m_Data : T

/-- The `node_ptr` that points at the first node of a chain (`nullptr` for the empty chain). -/
def ptr {T : Type} : List (node T) → Nat
  | [] => 0
  | n :: _ => n.addr

/-- The payloads of a chain, in link order. -/
def values {T : Type} (c : List (node T)) : List T := c.map node.m_Data

/-- The addresses of the nodes of a chain, in link order. -/
def addrs {T : Type} (c : List (node T)) : List Nat := c.map node.addr

/-- Dereference of a `node_ptr`: the node at address `p` and the chain its `m_Next` owns. -/
def node_at {T : Type} : List (node T) → Nat → Option (node T × List (node T))
  | [], _ => none
  | n :: next, p => if n.addr = p then some (n, next) else node_at next p

/-- The assignment `p->m_Next = next` for a node `p` of the chain. -/
def set_next {T : Type} : List (node T) → Nat → List (node T) → Option (List (node T))
  | [], _, _ => none
  | n :: rest, p, next =>
    if n.addr = p then some (n :: next) else (set_next rest p next).map (fun r => n :: r)

/-- The coroutine frame behind `coro_handle`: the body, the suspension point reached,
`promise_type::m_Data`, and whether the frame sits at its final suspension point. -/
structure coro_frame (T : Type) where
  body : Nat → Option T
  pc : Nat
  m_Data : T
  done : Bool

/-- The call `coro_handle::resume()`: run the body to its next suspension point.  A `co_yield data`
goes through `promise_type::yield_value`, which replaces `m_Data`; falling off the end
reaches `final_suspend`. -/
def coro_frame.resume {T : Type} (h : coro_frame T) : coro_frame T :=
  match h.body (h.pc + 1) with
  | some data => { h with pc := h.pc + 1, m_Data := data }
  | none => { h with pc := h.pc + 1, done := true }

/-- The class `lazy::list<T>`: the handle (`none` is the null handle), the chain, and the allocator. -/
structure list (T : Type) where
  m_Handler : Option (coro_frame T)
  m_RootNode : List (node T)
  heap : Nat → Nat
  allocs : Nat

/-- The class `lazy::iterator`: the node pointer (`m_ListPtr` is the list passed to each operation). -/
structure iterator where
  m_NodePtr : Nat
deriving DecidableEq

variable {T : Type}

/-- Calling the coroutine: `get_return_object` builds the list around the new frame with a
null root, and since `initial_suspend` never suspends the body runs at once up to its first
`co_yield` (or to the end). -/
def list.construct [Inhabited T] (body : Nat → Option T) (heap : Nat → Nat) : list T :=
  match body 0 with
  | some data => ⟨some ⟨body, 0, data, false⟩, [], heap, 0⟩
  | none => ⟨some ⟨body, 0, default, true⟩, [], heap, 0⟩

/-- The body of a coroutine that yields the values of `vs` in order and returns. -/
def yields (vs : List T) : Nat → Option T := fun n => vs[n]?

/-- Member function `list<T>::done`. -/
def list.done (l : list T) : Option Bool := l.m_Handler.map coro_frame.done

/-- Member function `list<T>::size(node_ptr)`. -/
def size_from : List (node T) → Nat
  | [] => 0
  | _ :: next => 1 + size_from next

/-- Member function `list<T>::size()`. -/
def list.size (l : list T) : Nat := size_from l.m_RootNode

/-- Member function `list<T>::place_front`. -/
def list.place_front (l : list T) (n : node T) : list T :=
  { l with m_RootNode := n :: l.m_RootNode }

/-- Member function `list<T>::get_last_node`, for the list whose root chain is `root`. -/
def get_last_node (root : List (node T)) : List (node T) → Nat
  | [] => ptr root
  | n :: [] => n.addr
  | _ :: m :: next => get_last_node root (m :: next)

/-- Member function `list<T>::place_back`. -/
def list.place_back (l : list T) (n : node T) : Option (list T) :=
  let lastNode := get_last_node l.m_RootNode l.m_RootNode
  if lastNode = 0 then some (l.place_front n)
  else (set_next l.m_RootNode lastNode [n]).map (fun r => { l with m_RootNode := r })

/-- The expression `new node(data)`: the node, and the list with the allocation counted. -/
def list.new_node (l : list T) (data : T) : node T × list T :=
  (⟨l.heap l.allocs, data⟩, { l with allocs := l.allocs + 1 })

/-- Member function `list<T>::push_front` (`PUSH_NODE(front, data)`). -/
def list.push_front (l : list T) (data : T) : list T :=
  let (newNode, l1) := l.new_node data
  l1.place_front newNode

/-- Member function `list<T>::push_back` (`PUSH_NODE(back, data)`). -/
def list.push_back (l : list T) (data : T) : Option (list T) :=
  let (newNode, l1) := l.new_node data
  l1.place_back newNode

/-- Member function `list<T>::emplace_front` (`EMPLACE_NODE(front, ...)`), `data` being the value the
arguments construct; returns the payload of the new node. -/
def list.emplace_front (l : list T) (data : T) : T × list T :=
  let (newNode, l1) := l.new_node data
  (newNode.m_Data, l1.place_front newNode)

/-- Member function `list<T>::resume`. -/
def list.resume (l : list T) : Option (list T) :=
  match l.m_Handler with
  | none => none
  | some h =>
    if h.done then some l
    else
      match l.push_back h.m_Data with
      | none => none
      | some l1 => some { l1 with m_Handler := some h.resume }

/-- Member function `list<T>::begin`. -/
def list.begin (l : list T) : Option (iterator × list T) :=
  match l.m_RootNode with
  | [] =>
    match l.resume with
    | none => none
    | some l1 => some (⟨ptr l1.m_RootNode⟩, l1)
  | n :: _ => some (⟨n.addr⟩, l)

/-- Member function `list<T>::end`. -/
def list.end_ (_l : list T) : iterator := ⟨0⟩

/-- Member function `iterator::Next`. -/
def iterator.Next (it : iterator) (l : list T) : Option (list T) :=
  match node_at l.m_RootNode it.m_NodePtr with
  | none => none
  | some (_, []) => l.resume
  | some (_, _ :: _) => some l

/-- Member function `iterator::operator++()`. -/
def iterator.operator_inc (it : iterator) (l : list T) : Option (iterator × list T) :=
  match it.Next l with
  | none => none
  | some l1 =>
    match node_at l1.m_RootNode it.m_NodePtr with
    | none => none
    | some (_, next) => some (⟨ptr next⟩, l1)

/-- Member function `iterator::operator*`. -/
def iterator.deref (it : iterator) (l : list T) : Option T :=
  (node_at l.m_RootNode it.m_NodePtr).map (fun r => r.1.m_Data)

/-- Member function `iterator::operator>=`. -/
def iterator.ge (a b : iterator) : Bool := decide (a.m_NodePtr ≥ b.m_NodePtr)

/-- The `while` loop of `list<T>::operator[]`, entered with `currentNode` and the chain
its `m_Next` owns; `currentIndex` is never written by the loop. -/
def index_loop (index currentIndex : Nat) : node T → List (node T) → T
  | currentNode, [] => currentNode.m_Data
  | currentNode, n :: next =>
    if currentIndex = index then currentNode.m_Data
    else index_loop index currentIndex n next

/-- Member function `list<T>::operator[]`.  The `none` branches are the reads through a
null `m_RootNode` or `currentNode`, which the size check rules out. -/
def list.index (l : list T) (index : Nat) : Option (Except String T) :=
  let listSize := l.size
  if index ≥ listSize then some (Except.error "Out of the range!")
  else if index = 0 then
    match l.m_RootNode with
    | [] => none
    | root :: _ => some (Except.ok root.m_Data)
  else
    match l.m_RootNode with
    | [] => none
    | _ :: [] => none
    | _ :: currentNode :: next => some (Except.ok (index_loop index 1 currentNode next))

/-- The `while` loop of `list<T>::remove`: returns `prevNode` and the chain starting at
`currentNode` as the loop leaves them. -/
def remove_loop (p : Nat) : Nat → List (node T) → Nat × List (node T)
  | prevNode, [] => (prevNode, [])
  | prevNode, c :: next =>
    if p = c.addr then (prevNode, c :: next) else remove_loop p c.addr next

/-- Member function `list<T>::remove`. -/
def list.remove (l : list T) (p : Nat) : Option (list T) :=
  match remove_loop p (ptr l.m_RootNode) l.m_RootNode with
  | (_, []) => none
  | (prevNode, currentNode :: next) =>
    if prevNode = currentNode.addr then some { l with m_RootNode := next }
    else (set_next l.m_RootNode prevNode next).map (fun r => { l with m_RootNode := r })

/-- Member function `list<T>::erase(const_iterator)`. -/
def list.erase (l : list T) (position : iterator) : Option (list T) :=
  l.remove position.m_NodePtr

/-- The `while` loop of `list<T>::erase(const_iterator, const_iterator)`.  Every pass
removes a node, so the loop makes at most `size()` passes: with one unit of fuel per live
node, running dry with `firstNode != lastNode` happens on the empty chain only, where
`firstNode->m_Next` is a dangling read. -/
def erase_loop : Nat → list T → Nat → Nat → Option (list T)
  | 0, l, firstNode, lastNode => if firstNode = lastNode then some l else none
  | fuel + 1, l, firstNode, lastNode =>
    if firstNode = lastNode then some l
    else
      match node_at l.m_RootNode firstNode with
      | none => none
      | some (_, next) =>
        match l.erase ⟨firstNode⟩ with
        | none => none
        | some l1 => erase_loop fuel l1 (ptr next) lastNode

/-- Member function `list<T>::erase(const_iterator, const_iterator)`. -/
def list.erase_range (l : list T) (first last : iterator) : Option (list T) :=
  if first.ge last then l.erase first
  else erase_loop l.size l first.m_NodePtr last.m_NodePtr

/-- The range-`for` loop of `main`: walks `it` up to `end()`, returning the values read
through it, the cursor as the loop leaves it and the list.  `none` also when the fuel runs
out before `end()` is reached. -/
def traverse_loop : Nat → iterator → list T → Option (List T × iterator × list T)
  | 0, _, _ => none
  | fuel + 1, it, l =>
    if it = l.end_ then some ([], it, l)
    else
      match it.deref l with
      | none => none
      | some data =>
        match it.operator_inc l with
        | none => none
        | some (it1, l1) =>
          match traverse_loop fuel it1 l1 with
          | none => none
          | some (rest, r) => some (data :: rest, r)

/-- The statement `for (const auto& data : list)`: `begin()`, then the loop. -/
def list.traverse (l : list T) (fuel : Nat) : Option (List T × iterator × list T) :=
  match l.begin with
  | none => none
  | some (it, l1) => traverse_loop fuel it l1

/-- The first `k` forward traversal steps on a list: the first step is `begin()`, every
later one is `operator++` on the cursor the previous step returned.  Returns that cursor
(`none` before the first step) and the list. -/
def traversal_steps : Nat → list T → Option (Option iterator × list T)
  | 0, l => some (none, l)
  | k + 1, l =>
    match traversal_steps k l with
    | none => none
    | some (none, l1) => (l1.begin).map (fun r => (some r.1, r.2))
    | some (some it, l1) => (it.operator_inc l1).map (fun r => (some r.1, r.2))

/-- The public member functions that are declared `const` and return a value only, as
calls: the value returned and the list as the call leaves it. -/
inductive query where
  | size
  | index (i : Nat)

/-- What a `const` call returns. -/
inductive answer (T : Type) where
  | count (n : Nat)
  | element (r : Except String T)

/-- Running a `const` call on a list. -/
def list.call (l : list T) : query → Option (answer T × list T)
  | query.size => some (answer.count l.size, l)
  | query.index i => (l.index i).map (fun r => (answer.element r, l))

/-- The demonstration generator `do_something`: yields `0, 10, ..., 90`. -/
def do_something (heap : Nat → Nat) : list Nat :=
  list.construct (yields ((List.range 10).map (fun i => i * 10))) heap

/-- A bump allocator handing out 16-byte nodes from address 16 upwards. -/
def bump_heap : Nat → Nat := fun n => 16 * (n + 1)

/-- The demonstration list after its first `k` traversal steps, nodes allocated by
`bump_heap`. -/
def demo_state (k : Nat) : list Nat :=
  match traversal_steps k (do_something bump_heap) with
  | some (_, l) => l
  | none => do_something bump_heap

/-- The list built by `push_front(7)`, `push_front(8)`, `push_front(9)` on the fresh
demonstration list: chain `[9, 8, 7]`, whose addresses 48, 32, 16 fall along the chain. -/
def demo_pushed : list Nat :=
  (((do_something bump_heap).push_front 7).push_front 8).push_front 9

/-- Member function `list<T>::emplace_back` (`EMPLACE_NODE(back, ...)`), `data` being the
value the arguments construct.  The node is raw storage from `operator new` in which only
`m_Data` is constructed, and `raw` is the word its `m_Next` happens to hold.  On the empty
chain `place_back` goes through `place_front`, which writes `m_Next`; behind a last node it
links the node in and leaves `m_Next` as it is, so the chain ends in `raw`: that is a chain
only when `raw` is null, and `none` stands for the list left with a wild last link. -/
def list.emplace_back (l : list T) (data : T) (raw : Nat) : Option (T × list T) :=
  let (newNode, l1) := l.new_node data
  let lastNode := get_last_node l1.m_RootNode l1.m_RootNode
  if lastNode ≠ 0 ∧ raw ≠ 0 then none
  else (l1.place_back newNode).map (fun r => (newNode.m_Data, r))

/-- The `while` loop of `list<T>::find`; `none` also when the fuel runs out before the
loop is left. -/
def find_loop [DecidableEq T] (data : T) : Nat → iterator → list T → Option (iterator × list T)
  | 0, _, _ => none
  | fuel + 1, currentIter, l =>
    if currentIter = l.end_ then some (currentIter, l)
    else
      match currentIter.deref l with
      | none => none
      | some d =>
        if d = data then some (currentIter, l)
        else
          match currentIter.operator_inc l with
          | none => none
          | some (it1, l1) => find_loop data fuel it1 l1

/-- Member function `list<T>::find`. -/
def list.find [DecidableEq T] (l : list T) (data : T) (fuel : Nat) :
    Option (iterator × list T) :=
  match l.begin with
  | none => none
  | some (currentIter, l1) => find_loop data fuel currentIter l1

/-- The `while` loop of `list<T>::clear`: the root pointer as the loop leaves it. -/
def clear_loop : List (node T) → List (node T)
  | [] => []
  | _ :: nextNode => clear_loop nextNode

/-- Member function `list<T>::clear`. -/
def list.clear (l : list T) : list T :=
  { l with m_RootNode := clear_loop l.m_RootNode }

/-- The move constructor `list(list&& other)`: the new list, and `other` as it is left. -/
def list.move (other : list T) : list T × list T :=
  ({ m_Handler := other.m_Handler, m_RootNode := other.m_RootNode,
     heap := other.heap, allocs := other.allocs },
   { other with m_RootNode := [], m_Handler := none })

/-- The move assignment `operator=(list&& other)`, on the list objects of a program: `mem i`
is the object at place `i`, `target` the place of the assigned object and `source` the place
of `other`.  The four assignments of the body are made in their order.  Nothing in the body
tells the two places apart: in `x = std::move(x)` they are one place, and the last two
assignments clear the object the first two have just written.  The chain and the frame the
assigned object held before are not released. -/
def list.move_assign (mem : Nat → list T) (target source : Nat) : Nat → list T :=
  let m1 := Function.update mem target
    { mem target with m_RootNode := (mem source).m_RootNode }
  let m2 := Function.update m1 target { m1 target with m_Handler := (m1 source).m_Handler }
  let m3 := Function.update m2 source { m2 source with m_RootNode := [] }
  Function.update m3 source { m3 source with m_Handler := none }

/-- Two list objects of a sample program: the fresh demonstration list at place 0, the
demonstration list with three values materialised at every other place. -/
def demo_mem : Nat → list Nat :=
  fun i => if i = 0 then do_something bump_heap else demo_state 3

/-- The `while` loop of `iterator::operator+`: `currNode` and `num` as the loop leaves
them. -/
def add_loop (root : List (node T)) : Nat → Nat → Option (Nat × Nat)
  | currNode, 0 => some (currNode, 0)
  | currNode, num + 1 =>
    if currNode = 0 then some (currNode, num + 1)
    else
      match node_at root currNode with
      | none => none
      | some (_, next) => add_loop root (ptr next) num

/-- Member function `iterator::operator+`. -/
def iterator.operator_add (it : iterator) (l : list T) (num : Nat) : Option iterator :=
  match add_loop l.m_RootNode it.m_NodePtr num with
  | none => none
  | some (currNode, num1) => some ⟨if num1 = 0 then currNode else 0⟩

/-- The advance `operator++` applied `n` times in a row. -/
def iterator.inc_times : Nat → iterator → list T → Option (iterator × list T)
  | 0, it, l => some (it, l)
  | n + 1, it, l =>
    match it.operator_inc l with
    | none => none
    | some (it1, l1) => iterator.inc_times n it1 l1

/-- The public operations on a list, as calls. -/
inductive op (T : Type) where
  | begin
  | advance (it : iterator)
  | find (data : T)
  | index (i : Nat)
  | size
  | erase (position : iterator)
  | erase_range (first last : iterator)
  | clear
  | push_front (data : T)
  | push_back (data : T)
  | emplace_front (data : T)
  | emplace_back (data : T) (raw : Nat)

/-- The number of nodes a call inserts without asking the generator. -/
def op.inserts : op T → Nat
  | op.push_front _ => 1
  | op.push_back _ => 1
  | op.emplace_front _ => 1
  | op.emplace_back _ _ => 1
  | _ => 0

/-- The list a call leaves, `none` when the call is undefined (or `find` runs out of
fuel). -/
def list.apply [DecidableEq T] (fuel : Nat) (l : list T) : op T → Option (list T)
  | op.begin => l.begin.map Prod.snd
  | op.advance it => (it.operator_inc l).map Prod.snd
  | op.find data => (l.find data fuel).map Prod.snd
  | op.index i => (l.call (query.index i)).map Prod.snd
  | op.size => (l.call query.size).map Prod.snd
  | op.erase position => l.erase position
  | op.erase_range first last => l.erase_range first last
  | op.clear => some l.clear
  | op.push_front data => some (l.push_front data)
  | op.push_back data => l.push_back data
  | op.emplace_front data => some (l.emplace_front data).2
  | op.emplace_back data raw => (l.emplace_back data raw).map Prod.snd

/-- A sequence of calls, one after the other. -/
def list.run [DecidableEq T] (fuel : Nat) : List (op T) → list T → Option (list T)
  | [], l => some l
  | o :: ops, l =>
    match l.apply fuel o with
    | none => none
    | some l1 => list.run fuel ops l1

/-- The nodes that materialise the values `vs`, the first of them by allocation `i`. -/
def generated_from (heap : Nat → Nat) : Nat → List T → List (node T)
  | _, [] => []
  | i, v :: vs => ⟨heap i, v⟩ :: generated_from heap (i + 1) vs

/-- The nodes of the first `k` values of `vs`, materialised by the first `k` allocations. -/
def generated (vs : List T) (heap : Nat → Nat) (k : Nat) : List (node T) :=
  generated_from heap 0 (vs.take k)

/-- A chain is well formed when no two of its nodes share an address and none sits at
the null address. -/
def chain_ok (c : List (node T)) : Prop := (addrs c).Nodup ∧ 0 ∉ addrs c

/-- The allocator is sound from here on: every address it will hand out is non-null, is
not the address of a live node, and is handed out once. -/
def heap_ok (l : list T) : Prop :=
  ∀ n, l.allocs ≤ n →
    l.heap n ≠ 0 ∧ l.heap n ∉ addrs l.m_RootNode ∧
      ∀ m, l.allocs ≤ m → l.heap n = l.heap m → n = m

/-- The values a suspended frame has still to hand over are exactly `R`: the one waiting
in `m_Data` followed by the later `co_yield` operands; the frame is done when `R` is empty. -/
def pending (h : coro_frame T) : List T → Prop
  | [] => h.done = true
  | v :: R => h.done = false ∧ h.m_Data = v ∧ ∀ i, h.body (h.pc + 1 + i) = R[i]?

/-- A list in good order whose generator has exactly `R` left to hand over. -/
def list.ok (l : list T) (R : List T) : Prop :=
  chain_ok l.m_RootNode ∧ heap_ok l ∧ ∃ h, l.m_Handler = some h ∧ pending h R

/-- The list `resume()` leaves when the frame `h` is not done: the pending value sits in a
fresh node behind the chain and the frame has run to its next suspension point. -/
def list.grown (l : list T) (h : coro_frame T) : list T :=
  { m_Handler := some h.resume
    m_RootNode := l.m_RootNode ++ [⟨l.heap l.allocs, h.m_Data⟩]
    heap := l.heap
    allocs := l.allocs + 1 }

/-- A sample session on the demonstration list that inserts nothing: traverse two steps,
search `40`, erase the node at address 32, read, clear, start over and search a value the
generator never yields. -/
def demo_calls : List (op Nat) :=
  [op.begin, op.advance ⟨16⟩, op.find 40, op.erase ⟨32⟩, op.index 1, op.size, op.clear,
    op.begin, op.find 1000]

/-- The demonstration list after a sequence of calls (the fresh list if a call is
undefined). -/
def demo_after (ops : List (op Nat)) : list Nat :=
  match (do_something bump_heap).run 20 ops with
  | some l => l
  | none => do_something bump_heap

/-- What holds of a list reached from the fresh list of the generator of `vs`, under the
allocator `heap`, by calls that inserted `p` nodes: some `k` values are materialised, the
frame is at its `k`-th suspension point with the values from the `k`-th on still to hand
over, `k + p` nodes have been allocated, and with no insertion the chain is what is left
of the first `k` generated nodes. -/
def reached (vs : List T) (heap : Nat → Nat) (p : Nat) (l : list T) : Prop :=
  ∃ k h, k ≤ vs.length ∧ l.m_Handler = some h ∧ h.pc = k ∧ l.ok (vs.drop k) ∧
    l.allocs = k + p ∧ l.heap = heap ∧
    (p = 0 → l.m_RootNode.Sublist (generated vs heap k))

/-- The allocator is sound for the next `m` allocations on the list as it stands: each
address handed out is non-null, is not the address of a live node, and differs from the
others.  Addresses of nodes released earlier may be handed out again. -/
def fresh_for (l : list T) (m : Nat) : Prop :=
  ∀ i, i < m → l.heap (l.allocs + i) ≠ 0 ∧ l.heap (l.allocs + i) ∉ addrs l.m_RootNode ∧
    ∀ j, j < m → l.heap (l.allocs + i) = l.heap (l.allocs + j) → i = j

/-- The allocator was sound all along a sequence of calls: in each call that returns, it
was sound for the allocations the call made, on the list as the call found it.  (No call
both releases and allocates nodes.) -/
def sound_run [DecidableEq T] (fuel : Nat) : List (op T) → list T → Prop
  | [], _ => True
  | o :: ops, l =>
    match l.apply fuel o with
    | none => True
    | some l1 => fresh_for l (l1.allocs - l.allocs) ∧ sound_run fuel ops l1

/-- The calls that neither insert a node nor erase a range: `begin`, advance, `find`,
`operator[]`, `size`, `erase` of one cursor, `clear`. -/
def op.plain : op T → Bool
  | op.begin => true
  | op.advance _ => true
  | op.find _ => true
  | op.index _ => true
  | op.size => true
  | op.erase _ => true
  | op.clear => true
  | _ => false

/-- Whether the allocator is sound for the next `m` allocations can be computed. -/
@[instance] def fresh_for_decidable (l : list T) (m : Nat) : Decidable (fresh_for l m) :=
  inferInstanceAs (Decidable (∀ i, i < m →
    l.heap (l.allocs + i) ≠ 0 ∧ l.heap (l.allocs + i) ∉ addrs l.m_RootNode ∧
      ∀ j, j < m → l.heap (l.allocs + i) = l.heap (l.allocs + j) → i = j))

/-- Whether the allocator was sound all along a sequence of calls can be computed. -/
@[instance] def sound_run_decidable [DecidableEq T] (fuel : Nat) :
    (ops : List (op T)) → (l : list T) → Decidable (sound_run fuel ops l)
  | [], _ => isTrue trivial
  | o :: ops, l =>
    show Decidable (match l.apply fuel o with
      | none => True
      | some l1 => fresh_for l (l1.allocs - l.allocs) ∧ sound_run fuel ops l1) from
    match l.apply fuel o with
    | none => isTrue trivial
    | some l1 => @instDecidableAnd _ _ (fresh_for_decidable l _) (sound_run_decidable fuel ops l1)

/-- An allocator that hands out 16-byte nodes from address 16 upwards and, at its third
allocation, the address 16 again: sound once the node at 16 has been released. -/
def reuse_heap : Nat → Nat := fun n => if n = 2 then 16 else 16 * (n + 1)

/-- A session on the list of a generator yielding `1, 2, 3` in which a released address
comes back: `begin()` (value `1`, address 16), advance (value `2`, address 32), erase the
node at 16, advance (value `3`, in a node at address 16 again). -/
def reuse_calls : List (op Nat) :=
  [op.begin, op.advance ⟨16⟩, op.erase ⟨16⟩, op.advance ⟨32⟩]

/-- The list of a generator yielding `1, 2, 3`, nodes allocated by `reuse_heap`, after a
sequence of calls (the fresh list if a call is undefined). -/
def reuse_after (ops : List (op Nat)) : list Nat :=
  match (list.construct (yields [1, 2, 3]) reuse_heap).run 5 ops with
  | some l => l
  | none => list.construct (yields [1, 2, 3]) reuse_heap

/-- The position in a chain of the first node at address `p` (the length of the chain if
there is none). -/
def position_of (p : Nat) : List (node T) → Nat
  | [] => 0
  | n :: rest => if n.addr = p then 0 else 1 + position_of p rest

/-- Book-keeping for a list without insertions, where the `i`-th generated value is
materialised by the `i`-th allocation.  Given the positions `kept`, in the generated
sequence, of the values whose nodes are in the chain before a call, the positions after
it: `erase` takes out the one of the node the cursor stands on, `clear` takes out all, and
any other call adds the positions of the values it materialises (`l` is the list before
the call, `l1` the list after it). -/
def op.surviving (l l1 : list T) (kept : List Nat) : op T → List Nat
  | op.erase position => kept.eraseIdx (position_of position.m_NodePtr l.m_RootNode)
  | op.clear => []
  | _ => kept ++ List.range' l.allocs (l1.allocs - l.allocs)

/-- The book-keeping of `op.surviving` along a sequence of calls. -/
def list.surviving [DecidableEq T] (fuel : Nat) : List (op T) → list T → List Nat → List Nat
  | [], _, kept => kept
  | o :: ops, l, kept =>
    match l.apply fuel o with
    | none => kept
    | some l1 => list.surviving fuel ops l1 (o.surviving l l1 kept)

/-- The nodes of the generated values at the positions `kept`: the value at position `i`
sits in the node of allocation `i`. -/
def nodes_at [Inhabited T] (vs : List T) (heap : Nat → Nat) (kept : List Nat) :
    List (node T) :=
  kept.map (fun i => ⟨heap i, vs.getD i default⟩)

/-- What holds, whatever addresses come back from the allocator, of a list without
insertions whose chain holds the generated values at the positions `kept`: all values
before position `allocs` are materialised and no other, the frame is at that suspension
point with the later values still to hand over, and the chain is made of the nodes at
`kept`, which have distinct non-null addresses. -/
def tracked [Inhabited T] (vs : List T) (heap : Nat → Nat) (kept : List Nat) (l : list T) :
    Prop :=
  ∃ h, l.m_Handler = some h ∧ h.pc = l.allocs ∧ l.allocs ≤ vs.length ∧
    pending h (vs.drop l.allocs) ∧ l.heap = heap ∧
    l.m_RootNode = nodes_at vs heap kept ∧ chain_ok l.m_RootNode ∧
    kept.Sublist (List.range l.allocs)

/-- What holds, whatever addresses come back from the allocator, of a list reached by calls
that inserted `p` nodes: the frame has handed over `pc` values, `pc + p` nodes have been
allocated, the values from position `pc` on are still to hand over, and the nodes of the
chain have distinct non-null addresses. -/
def settled (vs : List T) (p : Nat) (l : list T) : Prop :=
  ∃ h, l.m_Handler = some h ∧ h.pc + p = l.allocs ∧ h.pc ≤ vs.length ∧
    pending h (vs.drop h.pc) ∧ chain_ok l.m_RootNode

/-! ## The chain primitives -/

theorem size_from_eq_length (c : List (node T)) : size_from c = c.length := by
  induction c with
  | nil => rfl
  | cons n next ih => simp [size_from, ih, Nat.add_comm]

theorem list_size_eq (l : list T) : l.size = (values l.m_RootNode).length := by
  simp [list.size, size_from_eq_length, values]

theorem node_at_append (pre : List (node T)) (n : node T) (next : List (node T))
    (h : n.addr ∉ addrs pre) : node_at (pre ++ n :: next) n.addr = some (n, next) := by
  induction pre with
  | nil => simp [node_at]
  | cons m pre ih =>
    simp only [addrs, List.map_cons, List.mem_cons, not_or] at h
    have hm : m.addr ≠ n.addr := fun e => h.1 e.symm
    simp only [List.cons_append, node_at, hm, if_false]
    exact ih h.2

theorem node_at_split {c : List (node T)} {p : Nat} {n : node T} {next : List (node T)}
    (h : node_at c p = some (n, next)) :
    ∃ pre, c = pre ++ n :: next ∧ n.addr = p ∧ p ∉ addrs pre := by
  induction c with
  | nil => simp [node_at] at h
  | cons m rest ih =>
    simp only [node_at] at h
    by_cases hm : m.addr = p
    · simp only [hm, if_true, Option.some.injEq, Prod.mk.injEq] at h
      obtain ⟨rfl, rfl⟩ := h
      exact ⟨[], rfl, hm, by simp [addrs]⟩
    · simp only [hm, if_false] at h
      obtain ⟨pre, hc, hn, hp⟩ := ih h
      refine ⟨m :: pre, by simp [hc], hn, ?_⟩
      simp only [addrs, List.map_cons, List.mem_cons, not_or]
      exact ⟨fun e => hm e.symm, hp⟩

theorem set_next_append (pre : List (node T)) (n : node T) (next x : List (node T))
    (h : n.addr ∉ addrs pre) :
    set_next (pre ++ n :: next) n.addr x = some (pre ++ n :: x) := by
  induction pre with
  | nil => simp [set_next]
  | cons m pre ih =>
    simp only [addrs, List.map_cons, List.mem_cons, not_or] at h
    have hm : m.addr ≠ n.addr := fun e => h.1 e.symm
    have e := ih h.2
    simp only [List.cons_append, set_next, hm, if_false]
    exact (congrArg (Option.map (fun r => m :: r)) e).trans rfl

theorem get_last_node_append (root pre : List (node T)) (n : node T) :
    get_last_node root (pre ++ [n]) = n.addr := by
  induction pre with
  | nil => rfl
  | cons m pre ih =>
    cases pre with
    | nil => rfl
    | cons m2 pre2 => simpa [get_last_node] using ih

/-! ## Materialisation: `push_back` and `resume` -/

theorem push_back_last (l : list T) (pre : List (node T)) (n : node T) (x : T)
    (hc : l.m_RootNode = pre ++ [n]) (hp : n.addr ∉ addrs pre) (hz : n.addr ≠ 0) :
    l.push_back x = some
      { l with m_RootNode := l.m_RootNode ++ [⟨l.heap l.allocs, x⟩], allocs := l.allocs + 1 } := by
  simp only [list.push_back, list.new_node, list.place_back]
  rw [hc, get_last_node_append, if_neg hz, set_next_append pre n [] _ hp]
  simp

theorem push_back_nil (l : list T) (x : T) (hc : l.m_RootNode = []) :
    l.push_back x = some
      { l with m_RootNode := l.m_RootNode ++ [⟨l.heap l.allocs, x⟩], allocs := l.allocs + 1 } := by
  simp [list.push_back, list.new_node, list.place_back, list.place_front, hc, get_last_node, ptr]

theorem chain_ok_concat {pre : List (node T)} {n : node T} (h : chain_ok (pre ++ [n])) :
    n.addr ∉ addrs pre ∧ n.addr ≠ 0 := by
  obtain ⟨hd, hz⟩ := h
  simp only [addrs, List.map_append, List.map_cons, List.map_nil] at hd hz
  rw [List.nodup_append] at hd
  constructor
  · intro hm
    exact hd.2.2 hm (by simp) 
  · intro e
    exact hz (by simp [e])

theorem push_back_eq (l : list T) (x : T) (hc : chain_ok l.m_RootNode) :
    l.push_back x = some
      { l with m_RootNode := l.m_RootNode ++ [⟨l.heap l.allocs, x⟩], allocs := l.allocs + 1 } := by
  rcases List.eq_nil_or_concat l.m_RootNode with h | ⟨pre, n, h⟩
  · exact push_back_nil l x h
  · rw [List.concat_eq_append] at h
    rw [h] at hc
    exact push_back_last l pre n x h (chain_ok_concat hc).1 (chain_ok_concat hc).2

theorem resume_done (l : list T) (h : coro_frame T) (hh : l.m_Handler = some h)
    (hd : h.done = true) : l.resume = some l := by
  simp [list.resume, hh, hd]

theorem resume_last (l : list T) (h : coro_frame T) (pre : List (node T)) (n : node T)
    (hh : l.m_Handler = some h) (hd : h.done = false)
    (hc : l.m_RootNode = pre ++ [n]) (hp : n.addr ∉ addrs pre) (hz : n.addr ≠ 0) :
    l.resume = some (l.grown h) := by
  simp [list.resume, hh, hd, push_back_last l pre n h.m_Data hc hp hz, list.grown]

theorem resume_eq (l : list T) (h : coro_frame T) (hh : l.m_Handler = some h)
    (hd : h.done = false) (hc : chain_ok l.m_RootNode) : l.resume = some (l.grown h) := by
  simp [list.resume, hh, hd, push_back_eq l h.m_Data hc, list.grown]

/-! ## Cursor advance -/

theorem operator_inc_eq (l : list T) (p : Nat) (n : node T) (next : List (node T))
    (hat : node_at l.m_RootNode p = some (n, next)) (hz : p ≠ 0) :
    iterator.operator_inc ⟨p⟩ l =
      match next, l.m_Handler with
      | _ :: _, _ => some (⟨ptr next⟩, l)
      | [], none => none
      | [], some h =>
        if h.done then some (⟨0⟩, l) else some (⟨l.heap l.allocs⟩, l.grown h) := by
  cases next with
  | cons m rest => simp [iterator.operator_inc, iterator.Next, hat]
  | nil =>
    obtain ⟨pre, hc, hn, hp⟩ := node_at_split hat
    subst hn
    cases hh : l.m_Handler with
    | none => simp [iterator.operator_inc, iterator.Next, hat, list.resume, hh]
    | some h =>
      cases hd : h.done with
      | true =>
        simp [iterator.operator_inc, iterator.Next, hat, resume_done l h hh hd, ptr, hd]
      | false =>
        have hg : node_at (l.grown h).m_RootNode n.addr
            = some (n, [⟨l.heap l.allocs, h.m_Data⟩]) := by
          simp only [list.grown, hc, List.append_assoc, List.singleton_append]
          exact node_at_append pre n _ hp
        simp [iterator.operator_inc, iterator.Next, hat, resume_last l h pre n hh hd hc hp hz,
          hg, ptr, hd]

/-! ## Invariants kept by materialisation -/

theorem values_grown (l : list T) (h : coro_frame T) :
    values (l.grown h).m_RootNode = values l.m_RootNode ++ [h.m_Data] := by
  simp [list.grown, values]

theorem pending_resume (h : coro_frame T) (v : T) (R : List T) (hp : pending h (v :: R)) :
    pending h.resume R := by
  obtain ⟨_, _, hb⟩ := hp
  cases R with
  | nil =>
    have h0 := hb 0
    simp only [Nat.add_zero, List.getElem?_nil] at h0
    simp [pending, coro_frame.resume, h0]
  | cons w R =>
    have h0 := hb 0
    simp only [Nat.add_zero, List.getElem?_cons_zero] at h0
    refine ⟨?_, ?_, ?_⟩
    · simp only [coro_frame.resume, h0]
      assumption
    · simp [coro_frame.resume, h0]
    · intro i
      have hi := hb (i + 1)
      simp only [List.getElem?_cons_succ] at hi
      simp only [coro_frame.resume, h0]
      rw [← hi]
      congr 1
      omega

theorem ok_grown (l : list T) (h : coro_frame T) (v : T) (R : List T)
    (hh : l.m_Handler = some h) (hok : l.ok (v :: R)) : (l.grown h).ok R := by
  obtain ⟨⟨hnd, hnz⟩, hheap, h2, hh2, hp⟩ := hok
  rw [hh] at hh2
  cases hh2
  obtain ⟨a0, a1, a2⟩ := hheap l.allocs (Nat.le_refl _)
  refine ⟨⟨?_, ?_⟩, ?_, h.resume, rfl, pending_resume h v R hp⟩
  · simp only [list.grown, addrs, List.map_append, List.map_cons, List.map_nil]
    rw [List.nodup_append]
    refine ⟨hnd, by simp, ?_⟩
    intro a ha hb
    simp only [List.mem_singleton] at hb
    subst hb
    exact a1 ha
  · simp only [list.grown, addrs, List.map_append, List.map_cons, List.map_nil, List.mem_append,
      List.mem_singleton, not_or]
    exact ⟨hnz, fun e => a0 e.symm⟩
  · intro n hn
    have hn1 : l.allocs ≤ n := Nat.le_of_succ_le hn
    obtain ⟨b0, b1, b2⟩ := hheap n hn1
    refine ⟨b0, ?_, ?_⟩
    · simp only [list.grown, addrs, List.map_append, List.map_cons, List.map_nil,
        List.mem_append, List.mem_singleton, not_or]
      refine ⟨b1, ?_⟩
      intro e
      have := b2 l.allocs (Nat.le_refl _) e
      simp only [list.grown] at hn
      omega
    · intro m hm e
      exact b2 m (Nat.le_of_succ_le hm) e

theorem construct_nil [Inhabited T] (heap : Nat → Nat) :
    list.construct (yields ([] : List T)) heap
      = ⟨some ⟨yields [], 0, default, true⟩, [], heap, 0⟩ := by
  simp [list.construct, yields]

theorem construct_cons [Inhabited T] (v : T) (R : List T) (heap : Nat → Nat) :
    list.construct (yields (v :: R)) heap
      = ⟨some ⟨yields (v :: R), 0, v, false⟩, [], heap, 0⟩ := by
  simp [list.construct, yields]

theorem ok_construct [Inhabited T] (vs : List T) (heap : Nat → Nat)
    (hinj : Function.Injective heap) (hnz : ∀ n, heap n ≠ 0) :
    (list.construct (yields vs) heap).ok vs := by
  cases vs with
  | nil =>
    rw [construct_nil]
    refine ⟨⟨by simp [addrs], by simp [addrs]⟩, ?_, _, rfl, rfl⟩
    intro n _
    exact ⟨hnz n, by simp [addrs], fun m _ e => hinj e⟩
  | cons v R =>
    rw [construct_cons]
    refine ⟨⟨by simp [addrs], by simp [addrs]⟩, ?_, _, rfl, rfl, rfl, ?_⟩
    · intro n _
      exact ⟨hnz n, by simp [addrs], fun m _ e => hinj e⟩
    · intro i
      simp [yields, Nat.add_comm]

theorem construct_chain [Inhabited T] (body : Nat → Option T) (heap : Nat → Nat) :
    (list.construct body heap).m_RootNode = [] := by
  unfold list.construct
  split <;> rfl

theorem done_of_ok_nil {l : list T} (h : l.ok []) : l.done = some true := by
  obtain ⟨_, _, f, hf, hp⟩ := h
  simp only [pending] at hp
  simp [list.done, hf, hp]

/-! ## Full traversal -/

theorem traverse_loop_end (fuel : Nat) (l : list T) :
    traverse_loop (fuel + 1) ⟨0⟩ l = some ([], ⟨0⟩, l) := by
  simp [traverse_loop, list.end_]

theorem traverse_loop_succ (fuel : Nat) (it it1 : iterator) (l l1 : list T) (d : T)
    (rest : List T) (r : iterator × list T)
    (hne : it.m_NodePtr ≠ 0) (hd : it.deref l = some d)
    (hi : it.operator_inc l = some (it1, l1))
    (hr : traverse_loop fuel it1 l1 = some (rest, r)) :
    traverse_loop (fuel + 1) it l = some (d :: rest, r) := by
  have hne2 : it ≠ l.end_ := by
    intro e
    apply hne
    rw [e]
    rfl
  simp [traverse_loop, hne2, hd, hi, hr]

theorem mem_addrs_of_split {c pre post : List (node T)} {n : node T}
    (hc : c = pre ++ n :: post) (hok : chain_ok c) : n.addr ∉ addrs pre ∧ n.addr ≠ 0 := by
  obtain ⟨hd, hz⟩ := hok
  subst hc
  simp only [addrs, List.map_append, List.map_cons] at hd hz
  rw [List.nodup_append] at hd
  constructor
  · intro hm
    exact hd.2.2 hm (by simp)
  · intro e
    exact hz (by simp [e])

theorem traverse_loop_ok (fuel : Nat) : ∀ (l : list T) (R : List T) (pre : List (node T))
    (n : node T) (post : List (node T)), l.ok R → l.m_RootNode = pre ++ n :: post →
    post.length + R.length + 2 ≤ fuel →
    ∃ l1, traverse_loop fuel ⟨n.addr⟩ l = some (values (n :: post) ++ R, ⟨0⟩, l1) ∧
      l1.ok [] ∧ values l1.m_RootNode = values l.m_RootNode ++ R := by
  induction fuel with
  | zero => intro l R pre n post _ _ hf; omega
  | succ fuel ih =>
    intro l R pre n post hok hc hf
    obtain ⟨hp, hz⟩ := mem_addrs_of_split hc hok.1
    have hat : node_at l.m_RootNode n.addr = some (n, post) := by
      rw [hc]; exact node_at_append pre n post hp
    have hd : iterator.deref ⟨n.addr⟩ l = some n.m_Data := by
      simp [iterator.deref, hat]
    have hinc := operator_inc_eq l n.addr n post hat hz
    cases post with
    | cons m post =>
      simp only at hinc
      have hc2 : l.m_RootNode = (pre ++ [n]) ++ m :: post := by simp [hc]
      obtain ⟨l1, h1, h2, h3⟩ := ih l R (pre ++ [n]) m post hok hc2
        (by simp only [List.length_cons] at hf; omega)
      refine ⟨l1, ?_, h2, h3⟩
      have := traverse_loop_succ fuel ⟨n.addr⟩ ⟨m.addr⟩ l l n.m_Data _ _ hz hd
        (by rw [hinc]; rfl) h1
      simpa [values] using this
    | nil =>
      obtain ⟨hcok, hheap, h, hh, hpend⟩ := hok
      rw [hh] at hinc
      simp only at hinc
      cases R with
      | nil =>
        simp only [pending] at hpend
        simp only [hpend, if_true] at hinc
        refine ⟨l, ?_, ⟨hcok, hheap, h, hh, hpend⟩, by simp⟩
        cases fuel with
        | zero => simp at hf
        | succ fuel =>
          have := traverse_loop_succ (fuel + 1) ⟨n.addr⟩ ⟨0⟩ l l n.m_Data _ _ hz hd hinc
            (traverse_loop_end fuel l)
          simpa [values] using this
      | cons v R =>
        have hok : l.ok (v :: R) := ⟨hcok, hheap, h, hh, hpend⟩
        obtain ⟨hdone, hv, _⟩ := hpend
        simp only [hdone] at hinc
        have hc2 : (l.grown h).m_RootNode = (pre ++ [n]) ++ ⟨l.heap l.allocs, h.m_Data⟩ :: [] := by
          simp [list.grown, hc]
        obtain ⟨l1, h1, h2, h3⟩ := ih (l.grown h) R (pre ++ [n]) ⟨l.heap l.allocs, h.m_Data⟩ []
          (ok_grown l h v R hh hok) hc2 (by simp only [List.length_cons] at hf; simp; omega)
        refine ⟨l1, ?_, h2, ?_⟩
        · have := traverse_loop_succ fuel ⟨n.addr⟩ ⟨l.heap l.allocs⟩ l (l.grown h) n.m_Data _ _
            hz hd (by simpa using hinc) h1
          simpa [values, hv] using this
        · rw [h3, values_grown, hv]
          simp

theorem traverse_ok (l : list T) (R : List T) (fuel : Nat) (hok : l.ok R)
    (hf : l.m_RootNode.length + R.length + 1 ≤ fuel) :
    ∃ l1, l.traverse fuel = some (values l.m_RootNode ++ R, ⟨0⟩, l1) ∧
      l1.ok [] ∧ values l1.m_RootNode = values l.m_RootNode ++ R := by
  cases hc : l.m_RootNode with
  | cons n post =>
    rw [hc] at hf
    obtain ⟨l1, h1, h2, h3⟩ := traverse_loop_ok fuel l R [] n post hok (by simpa using hc)
      (by simp only [List.length_cons] at hf; omega)
    rw [hc] at h3
    exact ⟨l1, by simp [list.traverse, list.begin, hc, h1], h2, h3⟩
  | nil =>
    rw [hc] at hf
    obtain ⟨hcok, hheap, h, hh, hpend⟩ := hok
    cases R with
    | nil =>
      simp only [pending] at hpend
      refine ⟨l, ?_, ⟨hcok, hheap, h, hh, hpend⟩, by simp [hc]⟩
      cases fuel with
      | zero => simp at hf
      | succ fuel =>
        simp [list.traverse, list.begin, hc, resume_done l h hh hpend, ptr, traverse_loop_end,
          values]
    | cons v R =>
      have hok : l.ok (v :: R) := ⟨hcok, hheap, h, hh, hpend⟩
      obtain ⟨hdone, hv, _⟩ := hpend
      have hc2 : (l.grown h).m_RootNode = [] ++ ⟨l.heap l.allocs, h.m_Data⟩ :: [] := by
        simp [list.grown, hc]
      obtain ⟨l1, h1, h2, h3⟩ := traverse_loop_ok fuel (l.grown h) R [] _ []
        (ok_grown l h v R hh hok) hc2 (by simp only [List.length_cons] at hf; simp; omega)
      refine ⟨l1, ?_, h2, ?_⟩
      · simp only [list.traverse, list.begin, hc, resume_eq l h hh hdone hcok]
        rw [hc2]
        simp only [List.nil_append, ptr, h1]
        simp [values, hv]
      · rw [h3, values_grown, hc, hv]
        simp [values]

theorem bump_heap_injective : Function.Injective bump_heap := by
  intro a b h
  simp only [bump_heap] at h
  omega

theorem bump_heap_ne_zero (n : Nat) : bump_heap n ≠ 0 := by
  simp [bump_heap]

/-! ## Step-by-step traversal of a fresh list -/

theorem traversal_steps_ok [Inhabited T] (vs : List T) (heap : Nat → Nat)
    (hinj : Function.Injective heap) (hnz : ∀ n, heap n ≠ 0) :
    ∀ k, k ≤ vs.length →
      ∃ c l, traversal_steps k (list.construct (yields vs) heap) = some (c, l) ∧
        l.ok (vs.drop k) ∧ values l.m_RootNode = vs.take k ∧
        ((c = none ∧ l.m_RootNode = []) ∨
          ∃ pre n, c = some ⟨n.addr⟩ ∧ l.m_RootNode = pre ++ [n]) := by
  intro k
  induction k with
  | zero =>
    intro _
    exact ⟨none, _, rfl, by simpa using ok_construct vs heap hinj hnz,
      by simp [construct_chain, values], Or.inl ⟨rfl, construct_chain _ _⟩⟩
  | succ k ih =>
    intro hk
    obtain ⟨c, l, hs, hok, hv, hc⟩ := ih (Nat.le_of_succ_le hk)
    have hlt : k < vs.length := hk
    have hdrop : vs.drop k = vs[k] :: vs.drop (k + 1) := List.drop_eq_getElem_cons hlt
    rw [hdrop] at hok
    obtain ⟨hcok, hheap, h, hh, hpend⟩ := hok
    have hok : l.ok (vs[k] :: vs.drop (k + 1)) := ⟨hcok, hheap, h, hh, hpend⟩
    obtain ⟨hdone, hdata, _⟩ := hpend
    have hvals : values (l.grown h).m_RootNode = vs.take (k + 1) := by
      rw [values_grown, hv, hdata, List.take_succ]
      simp [List.getElem?_eq_getElem hlt]
    refine ⟨some ⟨l.heap l.allocs⟩, l.grown h, ?_, ok_grown l h _ _ hh hok, hvals,
      Or.inr ⟨l.m_RootNode, ⟨l.heap l.allocs, h.m_Data⟩, rfl, rfl⟩⟩
    rcases hc with ⟨rfl, hnil⟩ | ⟨pre, n, rfl, hcn⟩
    · simp [traversal_steps, hs, list.begin, hnil, resume_eq l h hh hdone hcok, list.grown, ptr]
    · obtain ⟨hp, hz⟩ := chain_ok_concat (hcn ▸ hcok)
      have hat : node_at l.m_RootNode n.addr = some (n, []) := by
        rw [hcn]; exact node_at_append pre n [] hp
      have hinc := operator_inc_eq l n.addr n [] hat hz
      rw [hh] at hinc
      simp only [hdone] at hinc
      simp only [traversal_steps, hs]
      rw [show (({ m_NodePtr := n.addr } : iterator).operator_inc l)
        = some (⟨l.heap l.allocs⟩, l.grown h) from by simpa using hinc]
      rfl

theorem traversal_steps_end [Inhabited T] (vs : List T) (heap : Nat → Nat)
    (hinj : Function.Injective heap) (hnz : ∀ n, heap n ≠ 0) :
    ∃ l, traversal_steps (vs.length + 1) (list.construct (yields vs) heap)
        = some (some l.end_, l) ∧ l.size = vs.length ∧ l.done = some true := by
  obtain ⟨c, l, hs, hok, hv, hc⟩ := traversal_steps_ok vs heap hinj hnz vs.length (Nat.le_refl _)
  rw [List.drop_length] at hok
  rw [List.take_length] at hv
  refine ⟨l, ?_, by rw [list_size_eq, hv], done_of_ok_nil hok⟩
  obtain ⟨hcok, _, h, hh, hpend⟩ := hok
  simp only [pending] at hpend
  rcases hc with ⟨rfl, hnil⟩ | ⟨pre, n, rfl, hcn⟩
  · simp [traversal_steps, hs, list.begin, hnil, resume_done l h hh hpend, ptr, list.end_]
  · obtain ⟨hp, hz⟩ := chain_ok_concat (hcn ▸ hcok)
    have hat : node_at l.m_RootNode n.addr = some (n, []) := by
      rw [hcn]; exact node_at_append pre n [] hp
    have hinc := operator_inc_eq l n.addr n [] hat hz
    rw [hh] at hinc
    simp only [hpend, if_true] at hinc
    simp only [traversal_steps, hs, hinc]
    rfl

/-! ## Indexed access -/

theorem index_loop_hit (i : Nat) (n : node T) (next : List (node T)) :
    index_loop i i n next = n.m_Data := by
  cases next <;> simp [index_loop]

theorem index_loop_miss (i cur : Nat) (hne : cur ≠ i) :
    ∀ (n : node T) (next : List (node T)),
      some (index_loop i cur n next) = (values (n :: next)).getLast? := by
  intro n next
  induction next generalizing n with
  | nil => simp [index_loop, values]
  | cons m next ih =>
    simp only [index_loop, hne, if_false]
    rw [ih m]
    simp [values, List.getLast?_cons_cons]

theorem index_eq (l : list T) (i : Nat) (hi : i < l.size) :
    l.index i = Option.map Except.ok
      (if i ≤ 1 then (values l.m_RootNode)[i]? else (values l.m_RootNode).getLast?) := by
  have hge : ¬ i ≥ l.size := by omega
  rw [list.size, size_from_eq_length] at hi
  unfold list.index
  simp only [hge, if_false]
  cases hc : l.m_RootNode with
  | nil => simp [hc] at hi
  | cons r rest =>
    rw [hc] at hi
    by_cases h0 : i = 0
    · subst h0
      simp [values]
    · simp only [h0, if_false]
      cases rest with
      | nil => simp at hi; omega
      | cons c next =>
        by_cases h1 : i = 1
        · subst h1
          simp [index_loop_hit, values]
        · have hgt : ¬ i ≤ 1 := by omega
          simp only [hgt, if_false]
          rw [show values (r :: c :: next) = r.m_Data :: values (c :: next) from rfl,
            show values (c :: next) = c.m_Data :: values next from rfl,
            List.getLast?_cons_cons,
            ← show values (c :: next) = c.m_Data :: values next from rfl,
            ← index_loop_miss i 1 (fun e => h1 e.symm) c next]
          rfl

theorem index_ne_none (l : list T) (i : Nat) : l.index i ≠ none := by
  by_cases hi : i < l.size
  · rw [index_eq l i hi]
    have hlen : i < (values l.m_RootNode).length := by rw [← list_size_eq]; exact hi
    by_cases h1 : i ≤ 1
    · simp [h1, List.getElem?_eq_getElem hlen]
    · simp only [h1, if_false]
      cases hv : (values l.m_RootNode).getLast? with
      | none =>
        rw [List.getLast?_eq_none_iff] at hv
        rw [hv] at hlen
        simp at hlen
      | some v => simp
  · have hge : i ≥ l.size := by omega
    simp [list.index, hge]

/-! ## Removal -/

theorem remove_loop_split (p : Nat) (n : node T) (post : List (node T)) (hn : n.addr = p) :
    ∀ (pre : List (node T)) (prev : Nat), p ∉ addrs pre →
      remove_loop p prev (pre ++ n :: post)
        = ((pre.getLast?.map node.addr).getD prev, n :: post) := by
  intro pre
  induction pre with
  | nil =>
    intro prev _
    simp [remove_loop, hn]
  | cons m pre ih =>
    intro prev hp
    simp only [addrs, List.map_cons, List.mem_cons, not_or] at hp
    rw [List.cons_append]
    simp only [remove_loop, hp.1, if_false]
    rw [ih m.addr hp.2]
    cases pre with
    | nil => simp
    | cons m2 pre2 =>
      obtain ⟨v, hv⟩ : ∃ v, (m2 :: pre2).getLast? = some v :=
        Option.isSome_iff_exists.mp (List.getLast?_isSome.mpr (List.cons_ne_nil m2 pre2))
      rw [List.getLast?_cons_cons, hv]
      rfl

theorem remove_split (l : list T) (pre : List (node T)) (n : node T) (post : List (node T))
    (hc : l.m_RootNode = pre ++ n :: post) (hnd : (addrs l.m_RootNode).Nodup) :
    l.remove n.addr = some { l with m_RootNode := pre ++ post } := by
  rw [hc] at hnd
  simp only [addrs, List.map_append, List.map_cons] at hnd
  have hp : n.addr ∉ addrs pre := by
    intro hm
    exact (List.nodup_append.mp hnd).2.2 hm (by simp)
  unfold list.remove
  rw [hc, remove_loop_split n.addr n post rfl pre _ hp]
  rcases List.eq_nil_or_concat pre with rfl | ⟨pre1, m, rfl⟩
  · simp [ptr]
  · rw [List.concat_eq_append] at hnd hp ⊢
    have hmn : m.addr ≠ n.addr := by
      intro e
      apply hp
      simp [addrs, e]
    have hm : m.addr ∉ addrs pre1 := by
      intro hm
      have h1 := (List.nodup_append.mp hnd).1
      simp only [List.map_append, List.map_cons, List.map_nil] at h1
      exact (List.nodup_append.mp h1).2.2 hm (by simp)
    have hs := set_next_append pre1 m (n :: post) post hm
    have hl : (pre1 ++ [m]).getLast? = some m := by simp
    rw [hl]
    simp only [Option.map_some', Option.getD_some, hmn, if_false]
    rw [show pre1 ++ [m] ++ n :: post = pre1 ++ m :: (n :: post) from by simp, hs]
    simp

theorem split_at_index (ch : List (node T)) (i : Nat) (n : node T)
    (hi : ch[i]? = some n) :
    ch = ch.take i ++ n :: ch.drop (i + 1) ∧ (ch.take i).length = i := by
  have hlt : i < ch.length := by
    by_contra hge
    rw [List.getElem?_eq_none (by omega)] at hi
    cases hi
  have hn : ch[i] = n := by
    rw [List.getElem?_eq_getElem hlt] at hi
    exact Option.some.inj hi
  refine ⟨?_, by rw [List.length_take]; omega⟩
  conv_lhs => rw [← List.take_append_drop i ch]
  rw [List.drop_eq_getElem_cons hlt, hn]

theorem erase_at_index (l : list T) (i : Nat) (n : node T)
    (hnd : (addrs l.m_RootNode).Nodup) (hi : l.m_RootNode[i]? = some n) :
    l.erase ⟨n.addr⟩ = some { l with m_RootNode := l.m_RootNode.eraseIdx i } := by
  obtain ⟨hc, _⟩ := split_at_index l.m_RootNode i n hi
  rw [list.erase, remove_split l _ n _ hc hnd, List.eraseIdx_eq_take_drop_succ]

/-! ## Range removal when the addresses rise from `first` to `last` -/

theorem erase_loop_segment : ∀ (mid : List (node T)) (fuel : Nat) (l : list T)
    (pre tail : List (node T)), l.m_RootNode = pre ++ (mid ++ tail) →
    (addrs l.m_RootNode).Nodup → ptr tail ∉ addrs mid → mid.length ≤ fuel →
    erase_loop fuel l (ptr (mid ++ tail)) (ptr tail)
      = some { l with m_RootNode := pre ++ tail } := by
  intro mid
  induction mid with
  | nil =>
    intro fuel l pre tail hc _ _ _
    have hl : l = { l with m_RootNode := pre ++ tail } := by
      cases l
      simp only [List.nil_append] at hc
      simp only [hc]
    cases fuel with
    | zero => simp only [erase_loop, List.nil_append, if_true]; exact congrArg some hl
    | succ fuel => simp only [erase_loop, List.nil_append, if_true]; exact congrArg some hl
  | cons m mid ih =>
    intro fuel l pre tail hc hnd hlast hf
    cases fuel with
    | zero => simp at hf
    | succ fuel =>
      have hne : ¬ m.addr = ptr tail := by
        intro e
        apply hlast
        simp [addrs, e]
      have hsplit : l.m_RootNode = pre ++ m :: (mid ++ tail) := by simpa using hc
      have hp : m.addr ∉ addrs pre := by
        intro hm
        rw [hsplit] at hnd
        simp only [addrs, List.map_append, List.map_cons] at hnd
        exact (List.nodup_append.mp hnd).2.2 hm (by simp)
      have hat : node_at l.m_RootNode m.addr = some (m, mid ++ tail) := by
        rw [hsplit]; exact node_at_append pre m _ hp
      have hrem := remove_split l pre m (mid ++ tail) hsplit hnd
      have hnd1 : (addrs (pre ++ (mid ++ tail))).Nodup := by
        rw [hsplit] at hnd
        simp only [addrs, List.map_append, List.map_cons] at hnd ⊢
        have h1 := List.nodup_append.mp hnd
        rw [List.nodup_append]
        refine ⟨h1.1, (List.nodup_cons.mp h1.2.1).2, ?_⟩
        intro a ha hb
        exact h1.2.2 ha (List.mem_cons_of_mem _ hb)
      have hlast1 : ptr tail ∉ addrs mid := by
        intro hm
        apply hlast
        simp only [addrs, List.map_cons, List.mem_cons]
        exact Or.inr hm
      have hrec := ih fuel { l with m_RootNode := pre ++ (mid ++ tail) } pre tail rfl hnd1
        hlast1 (by simp only [List.length_cons] at hf; omega)
      rw [List.cons_append, show ptr (m :: (mid ++ tail)) = m.addr from rfl]
      simp only [erase_loop, hne, if_false, hat, list.erase, hrem]
      exact hrec

theorem erase_range_ascending (l : list T) (pre mid tail : List (node T)) (m : node T)
    (hc : l.m_RootNode = pre ++ (m :: mid ++ tail)) (hnd : (addrs l.m_RootNode).Nodup)
    (hlt : m.addr < ptr tail) :
    l.erase_range ⟨m.addr⟩ ⟨ptr tail⟩ = some { l with m_RootNode := pre ++ tail } := by
  have hge : iterator.ge ⟨m.addr⟩ ⟨ptr tail⟩ = false := by
    simp only [iterator.ge, decide_eq_false_iff_not]
    omega
  have hlast : ptr tail ∉ addrs (m :: mid) := by
    cases tail with
    | nil => simp [ptr] at hlt
    | cons t tail =>
      intro hm
      rw [hc] at hnd
      simp only [addrs, List.map_append] at hnd
      have h1 := (List.nodup_append.mp hnd).2.1
      rw [← List.map_append] at h1
      have h2 := List.nodup_append.mp (by simpa using h1 :
        (List.map node.addr (m :: mid) ++ List.map node.addr (t :: tail)).Nodup)
      exact h2.2.2 hm (by simp [ptr])
  have hlen : (m :: mid).length ≤ l.size := by
    rw [list.size, size_from_eq_length, hc]
    simp only [List.length_append, List.length_cons]
    omega
  unfold list.erase_range
  rw [hge]
  simp only [Bool.false_eq_true, if_false]
  exact erase_loop_segment (m :: mid) l.size l pre tail hc hnd hlast hlen

/-! ## Head insertion -/

theorem push_front_eq (l : list T) (x : T) :
    l.push_front x =
      { l with m_RootNode := ⟨l.heap l.allocs, x⟩ :: l.m_RootNode, allocs := l.allocs + 1 } :=
  rfl

theorem ok_push_front (l : list T) (x : T) (R : List T) (hok : l.ok R) :
    (l.push_front x).ok R := by
  obtain ⟨⟨hnd, hnz⟩, hheap, h, hh, hp⟩ := hok
  obtain ⟨a0, a1, _⟩ := hheap l.allocs (Nat.le_refl _)
  rw [push_front_eq]
  refine ⟨⟨?_, ?_⟩, ?_, h, hh, hp⟩
  · simp only [addrs, List.map_cons, List.nodup_cons]
    exact ⟨a1, hnd⟩
  · simp only [addrs, List.map_cons, List.mem_cons, not_or]
    exact ⟨fun e => a0 e.symm, hnz⟩
  · intro n hn
    have hn0 : l.allocs + 1 ≤ n := hn
    obtain ⟨b0, b1, b2⟩ := hheap n (by omega)
    refine ⟨b0, ?_, fun m hm e => b2 m (Nat.le_of_succ_le hm) e⟩
    simp only [addrs, List.map_cons, List.mem_cons, not_or]
    refine ⟨?_, b1⟩
    intro e
    have := b2 l.allocs (Nat.le_refl _) e
    omega

/-! ## Clearing, and the demonstration list -/

theorem clear_loop_eq (ch : List (node T)) : clear_loop ch = [] := by
  induction ch with
  | nil => rfl
  | cons n next ih => simpa [clear_loop] using ih

theorem clear_eq (l : list T) : l.clear = { l with m_RootNode := [] } := by
  simp [list.clear, clear_loop_eq]

theorem demo_state_ok (k : Nat) (hk : k ≤ 10) :
    (demo_state k).ok (((List.range 10).map (fun i => i * 10)).drop k) := by
  obtain ⟨c, l, hs, hok, _, _⟩ := traversal_steps_ok ((List.range 10).map (fun i => i * 10))
    bump_heap bump_heap_injective bump_heap_ne_zero k (by simpa using hk)
  have hd : demo_state k = l := by
    unfold demo_state do_something
    rw [hs]
  rw [hd]
  exact hok

/-! ## Advance by `n` -/

theorem add_loop_inside (root : List (node T)) (hok : chain_ok root) :
    ∀ (k : Nat) (pre w : List (node T)), root = pre ++ w → k < w.length →
      add_loop root (ptr w) k = some (ptr (w.drop k), 0) := by
  intro k
  induction k with
  | zero => intro pre w _ _; rfl
  | succ k ih =>
    intro pre w hc hk
    cases w with
    | nil => simp at hk
    | cons n post =>
      obtain ⟨hp, hz⟩ := mem_addrs_of_split hc hok
      have hat : node_at root n.addr = some (n, post) := by
        rw [hc]; exact node_at_append pre n post hp
      have hrec := ih (pre ++ [n]) post (by simp [hc])
        (by simp only [List.length_cons] at hk; omega)
      simp only [add_loop, ptr, hz, if_false, hat]
      simpa [ptr] using hrec

theorem add_loop_beyond (root : List (node T)) (hok : chain_ok root) :
    ∀ (w pre : List (node T)) (k : Nat), root = pre ++ w → w.length ≤ k →
      add_loop root (ptr w) k = some (0, k - w.length) := by
  intro w
  induction w with
  | nil =>
    intro pre k _ _
    cases k with
    | zero => rfl
    | succ k => simp [add_loop, ptr]
  | cons n post ih =>
    intro pre k hc hk
    cases k with
    | zero => simp at hk
    | succ k =>
      obtain ⟨hp, hz⟩ := mem_addrs_of_split hc hok
      have hat : node_at root n.addr = some (n, post) := by
        rw [hc]; exact node_at_append pre n post hp
      have hrec := ih (pre ++ [n]) k (by simp [hc])
        (by simp only [List.length_cons] at hk; omega)
      rw [show ptr (n :: post) = n.addr from rfl]
      simp only [add_loop, hz, if_false, hat]
      rw [hrec]
      simp

theorem inc_times_inside (l : list T) (hok : chain_ok l.m_RootNode) :
    ∀ (k : Nat) (pre w : List (node T)), l.m_RootNode = pre ++ w → k < w.length →
      iterator.inc_times k ⟨ptr w⟩ l = some (⟨ptr (w.drop k)⟩, l) := by
  intro k
  induction k with
  | zero => intro pre w _ _; rfl
  | succ k ih =>
    intro pre w hc hk
    cases w with
    | nil => simp at hk
    | cons n post =>
      cases post with
      | nil => simp at hk
      | cons m post =>
        obtain ⟨hp, hz⟩ := mem_addrs_of_split hc hok
        have hat : node_at l.m_RootNode n.addr = some (n, m :: post) := by
          rw [hc]; exact node_at_append pre n _ hp
        have hinc := operator_inc_eq l n.addr n (m :: post) hat hz
        simp only at hinc
        have hrec := ih (pre ++ [n]) (m :: post) (by simp [hc])
          (by simp only [List.length_cons] at hk ⊢; omega)
        simp only [iterator.inc_times, ptr, hinc]
        simpa [ptr] using hrec

/-! ## Tail insertion -/

theorem push_back_nil_eq_push_front (l : list T) (x : T) (hc : l.m_RootNode = []) :
    l.push_back x = some (l.push_front x) := by
  rw [push_back_nil l x hc, push_front_eq, hc]
  rfl

theorem ok_push_back (l : list T) (x : T) (R : List T) (hok : l.ok R) :
    ∃ l1, l.push_back x = some l1 ∧ l1.ok R ∧
      l1.m_RootNode = l.m_RootNode ++ [⟨l.heap l.allocs, x⟩] ∧
      l1.m_Handler = l.m_Handler ∧ l1.heap = l.heap ∧ l1.allocs = l.allocs + 1 := by
  refine ⟨_, push_back_eq l x hok.1, ?_, rfl, rfl, rfl, rfl⟩
  obtain ⟨⟨hnd, hnz⟩, hheap, h, hh, hp⟩ := hok
  obtain ⟨a0, a1, _⟩ := hheap l.allocs (Nat.le_refl _)
  refine ⟨⟨?_, ?_⟩, ?_, h, hh, hp⟩
  · simp only [addrs, List.map_append, List.map_cons, List.map_nil]
    rw [List.nodup_append]
    refine ⟨hnd, by simp, ?_⟩
    intro a ha hb
    simp only [List.mem_singleton] at hb
    subst hb
    exact a1 ha
  · simp only [addrs, List.map_append, List.map_cons, List.map_nil, List.mem_append,
      List.mem_singleton, not_or]
    exact ⟨hnz, fun e => a0 e.symm⟩
  · intro n hn
    have hn0 : l.allocs + 1 ≤ n := hn
    obtain ⟨b0, b1, b2⟩ := hheap n (by omega)
    refine ⟨b0, ?_, fun m hm e => b2 m (Nat.le_of_succ_le hm) e⟩
    simp only [addrs, List.map_append, List.map_cons, List.map_nil, List.mem_append,
      List.mem_singleton, not_or]
    refine ⟨b1, ?_⟩
    intro e
    have := b2 l.allocs (Nat.le_refl _) e
    omega

theorem push_back_then_traverse (l : list T) (x : T) (R : List T) (fuel : Nat)
    (hok : l.ok R) (hf : l.m_RootNode.length + R.length + 2 ≤ fuel) :
    ∃ l1 l2, l.push_back x = some l1 ∧
      l1.traverse fuel = some (values l.m_RootNode ++ x :: R, l2.end_, l2) ∧
      values l2.m_RootNode = values l.m_RootNode ++ x :: R := by
  obtain ⟨l1, h1, h2, h3, _⟩ := ok_push_back l x R hok
  obtain ⟨l2, g1, _, g3⟩ := traverse_ok l1 R fuel h2 (by rw [h3]; simp; omega)
  rw [h3] at g1 g3
  refine ⟨l1, l2, h1, ?_, ?_⟩
  · simpa [values] using g1
  · simpa [values] using g3

/-! ## Searching -/

theorem find_loop_end [DecidableEq T] (v : T) (fuel : Nat) (l : list T) :
    find_loop v (fuel + 1) ⟨0⟩ l = some (⟨0⟩, l) := by
  simp [find_loop, list.end_]

theorem find_loop_hit [DecidableEq T] (v : T) (fuel : Nat) (it : iterator) (l : list T)
    (hne : it.m_NodePtr ≠ 0) (hd : it.deref l = some v) :
    find_loop v (fuel + 1) it l = some (it, l) := by
  have hne2 : it ≠ l.end_ := by
    intro e
    apply hne
    rw [e]
    rfl
  simp [find_loop, hne2, hd]

theorem find_loop_step [DecidableEq T] (v d : T) (fuel : Nat) (it it1 : iterator) (l l1 : list T)
    (hne : it.m_NodePtr ≠ 0) (hd : it.deref l = some d) (hdv : d ≠ v)
    (hi : it.operator_inc l = some (it1, l1)) :
    find_loop v (fuel + 1) it l = find_loop v fuel it1 l1 := by
  have hne2 : it ≠ l.end_ := by
    intro e
    apply hne
    rw [e]
    rfl
  simp [find_loop, hne2, hd, hdv, hi]

theorem operator_inc_inside (l : list T) (p : Nat) (n : node T) (next : List (node T))
    (hat : node_at l.m_RootNode p = some (n, next)) (hz : p ≠ 0) (hne : next ≠ []) :
    iterator.operator_inc ⟨p⟩ l = some (⟨ptr next⟩, l) := by
  have h := operator_inc_eq l p n next hat hz
  cases next with
  | nil => exact absurd rfl hne
  | cons m rest => exact h

theorem operator_inc_last_grow (l : list T) (h : coro_frame T) (pre : List (node T))
    (n : node T) (r : T) (R : List T) (hok : l.ok (r :: R)) (hh : l.m_Handler = some h)
    (hc : l.m_RootNode = pre ++ [n]) :
    iterator.operator_inc ⟨n.addr⟩ l = some (⟨l.heap l.allocs⟩, l.grown h) ∧ h.m_Data = r := by
  obtain ⟨hcok, _, h2, hh2, hpend⟩ := hok
  rw [hh] at hh2
  cases hh2
  obtain ⟨hdone, hv, _⟩ := hpend
  obtain ⟨hp, hz⟩ := chain_ok_concat (hc ▸ hcok)
  have hat : node_at l.m_RootNode n.addr = some (n, []) := by
    rw [hc]; exact node_at_append pre n [] hp
  have hinc := operator_inc_eq l n.addr n [] hat hz
  rw [hh] at hinc
  simp only [hdone] at hinc
  exact ⟨by simpa using hinc, hv⟩

theorem operator_inc_last_done (l : list T) (pre : List (node T)) (n : node T)
    (hok : l.ok []) (hc : l.m_RootNode = pre ++ [n]) :
    iterator.operator_inc ⟨n.addr⟩ l = some (⟨0⟩, l) := by
  obtain ⟨hcok, _, h, hh, hpend⟩ := hok
  simp only [pending] at hpend
  obtain ⟨hp, hz⟩ := chain_ok_concat (hc ▸ hcok)
  have hat : node_at l.m_RootNode n.addr = some (n, []) := by
    rw [hc]; exact node_at_append pre n [] hp
  have hinc := operator_inc_eq l n.addr n [] hat hz
  rw [hh] at hinc
  simp only [hpend, if_true] at hinc
  exact hinc

theorem deref_split (l : list T) (pre post : List (node T)) (n : node T)
    (hc : l.m_RootNode = pre ++ n :: post) (hok : chain_ok l.m_RootNode) :
    iterator.deref ⟨n.addr⟩ l = some n.m_Data ∧
      node_at l.m_RootNode n.addr = some (n, post) ∧ n.addr ≠ 0 := by
  obtain ⟨hp, hz⟩ := mem_addrs_of_split hc hok
  have hat : node_at l.m_RootNode n.addr = some (n, post) := by
    rw [hc]; exact node_at_append pre n post hp
  exact ⟨by simp [iterator.deref, hat], hat, hz⟩

theorem find_skip [DecidableEq T] (v : T) (l : list T) (hok : chain_ok l.m_RootNode) (m : node T)
    (rest : List (node T)) :
    ∀ (w pre : List (node T)) (f : Nat), l.m_RootNode = pre ++ (w ++ m :: rest) →
      v ∉ values w →
      find_loop v (w.length + f) ⟨ptr (w ++ m :: rest)⟩ l = find_loop v f ⟨m.addr⟩ l := by
  intro w
  induction w with
  | nil =>
    intro pre f _ _
    simp [ptr]
  | cons a w ih =>
    intro pre f hc hv
    simp only [values, List.map_cons, List.mem_cons, not_or] at hv
    have hc1 : l.m_RootNode = pre ++ a :: (w ++ m :: rest) := by simpa using hc
    obtain ⟨hd, hat, hz⟩ := deref_split l pre _ a hc1 hok
    have hinc := operator_inc_inside l a.addr a _ hat hz (by simp)
    have hrec := ih (pre ++ [a]) f (by simp [hc1]) hv.2
    rw [show (a :: w).length + f = (w.length + f) + 1 from by simp; omega,
      show ptr (a :: w ++ m :: rest) = a.addr from rfl,
      find_loop_step v a.m_Data _ ⟨a.addr⟩ _ l l hz hd (fun e => hv.1 e.symm) hinc]
    exact hrec

theorem find_at_last_found [DecidableEq T] (v : T) :
    ∀ (A : List T) (fuel : Nat) (l : list T) (pre : List (node T)) (n : node T) (B : List T),
      l.ok (A ++ v :: B) → l.m_RootNode = pre ++ [n] → n.m_Data ≠ v → v ∉ A →
      A.length + 2 ≤ fuel →
      ∃ l1 pre1 m, find_loop v fuel ⟨n.addr⟩ l = some (⟨m.addr⟩, l1) ∧
        l1.m_RootNode = pre1 ++ [m] ∧ m.m_Data = v ∧
        values l1.m_RootNode = values l.m_RootNode ++ A ++ [v] ∧ l1.ok B := by
  intro A
  induction A with
  | nil =>
    intro fuel l pre n B hok hc hn _ hf
    obtain ⟨h, hh, _⟩ := hok.2.2
    obtain ⟨hinc, hdata⟩ := operator_inc_last_grow l h pre n v B hok hh hc
    obtain ⟨hd, _, hz⟩ := deref_split l pre [] n hc hok.1
    have hg := ok_grown l h v B hh hok
    obtain ⟨hd2, _, hz2⟩ := deref_split (l.grown h) l.m_RootNode []
      ⟨l.heap l.allocs, h.m_Data⟩ rfl hg.1
    obtain ⟨f, rfl⟩ : ∃ f, fuel = f + 2 := ⟨fuel - 2, by simp at hf; omega⟩
    refine ⟨l.grown h, l.m_RootNode, ⟨l.heap l.allocs, h.m_Data⟩, ?_, rfl, hdata, ?_, hg⟩
    · rw [find_loop_step v n.m_Data (f + 1) ⟨n.addr⟩ _ l _ hz hd hn hinc]
      exact find_loop_hit v f _ _ hz2 (by rw [hd2, hdata])
    · rw [values_grown, hdata]
      simp
  | cons a A ih =>
    intro fuel l pre n B hok hc hn hv hf
    simp only [List.mem_cons, not_or] at hv
    obtain ⟨h, hh, _⟩ := hok.2.2
    have hok1 : l.ok (a :: (A ++ v :: B)) := by simpa using hok
    obtain ⟨hinc, hdata⟩ := operator_inc_last_grow l h pre n a _ hok1 hh hc
    obtain ⟨hd, _, hz⟩ := deref_split l pre [] n hc hok.1
    have hg := ok_grown l h a _ hh hok1
    obtain ⟨f, rfl⟩ : ∃ f, fuel = f + 1 := ⟨fuel - 1, by simp at hf; omega⟩
    obtain ⟨l1, pre1, m, h1, h2, h3, h4, h5⟩ := ih f (l.grown h) l.m_RootNode
      ⟨l.heap l.allocs, h.m_Data⟩ B hg rfl (by rw [hdata]; exact fun e => hv.1 e.symm) hv.2
      (by simp only [List.length_cons] at hf; omega)
    refine ⟨l1, pre1, m, ?_, h2, h3, ?_, h5⟩
    · rw [find_loop_step v n.m_Data f ⟨n.addr⟩ _ l _ hz hd hn hinc]
      exact h1
    · rw [h4, values_grown, hdata]
      simp

theorem find_at_last_absent [DecidableEq T] (v : T) :
    ∀ (R : List T) (fuel : Nat) (l : list T) (pre : List (node T)) (n : node T),
      l.ok R → l.m_RootNode = pre ++ [n] → n.m_Data ≠ v → v ∉ R → R.length + 2 ≤ fuel →
      ∃ l1, find_loop v fuel ⟨n.addr⟩ l = some (⟨0⟩, l1) ∧
        values l1.m_RootNode = values l.m_RootNode ++ R ∧ l1.ok [] := by
  intro R
  induction R with
  | nil =>
    intro fuel l pre n hok hc hn _ hf
    obtain ⟨hd, _, hz⟩ := deref_split l pre [] n hc hok.1
    have hinc := operator_inc_last_done l pre n hok hc
    obtain ⟨f, rfl⟩ : ∃ f, fuel = f + 2 := ⟨fuel - 2, by simp at hf; omega⟩
    refine ⟨l, ?_, by simp, hok⟩
    rw [find_loop_step v n.m_Data (f + 1) ⟨n.addr⟩ _ l _ hz hd hn hinc]
    exact find_loop_end v f l
  | cons a R ih =>
    intro fuel l pre n hok hc hn hv hf
    simp only [List.mem_cons, not_or] at hv
    obtain ⟨h, hh, _⟩ := hok.2.2
    obtain ⟨hinc, hdata⟩ := operator_inc_last_grow l h pre n a R hok hh hc
    obtain ⟨hd, _, hz⟩ := deref_split l pre [] n hc hok.1
    have hg := ok_grown l h a R hh hok
    obtain ⟨f, rfl⟩ : ∃ f, fuel = f + 1 := ⟨fuel - 1, by simp at hf; omega⟩
    obtain ⟨l1, h1, h2, h3⟩ := ih f (l.grown h) l.m_RootNode ⟨l.heap l.allocs, h.m_Data⟩ hg rfl
      (by rw [hdata]; exact fun e => hv.1 e.symm) hv.2
      (by simp only [List.length_cons] at hf; omega)
    refine ⟨l1, ?_, ?_, h3⟩
    · rw [find_loop_step v n.m_Data f ⟨n.addr⟩ _ l _ hz hd hn hinc]
      exact h1
    · rw [h2, values_grown, hdata]
      simp

theorem first_node_split (v : T) (ch : List (node T)) (h : v ∈ values ch) :
    ∃ w m rest, ch = w ++ m :: rest ∧ v ∉ values w ∧ m.m_Data = v := by
  induction ch with
  | nil => simp [values] at h
  | cons a ch ih =>
    by_cases ha : a.m_Data = v
    · exact ⟨[], a, ch, rfl, by simp [values], ha⟩
    · have h2 : v ∈ values ch := by
        simp only [values, List.map_cons, List.mem_cons] at h
        rcases h with h | h
        · exact absurd h.symm ha
        · exact h
      obtain ⟨w, m, rest, hc, hw, hm⟩ := ih h2
      refine ⟨a :: w, m, rest, by simp [hc], ?_, hm⟩
      simp only [values, List.map_cons, List.mem_cons, not_or]
      exact ⟨fun e => ha e.symm, hw⟩

theorem begin_nonempty (l : list T) (h : l.m_RootNode ≠ []) :
    l.begin = some (⟨ptr l.m_RootNode⟩, l) := by
  unfold list.begin
  cases hc : l.m_RootNode with
  | nil => exact absurd hc h
  | cons n rest => rfl

theorem begin_empty_grow (l : list T) (h : coro_frame T) (r : T) (R : List T)
    (hok : l.ok (r :: R)) (hh : l.m_Handler = some h) (hc : l.m_RootNode = []) :
    l.begin = some (⟨l.heap l.allocs⟩, l.grown h) ∧ h.m_Data = r := by
  obtain ⟨hcok, _, h2, hh2, hpend⟩ := hok
  rw [hh] at hh2
  cases hh2
  obtain ⟨hdone, hv, _⟩ := hpend
  refine ⟨?_, hv⟩
  simp [list.begin, hc, resume_eq l h hh hdone hcok, list.grown, ptr]

theorem begin_empty_done (l : list T) (hok : l.ok []) (hc : l.m_RootNode = []) :
    l.begin = some (⟨0⟩, l) := by
  obtain ⟨_, _, h, hh, hpend⟩ := hok
  simp only [pending] at hpend
  simp [list.begin, hc, resume_done l h hh hpend, ptr]

theorem find_ok [DecidableEq T] (l : list T) (R : List T) (v : T) (fuel : Nat)
    (hok : l.ok R) (hf : l.m_RootNode.length + R.length + 1 ≤ fuel) :
    (∃ w m rest, l.m_RootNode = w ++ m :: rest ∧ v ∉ values w ∧ m.m_Data = v ∧
        l.find v fuel = some (⟨m.addr⟩, l)) ∨
    (v ∉ values l.m_RootNode ∧ ∃ A B l1 pre1 m, R = A ++ v :: B ∧ v ∉ A ∧
        l.find v fuel = some (⟨m.addr⟩, l1) ∧ l1.m_RootNode = pre1 ++ [m] ∧ m.m_Data = v ∧
        values l1.m_RootNode = values l.m_RootNode ++ A ++ [v] ∧ l1.ok B) ∨
    (v ∉ values l.m_RootNode ∧ v ∉ R ∧ ∃ l1, l.find v fuel = some (⟨0⟩, l1) ∧
        values l1.m_RootNode = values l.m_RootNode ++ R ∧ l1.ok []) := by
  by_cases hin : v ∈ values l.m_RootNode
  · left
    obtain ⟨w, m, rest, hc, hw, hm⟩ := first_node_split v _ hin
    refine ⟨w, m, rest, hc, hw, hm, ?_⟩
    have hne : l.m_RootNode ≠ [] := by rw [hc]; simp
    obtain ⟨hd, _, hz⟩ := deref_split l w rest m hc hok.1
    obtain ⟨f, rfl⟩ : ∃ f, fuel = w.length + (f + 1) :=
      ⟨fuel - w.length - 1, by rw [hc] at hf; simp at hf; omega⟩
    simp only [list.find, begin_nonempty l hne]
    rw [hc, find_skip v l hok.1 m rest w [] (f + 1) (by simpa using hc) hw]
    exact find_loop_hit v f _ _ hz (by rw [hd, hm])
  · right
    rcases List.eq_nil_or_concat l.m_RootNode with hnil | ⟨pre, n, hcn⟩
    · -- empty chain: `begin()` asks the generator
      cases R with
      | nil =>
        right
        refine ⟨hin, by simp, l, ?_, by simp, hok⟩
        obtain ⟨f, rfl⟩ : ∃ f, fuel = f + 1 := ⟨fuel - 1, by omega⟩
        simp only [list.find, begin_empty_done l hok hnil]
        exact find_loop_end v f l
      | cons r R =>
        obtain ⟨h, hh, _⟩ := hok.2.2
        obtain ⟨hb, hdata⟩ := begin_empty_grow l h r R hok hh hnil
        have hg := ok_grown l h r R hh hok
        have hroot : (l.grown h).m_RootNode = [] ++ [⟨l.heap l.allocs, h.m_Data⟩] := by
          simp [list.grown, hnil]
        obtain ⟨hd2, _, hz2⟩ := deref_split (l.grown h) [] [] ⟨l.heap l.allocs, h.m_Data⟩
          hroot hg.1
        have hvals : values (l.grown h).m_RootNode = values l.m_RootNode ++ [r] := by
          rw [values_grown, hdata]
        simp only [List.length_cons] at hf
        by_cases hr : r = v
        · left
          subst hr
          refine ⟨hin, [], R, l.grown h, [], ⟨l.heap l.allocs, h.m_Data⟩, rfl, by simp, ?_,
            hroot, hdata, by simpa using hvals, hg⟩
          obtain ⟨f, rfl⟩ : ∃ f, fuel = f + 1 := ⟨fuel - 1, by omega⟩
          simp only [list.find, hb]
          exact find_loop_hit r f _ _ hz2 (by rw [hd2, hdata])
        · by_cases hinR : v ∈ R
          · left
            obtain ⟨A, B, hR, hA⟩ := List.eq_append_cons_of_mem hinR
            subst hR
            obtain ⟨l1, pre1, m, h1, h2, h3, h4, h5⟩ := find_at_last_found v A fuel (l.grown h)
              [] ⟨l.heap l.allocs, h.m_Data⟩ B hg hroot (by rw [hdata]; exact hr) hA
              (by simp at hf; omega)
            refine ⟨hin, r :: A, B, l1, pre1, m, rfl, ?_, ?_, h2, h3, ?_, h5⟩
            · simp only [List.mem_cons, not_or]
              exact ⟨fun e => hr e.symm, hA⟩
            · simp only [list.find, hb]
              exact h1
            · rw [h4, hvals]
              simp
          · right
            obtain ⟨l1, h1, h2, h3⟩ := find_at_last_absent v R fuel (l.grown h) []
              ⟨l.heap l.allocs, h.m_Data⟩ hg hroot (by rw [hdata]; exact hr) hinR (by omega)
            refine ⟨hin, ?_, l1, ?_, ?_, h3⟩
            · simp only [List.mem_cons, not_or]
              exact ⟨fun e => hr e.symm, hinR⟩
            · simp only [list.find, hb]
              exact h1
            · rw [h2, hvals]
              simp
    · -- the chain is walked to its last node first
      rw [List.concat_eq_append] at hcn
      have hne : l.m_RootNode ≠ [] := by rw [hcn]; simp
      have hpre : v ∉ values pre ∧ n.m_Data ≠ v := by
        rw [hcn] at hin
        simp only [values, List.map_append, List.map_cons, List.map_nil, List.mem_append,
          List.mem_singleton, not_or] at hin
        exact ⟨hin.1, fun e => hin.2 e.symm⟩
      rw [hcn] at hf
      simp only [List.length_append, List.length_cons, List.length_nil] at hf
      obtain ⟨f, rfl⟩ : ∃ f, fuel = pre.length + f := ⟨fuel - pre.length, by omega⟩
      have hskip := find_skip v l hok.1 n [] pre [] f (by simpa using hcn) hpre.1
      have hfind : l.find v (pre.length + f) = find_loop v f ⟨n.addr⟩ l := by
        simp only [list.find, begin_nonempty l hne]
        rw [hcn]
        exact hskip
      by_cases hinR : v ∈ R
      · left
        obtain ⟨A, B, hR, hA⟩ := List.eq_append_cons_of_mem hinR
        subst hR
        obtain ⟨l1, pre1, m, h1, h2, h3, h4, h5⟩ := find_at_last_found v A f l pre n B hok hcn
          hpre.2 hA (by simp at hf; omega)
        exact ⟨hin, A, B, l1, pre1, m, rfl, hA, by rw [hfind]; exact h1, h2, h3, h4, h5⟩
      · right
        obtain ⟨l1, h1, h2, h3⟩ := find_at_last_absent v R f l pre n hok hcn hpre.2 hinR
          (by omega)
        exact ⟨hin, hinR, l1, by rw [hfind]; exact h1, h2, h3⟩

theorem getElem?_split (w : List (node T)) (m : node T) (rest : List (node T)) :
    (w ++ m :: rest)[w.length]? = some m := by
  induction w with
  | nil => simp
  | cons a w ih => simpa using ih

theorem first_split_unique (v : T) :
    ∀ (A A1 B B1 : List T), A ++ v :: B = A1 ++ v :: B1 → v ∉ A → v ∉ A1 → A = A1 := by
  intro A
  induction A with
  | nil =>
    intro A1 B B1 h _ h1
    cases A1 with
    | nil => rfl
    | cons a A1 =>
      simp only [List.nil_append, List.cons_append, List.cons.injEq] at h
      exact absurd (by simp [h.1]) h1
  | cons a A ih =>
    intro A1 B B1 h h0 h1
    cases A1 with
    | nil =>
      simp only [List.nil_append, List.cons_append, List.cons.injEq] at h
      exact absurd (by simp [h.1]) h0
    | cons a1 A1 =>
      simp only [List.cons_append, List.cons.injEq] at h
      simp only [List.mem_cons, not_or] at h0 h1
      rw [h.1, ih A1 B B1 h.2 h0.2 h1.2]

/-! ## What every reachable list satisfies -/

theorem generated_from_append (heap : Nat → Nat) :
    ∀ (A B : List T) (i : Nat),
      generated_from heap i (A ++ B)
        = generated_from heap i A ++ generated_from heap (i + A.length) B := by
  intro A
  induction A with
  | nil => intro B i; simp [generated_from]
  | cons a A ih =>
    intro B i
    rw [List.cons_append]
    simp only [generated_from, List.length_cons, List.cons_append]
    rw [ih B (i + 1), show i + 1 + A.length = i + (A.length + 1) from by omega]

theorem values_generated_from (heap : Nat → Nat) :
    ∀ (A : List T) (i : Nat), values (generated_from heap i A) = A := by
  intro A
  induction A with
  | nil => intro i; rfl
  | cons a A ih =>
    intro i
    simp only [generated_from, values, List.map_cons]
    exact congrArg (List.cons a) (ih (i + 1))

theorem generated_succ (vs : List T) (heap : Nat → Nat) (k : Nat) (hk : k < vs.length) :
    generated vs heap (k + 1) = generated vs heap k ++ [⟨heap k, vs[k]⟩] := by
  unfold generated
  rw [List.take_succ, List.getElem?_eq_getElem hk, generated_from_append]
  simp [generated_from, List.length_take, Nat.min_eq_left (Nat.le_of_lt hk)]

theorem frame_of_ok {l : list T} {R : List T} {h : coro_frame T} (hok : l.ok R)
    (hh : l.m_Handler = some h) : pending h R := by
  obtain ⟨_, _, h2, hh2, hp⟩ := hok
  rw [hh] at hh2
  cases hh2
  exact hp

theorem resume_pc (h : coro_frame T) : h.resume.pc = h.pc + 1 := by
  unfold coro_frame.resume
  cases h.body (h.pc + 1) <;> rfl

theorem reached_grown (vs : List T) (heap : Nat → Nat) (p : Nat) (l : list T)
    (h : coro_frame T) (hr : reached vs heap p l) (hh : l.m_Handler = some h)
    (hd : h.done = false) : reached vs heap p (l.grown h) := by
  obtain ⟨k, h1, hk, hh1, hpc, hok, hal, hheap, hsub⟩ := hr
  rw [hh] at hh1
  cases hh1
  have hpend := frame_of_ok hok hh
  have hlt : k < vs.length := by
    by_contra hge
    rw [List.drop_eq_nil_of_le (by omega)] at hpend
    simp only [pending] at hpend
    rw [hd] at hpend
    cases hpend
  have hdrop : vs.drop k = vs[k] :: vs.drop (k + 1) := List.drop_eq_getElem_cons hlt
  rw [hdrop] at hok hpend
  refine ⟨k + 1, h.resume, hlt, rfl, by rw [resume_pc, hpc], ok_grown l h _ _ hh hok, ?_,
    hheap, ?_⟩
  · simp only [list.grown, hal]
    omega
  · intro hp0
    subst hp0
    rw [generated_succ vs heap k hlt]
    have hdata : h.m_Data = vs[k] := hpend.2.1
    have hnew : (⟨l.heap l.allocs, h.m_Data⟩ : node T) = ⟨heap k, vs[k]⟩ := by
      rw [hheap, hal, hdata]
      rfl
    simp only [list.grown, hnew]
    exact List.Sublist.append (hsub rfl) (List.Sublist.refl _)

theorem ok_sub (l : list T) (R : List T) (root : List (node T)) (hok : l.ok R)
    (hs : root.Sublist l.m_RootNode) : ({ l with m_RootNode := root } : list T).ok R := by
  obtain ⟨⟨hnd, hnz⟩, hheap, hp⟩ := hok
  have hsa : (addrs root).Sublist (addrs l.m_RootNode) := List.Sublist.map _ hs
  refine ⟨⟨hsa.nodup hnd, fun h0 => hnz (hsa.subset h0)⟩, ?_, hp⟩
  intro n hn
  obtain ⟨b0, b1, b2⟩ := hheap n hn
  exact ⟨b0, fun hm => b1 (hsa.subset hm), b2⟩

theorem reached_sub (vs : List T) (heap : Nat → Nat) (p : Nat) (l : list T)
    (root : List (node T)) (hr : reached vs heap p l) (hs : root.Sublist l.m_RootNode) :
    reached vs heap p { l with m_RootNode := root } := by
  obtain ⟨k, h, hk, hh, hpc, hok, hal, hheap, hsub⟩ := hr
  exact ⟨k, h, hk, hh, hpc, ok_sub l _ root hok hs, hal, hheap,
    fun hp0 => hs.trans (hsub hp0)⟩

theorem reached_push_front (vs : List T) (heap : Nat → Nat) (p : Nat) (l : list T) (x : T)
    (hr : reached vs heap p l) : reached vs heap (p + 1) (l.push_front x) := by
  obtain ⟨k, h, hk, hh, hpc, hok, hal, hheap, _⟩ := hr
  refine ⟨k, h, hk, hh, hpc, ok_push_front l x _ hok, ?_, hheap, fun hp0 => by omega⟩
  rw [push_front_eq]
  simp only [hal]
  omega

theorem reached_push_back (vs : List T) (heap : Nat → Nat) (p : Nat) (l l1 : list T) (x : T)
    (hr : reached vs heap p l) (hb : l.push_back x = some l1) :
    reached vs heap (p + 1) l1 := by
  obtain ⟨k, h, hk, hh, hpc, hok, hal, hheap, _⟩ := hr
  obtain ⟨l2, h1, h2, _, h4, h5, h6⟩ := ok_push_back l x _ hok
  rw [hb] at h1
  cases h1
  exact ⟨k, h, hk, by rw [h4, hh], hpc, h2, by rw [h6, hal]; omega, by rw [h5, hheap],
    fun hp0 => by omega⟩

theorem reached_construct [Inhabited T] (vs : List T) (heap : Nat → Nat)
    (hinj : Function.Injective heap) (hnz : ∀ n, heap n ≠ 0) :
    reached vs heap 0 (list.construct (yields vs) heap) := by
  have hok := ok_construct vs heap hinj hnz
  cases vs with
  | nil =>
    rw [construct_nil] at hok ⊢
    exact ⟨0, _, Nat.le_refl _, rfl, rfl, hok, rfl, rfl, fun _ => List.nil_sublist _⟩
  | cons v R =>
    rw [construct_cons] at hok ⊢
    exact ⟨0, _, Nat.zero_le _, rfl, rfl, hok, rfl, rfl, fun _ => List.nil_sublist _⟩

theorem reached_resume (vs : List T) (heap : Nat → Nat) (p : Nat) (l l1 : list T)
    (hr : reached vs heap p l) (hres : l.resume = some l1) : reached vs heap p l1 := by
  obtain ⟨k, h, hk, hh, hpc, hok, hal, hheap, hsub⟩ := hr
  cases hd : h.done with
  | true =>
    rw [resume_done l h hh hd] at hres
    cases hres
    exact ⟨k, h, hk, hh, hpc, hok, hal, hheap, hsub⟩
  | false =>
    rw [resume_eq l h hh hd hok.1] at hres
    cases hres
    exact reached_grown vs heap p l h ⟨k, h, hk, hh, hpc, hok, hal, hheap, hsub⟩ hh hd

theorem reached_begin (vs : List T) (heap : Nat → Nat) (p : Nat) (l l1 : list T)
    (it : iterator) (hr : reached vs heap p l) (hb : l.begin = some (it, l1)) :
    reached vs heap p l1 := by
  unfold list.begin at hb
  cases hc : l.m_RootNode with
  | nil =>
    rw [hc] at hb
    simp only at hb
    cases hres : l.resume with
    | none => rw [hres] at hb; cases hb
    | some l2 =>
      rw [hres] at hb
      simp only [Option.some.injEq, Prod.mk.injEq] at hb
      rw [← hb.2]
      exact reached_resume vs heap p l l2 hr hres
  | cons n rest =>
    rw [hc] at hb
    simp only [Option.some.injEq, Prod.mk.injEq] at hb
    rw [← hb.2]
    exact hr

theorem reached_operator_inc (vs : List T) (heap : Nat → Nat) (p : Nat) (l l1 : list T)
    (it it1 : iterator) (hr : reached vs heap p l)
    (hi : it.operator_inc l = some (it1, l1)) : reached vs heap p l1 := by
  unfold iterator.operator_inc at hi
  cases hn : it.Next l with
  | none => rw [hn] at hi; cases hi
  | some l2 =>
    rw [hn] at hi
    simp only at hi
    have hl2 : reached vs heap p l2 := by
      unfold iterator.Next at hn
      cases hat : node_at l.m_RootNode it.m_NodePtr with
      | none => rw [hat] at hn; cases hn
      | some r =>
        obtain ⟨n, next⟩ := r
        rw [hat] at hn
        cases next with
        | nil => exact reached_resume vs heap p l l2 hr hn
        | cons m rest =>
          simp only [Option.some.injEq] at hn
          rw [← hn]
          exact hr
    cases hat2 : node_at l2.m_RootNode it.m_NodePtr with
    | none => rw [hat2] at hi; cases hi
    | some r =>
      rw [hat2] at hi
      simp only [Option.some.injEq, Prod.mk.injEq] at hi
      rw [← hi.2]
      exact hl2

theorem reached_find_loop [DecidableEq T] (vs : List T) (heap : Nat → Nat) (p : Nat) (v : T) :
    ∀ (fuel : Nat) (it it1 : iterator) (l l1 : list T), reached vs heap p l →
      find_loop v fuel it l = some (it1, l1) → reached vs heap p l1 := by
  intro fuel
  induction fuel with
  | zero => intro it it1 l l1 _ hf; simp [find_loop] at hf
  | succ fuel ih =>
    intro it it1 l l1 hr hf
    simp only [find_loop] at hf
    split at hf
    · simp only [Option.some.injEq, Prod.mk.injEq] at hf
      rw [← hf.2]
      exact hr
    · split at hf
      · cases hf
      · split at hf
        · simp only [Option.some.injEq, Prod.mk.injEq] at hf
          rw [← hf.2]
          exact hr
        · split at hf
          · cases hf
          · rename_i it2 l2 hinc
            exact ih it2 it1 l2 l1 (reached_operator_inc vs heap p l l2 it it2 hr hinc) hf

theorem reached_find [DecidableEq T] (vs : List T) (heap : Nat → Nat) (p : Nat) (v : T)
    (fuel : Nat) (it1 : iterator) (l l1 : list T) (hr : reached vs heap p l)
    (hf : l.find v fuel = some (it1, l1)) : reached vs heap p l1 := by
  unfold list.find at hf
  cases hb : l.begin with
  | none => rw [hb] at hf; cases hf
  | some r =>
    obtain ⟨it, l2⟩ := r
    rw [hb] at hf
    exact reached_find_loop vs heap p v fuel it it1 l2 l1
      (reached_begin vs heap p l l2 it hr hb) hf

theorem remove_loop_absent (p : Nat) :
    ∀ (ch : List (node T)) (prev : Nat), p ∉ addrs ch → (remove_loop p prev ch).2 = [] := by
  intro ch
  induction ch with
  | nil => intro prev _; rfl
  | cons a ch ih =>
    intro prev hp
    simp only [addrs, List.map_cons, List.mem_cons, not_or] at hp
    simp only [remove_loop, hp.1, if_false]
    exact ih a.addr hp.2

theorem first_addr_split (p : Nat) (ch : List (node T)) (h : p ∈ addrs ch) :
    ∃ pre n post, ch = pre ++ n :: post ∧ n.addr = p := by
  simp only [addrs, List.mem_map] at h
  obtain ⟨n, hn, hp⟩ := h
  obtain ⟨pre, post, hc⟩ := List.append_of_mem hn
  exact ⟨pre, n, post, hc, hp⟩

theorem remove_some (l l1 : list T) (p : Nat) (hnd : (addrs l.m_RootNode).Nodup)
    (hr : l.remove p = some l1) :
    ∃ root, root.Sublist l.m_RootNode ∧ l1 = { l with m_RootNode := root } := by
  by_cases hp : p ∈ addrs l.m_RootNode
  · obtain ⟨pre, n, post, hc, hn⟩ := first_addr_split p _ hp
    subst hn
    rw [remove_split l pre n post hc hnd] at hr
    cases hr
    refine ⟨pre ++ post, ?_, rfl⟩
    rw [hc]
    exact List.Sublist.append (List.Sublist.refl _) (List.sublist_cons_self n post)
  · exfalso
    have h2 := remove_loop_absent p l.m_RootNode (ptr l.m_RootNode) hp
    unfold list.remove at hr
    generalize remove_loop p (ptr l.m_RootNode) l.m_RootNode = r at h2 hr
    obtain ⟨a, b⟩ := r
    simp only at h2
    subst h2
    cases hr

theorem reached_erase (vs : List T) (heap : Nat → Nat) (p : Nat) (l l1 : list T)
    (it : iterator) (hr : reached vs heap p l) (he : l.erase it = some l1) :
    reached vs heap p l1 := by
  have hnd : (addrs l.m_RootNode).Nodup := by
    obtain ⟨_, _, _, _, _, hok, _⟩ := hr
    exact hok.1.1
  obtain ⟨root, hs, rfl⟩ := remove_some l l1 it.m_NodePtr hnd he
  exact reached_sub vs heap p l root hr hs

theorem reached_erase_loop (vs : List T) (heap : Nat → Nat) (p : Nat) :
    ∀ (fuel : Nat) (l l1 : list T) (a b : Nat), reached vs heap p l →
      erase_loop fuel l a b = some l1 → reached vs heap p l1 := by
  intro fuel
  induction fuel with
  | zero =>
    intro l l1 a b hr he
    simp only [erase_loop] at he
    split at he
    · cases he; exact hr
    · cases he
  | succ fuel ih =>
    intro l l1 a b hr he
    simp only [erase_loop] at he
    split at he
    · cases he; exact hr
    · split at he
      · cases he
      · split at he
        · cases he
        · rename_i l2 hl2
          exact ih l2 l1 _ b (reached_erase vs heap p l l2 ⟨a⟩ hr hl2) he

theorem reached_apply [DecidableEq T] (vs : List T) (heap : Nat → Nat) (p fuel : Nat)
    (l l1 : list T) (o : op T) (hr : reached vs heap p l) (ha : l.apply fuel o = some l1) :
    reached vs heap (p + o.inserts) l1 := by
  cases o with
  | begin =>
    simp only [list.apply, Option.map_eq_some'] at ha
    obtain ⟨⟨it, l2⟩, hb, rfl⟩ := ha
    exact reached_begin vs heap p l l2 it hr hb
  | advance it =>
    simp only [list.apply, Option.map_eq_some'] at ha
    obtain ⟨⟨it1, l2⟩, hb, rfl⟩ := ha
    exact reached_operator_inc vs heap p l l2 it it1 hr hb
  | find data =>
    simp only [list.apply, Option.map_eq_some'] at ha
    obtain ⟨⟨it1, l2⟩, hb, rfl⟩ := ha
    exact reached_find vs heap p data fuel it1 l l2 hr hb
  | index i =>
    simp only [list.apply, list.call, Option.map_eq_some'] at ha
    obtain ⟨⟨a, l2⟩, ⟨r, _, hb⟩, rfl⟩ := ha
    cases hb
    exact hr
  | size =>
    simp only [list.apply, list.call, Option.map_some', Option.some.injEq] at ha
    rw [← ha]
    exact hr
  | erase position => exact reached_erase vs heap p l l1 position hr ha
  | erase_range first last =>
    simp only [list.apply, list.erase_range] at ha
    split at ha
    · exact reached_erase vs heap p l l1 first hr ha
    · exact reached_erase_loop vs heap p _ l l1 _ _ hr ha
  | clear =>
    simp only [list.apply, Option.some.injEq] at ha
    rw [← ha, clear_eq]
    exact reached_sub vs heap p l [] hr (List.nil_sublist _)
  | push_front data =>
    simp only [list.apply, Option.some.injEq] at ha
    rw [← ha]
    exact reached_push_front vs heap p l data hr
  | push_back data => exact reached_push_back vs heap p l l1 data hr ha
  | emplace_front data =>
    simp only [list.apply, Option.some.injEq] at ha
    rw [← ha]
    exact reached_push_front vs heap p l data hr
  | emplace_back data raw =>
    simp only [list.apply, list.emplace_back, list.new_node, Option.map_eq_some'] at ha
    obtain ⟨⟨d, l2⟩, hb, rfl⟩ := ha
    split at hb
    · cases hb
    · simp only [Option.map_eq_some', Prod.mk.injEq] at hb
      obtain ⟨l3, hpb, _, rfl⟩ := hb
      exact reached_push_back vs heap p l l3 data hr hpb

theorem reached_run [DecidableEq T] (vs : List T) (heap : Nat → Nat) (fuel : Nat) :
    ∀ (ops : List (op T)) (p : Nat) (l l1 : list T), reached vs heap p l →
      list.run fuel ops l = some l1 →
      reached vs heap (p + (ops.map op.inserts).sum) l1 := by
  intro ops
  induction ops with
  | nil =>
    intro p l l1 hr h
    simp only [list.run, Option.some.injEq] at h
    rw [← h]
    simpa using hr
  | cons o ops ih =>
    intro p l l1 hr h
    simp only [list.run] at h
    split at h
    · cases h
    · rename_i l2 hl2
      have h2 := ih (p + o.inserts) l2 l1 (reached_apply vs heap p fuel l l2 o hr hl2) h
      simpa [Nat.add_assoc] using h2

theorem demo_after_run (ops : List (op Nat))
    (h : ((do_something bump_heap).run 20 ops).isSome = true) :
    (do_something bump_heap).run 20 ops = some (demo_after ops) := by
  unfold demo_after
  cases hr : (do_something bump_heap).run 20 ops with
  | none => rw [hr] at h; cases h
  | some l => rfl

theorem reuse_after_run (ops : List (op Nat))
    (h : ((list.construct (yields [1, 2, 3]) reuse_heap).run 5 ops).isSome = true) :
    (list.construct (yields [1, 2, 3]) reuse_heap).run 5 ops = some (reuse_after ops) := by
  unfold reuse_after
  cases hr : (list.construct (yields [1, 2, 3]) reuse_heap).run 5 ops with
  | none => rw [hr] at h; cases h
  | some l => rfl

/-! ## A sound allocator, call by call -/

theorem fresh_for_mono (l : list T) (m m1 : Nat) (h : fresh_for l m) (hle : m1 ≤ m) :
    fresh_for l m1 := by
  intro i hi
  obtain ⟨a, b, c⟩ := h i (by omega)
  exact ⟨a, b, fun j hj e => c j (by omega) e⟩

theorem fresh_for_first (l : list T) (m : Nat) (h : fresh_for l m) (hm : 0 < m) :
    l.heap l.allocs ≠ 0 ∧ l.heap l.allocs ∉ addrs l.m_RootNode := by
  obtain ⟨a, b, _⟩ := h 0 hm
  exact ⟨a, b⟩

theorem fresh_for_grown (l : list T) (h : coro_frame T) (m : Nat)
    (hf : fresh_for l (m + 1)) : fresh_for (l.grown h) m := by
  intro i hi
  obtain ⟨a, b, c⟩ := hf (i + 1) (by omega)
  have e1 : (l.grown h).heap ((l.grown h).allocs + i) = l.heap (l.allocs + (i + 1)) := by
    simp only [list.grown]
    congr 1
    omega
  rw [e1]
  refine ⟨a, ?_, ?_⟩
  · simp only [list.grown, addrs, List.map_append, List.map_cons, List.map_nil,
      List.mem_append, List.mem_singleton, not_or]
    refine ⟨b, ?_⟩
    intro e
    have := c 0 (by omega) (by simpa using e)
    omega
  · intro j hj e
    have e2 : (l.grown h).heap ((l.grown h).allocs + j) = l.heap (l.allocs + (j + 1)) := by
      simp only [list.grown]
      congr 1
      omega
    rw [e2] at e
    have := c (j + 1) (by omega) e
    omega

theorem fresh_for_of_heap_ok (l : list T) (m : Nat) (h : heap_ok l) : fresh_for l m := by
  intro i _
  obtain ⟨a, b, c⟩ := h (l.allocs + i) (by omega)
  refine ⟨a, b, ?_⟩
  intro j _ e
  have := c (l.allocs + j) (by omega) e
  omega

theorem chain_ok_grown (l : list T) (h : coro_frame T) (hc : chain_ok l.m_RootNode)
    (hz : l.heap l.allocs ≠ 0) (hf : l.heap l.allocs ∉ addrs l.m_RootNode) :
    chain_ok (l.grown h).m_RootNode := by
  obtain ⟨hnd, hnz⟩ := hc
  refine ⟨?_, ?_⟩
  · simp only [list.grown, addrs, List.map_append, List.map_cons, List.map_nil]
    rw [List.nodup_append]
    refine ⟨hnd, by simp, ?_⟩
    intro a ha hb
    simp only [List.mem_singleton] at hb
    subst hb
    exact hf ha
  · simp only [list.grown, addrs, List.map_append, List.map_cons, List.map_nil, List.mem_append,
      List.mem_singleton, not_or]
    exact ⟨hnz, fun e => hz e.symm⟩

theorem push_back_allocs (l l1 : list T) (x : T) (h : l.push_back x = some l1) :
    l1.allocs = l.allocs + 1 := by
  simp only [list.push_back, list.new_node, list.place_back] at h
  split at h
  · simp only [Option.some.injEq] at h
    rw [← h]
    rfl
  · simp only [Option.map_eq_some'] at h
    obtain ⟨r, _, rfl⟩ := h
    rfl

theorem resume_allocs_le (l l1 : list T) (h : l.resume = some l1) : l.allocs ≤ l1.allocs := by
  unfold list.resume at h
  split at h
  · cases h
  · split at h
    · cases h
      exact Nat.le_refl _
    · split at h
      · cases h
      · rename_i l2 hl2
        cases h
        have := push_back_allocs l l2 _ hl2
        simp only
        omega

theorem resume_some (l l1 : list T) (hc : chain_ok l.m_RootNode) (h : l.resume = some l1) :
    l1 = l ∨ ∃ f, l.m_Handler = some f ∧ f.done = false ∧ l1 = l.grown f := by
  cases hh : l.m_Handler with
  | none => simp [list.resume, hh] at h
  | some f =>
    cases hd : f.done with
    | true =>
      rw [resume_done l f hh hd] at h
      cases h
      exact Or.inl rfl
    | false =>
      rw [resume_eq l f hh hd hc] at h
      cases h
      exact Or.inr ⟨f, rfl, hd, rfl⟩

theorem begin_some (l l1 : list T) (it : iterator) (h : l.begin = some (it, l1)) :
    l1 = l ∨ l.resume = some l1 := by
  unfold list.begin at h
  split at h
  · split at h
    · cases h
    · rename_i l2 hl2
      simp only [Option.some.injEq, Prod.mk.injEq] at h
      rw [← h.2]
      exact Or.inr hl2
  · simp only [Option.some.injEq, Prod.mk.injEq] at h
    exact Or.inl h.2.symm

theorem operator_inc_some (l l1 : list T) (it it1 : iterator)
    (h : it.operator_inc l = some (it1, l1)) : l1 = l ∨ l.resume = some l1 := by
  unfold iterator.operator_inc at h
  split at h
  · cases h
  · rename_i l2 hn
    split at h
    · cases h
    · simp only [Option.some.injEq, Prod.mk.injEq] at h
      rw [← h.2]
      unfold iterator.Next at hn
      split at hn
      · cases hn
      · exact Or.inr hn
      · simp only [Option.some.injEq] at hn
        exact Or.inl hn.symm

theorem find_loop_allocs_le [DecidableEq T] (v : T) :
    ∀ (fuel : Nat) (it it1 : iterator) (l l1 : list T),
      find_loop v fuel it l = some (it1, l1) → l.allocs ≤ l1.allocs := by
  intro fuel
  induction fuel with
  | zero => intro it it1 l l1 hf; simp [find_loop] at hf
  | succ fuel ih =>
    intro it it1 l l1 hf
    simp only [find_loop] at hf
    split at hf
    · simp only [Option.some.injEq, Prod.mk.injEq] at hf
      rw [← hf.2]
    · split at hf
      · cases hf
      · split at hf
        · simp only [Option.some.injEq, Prod.mk.injEq] at hf
          rw [← hf.2]
        · split at hf
          · cases hf
          · rename_i it2 l2 hinc
            have h2 := ih it2 it1 l2 l1 hf
            rcases operator_inc_some l l2 it it2 hinc with rfl | hr
            · exact h2
            · exact Nat.le_trans (resume_allocs_le l l2 hr) h2

theorem keeps_step (J : list T → Prop) (hok : ∀ l, J l → chain_ok l.m_RootNode)
    (hgrow : ∀ l f, J l → l.m_Handler = some f → f.done = false → l.heap l.allocs ≠ 0 →
      l.heap l.allocs ∉ addrs l.m_RootNode → J (l.grown f))
    (l l2 : list T) (hj : J l) (hs : l2 = l ∨ l.resume = some l2) (m : Nat)
    (hm : l2.allocs - l.allocs ≤ m) (hf : fresh_for l m) :
    J l2 ∧ fresh_for l2 (m - (l2.allocs - l.allocs)) ∧ l.allocs ≤ l2.allocs := by
  have same : l2 = l → J l2 ∧ fresh_for l2 (m - (l2.allocs - l.allocs)) ∧
      l.allocs ≤ l2.allocs := by
    intro e
    subst e
    exact ⟨hj, by simpa using hf, Nat.le_refl _⟩
  rcases hs with e | hr
  · exact same e
  · rcases resume_some l l2 (hok l hj) hr with e | ⟨f, hh, hd, e⟩
    · exact same e
    · subst e
      have h1 : (l.grown f).allocs - l.allocs = 1 := by simp [list.grown]
      rw [h1] at hm ⊢
      obtain ⟨m1, rfl⟩ : ∃ m1, m = m1 + 1 := ⟨m - 1, by omega⟩
      obtain ⟨hz, hn⟩ := fresh_for_first l (m1 + 1) hf (by omega)
      refine ⟨hgrow l f hj hh hd hz hn, ?_, by simp [list.grown]⟩
      simpa using fresh_for_grown l f m1 hf

theorem keeps_begin (J : list T → Prop) (hok : ∀ l, J l → chain_ok l.m_RootNode)
    (hgrow : ∀ l f, J l → l.m_Handler = some f → f.done = false → l.heap l.allocs ≠ 0 →
      l.heap l.allocs ∉ addrs l.m_RootNode → J (l.grown f))
    (l l1 : list T) (it : iterator) (hj : J l) (hb : l.begin = some (it, l1))
    (hf : fresh_for l (l1.allocs - l.allocs)) : J l1 :=
  (keeps_step J hok hgrow l l1 hj (begin_some l l1 it hb) _ (Nat.le_refl _) hf).1

theorem keeps_operator_inc (J : list T → Prop) (hok : ∀ l, J l → chain_ok l.m_RootNode)
    (hgrow : ∀ l f, J l → l.m_Handler = some f → f.done = false → l.heap l.allocs ≠ 0 →
      l.heap l.allocs ∉ addrs l.m_RootNode → J (l.grown f))
    (l l1 : list T) (it it1 : iterator) (hj : J l) (hi : it.operator_inc l = some (it1, l1))
    (hf : fresh_for l (l1.allocs - l.allocs)) : J l1 :=
  (keeps_step J hok hgrow l l1 hj (operator_inc_some l l1 it it1 hi) _ (Nat.le_refl _) hf).1

theorem keeps_find_loop [DecidableEq T] (J : list T → Prop)
    (hok : ∀ l, J l → chain_ok l.m_RootNode)
    (hgrow : ∀ l f, J l → l.m_Handler = some f → f.done = false → l.heap l.allocs ≠ 0 →
      l.heap l.allocs ∉ addrs l.m_RootNode → J (l.grown f)) (v : T) :
    ∀ (fuel : Nat) (it it1 : iterator) (l l1 : list T), J l →
      find_loop v fuel it l = some (it1, l1) → fresh_for l (l1.allocs - l.allocs) → J l1 := by
  intro fuel
  induction fuel with
  | zero => intro it it1 l l1 _ hf; simp [find_loop] at hf
  | succ fuel ih =>
    intro it it1 l l1 hj hf hfr
    simp only [find_loop] at hf
    split at hf
    · simp only [Option.some.injEq, Prod.mk.injEq] at hf
      rw [← hf.2]
      exact hj
    · split at hf
      · cases hf
      · split at hf
        · simp only [Option.some.injEq, Prod.mk.injEq] at hf
          rw [← hf.2]
          exact hj
        · split at hf
          · cases hf
          · rename_i it2 l2 hinc
            have hle := find_loop_allocs_le v fuel it2 it1 l2 l1 hf
            have hs := operator_inc_some l l2 it it2 hinc
            have hle0 : l.allocs ≤ l2.allocs := by
              rcases hs with e | hr
              · rw [e]
              · exact resume_allocs_le l l2 hr
            obtain ⟨hj2, hfr2, _⟩ := keeps_step J hok hgrow l l2 hj hs
              (l1.allocs - l.allocs) (by omega) hfr
            refine ih it2 it1 l2 l1 hj2 hf ?_
            rw [show l1.allocs - l2.allocs
              = l1.allocs - l.allocs - (l2.allocs - l.allocs) from by omega]
            exact hfr2

theorem keeps_find [DecidableEq T] (J : list T → Prop)
    (hok : ∀ l, J l → chain_ok l.m_RootNode)
    (hgrow : ∀ l f, J l → l.m_Handler = some f → f.done = false → l.heap l.allocs ≠ 0 →
      l.heap l.allocs ∉ addrs l.m_RootNode → J (l.grown f)) (v : T) (fuel : Nat)
    (it1 : iterator) (l l1 : list T) (hj : J l) (hfind : l.find v fuel = some (it1, l1))
    (hfr : fresh_for l (l1.allocs - l.allocs)) : J l1 := by
  unfold list.find at hfind
  split at hfind
  · cases hfind
  · rename_i it l2 hb
    have hle := find_loop_allocs_le v fuel it it1 l2 l1 hfind
    have hs := begin_some l l2 it hb
    have hle0 : l.allocs ≤ l2.allocs := by
      rcases hs with e | hr
      · rw [e]
      · exact resume_allocs_le l l2 hr
    obtain ⟨hj2, hfr2, _⟩ := keeps_step J hok hgrow l l2 hj hs
      (l1.allocs - l.allocs) (by omega) hfr
    refine keeps_find_loop J hok hgrow v fuel it it1 l2 l1 hj2 hfind ?_
    rw [show l1.allocs - l2.allocs
      = l1.allocs - l.allocs - (l2.allocs - l.allocs) from by omega]
    exact hfr2

/-! ## The generator frame along any sequence of calls -/

theorem chain_ok_snoc (root : List (node T)) (a : Nat) (x : T) (hc : chain_ok root)
    (hz : a ≠ 0) (hf : a ∉ addrs root) : chain_ok (root ++ [⟨a, x⟩]) := by
  obtain ⟨hnd, hnz⟩ := hc
  refine ⟨?_, ?_⟩
  · simp only [addrs, List.map_append, List.map_cons, List.map_nil]
    rw [List.nodup_append]
    refine ⟨hnd, by simp, ?_⟩
    intro b hb hb2
    simp only [List.mem_singleton] at hb2
    subst hb2
    exact hf hb
  · simp only [addrs, List.map_append, List.map_cons, List.map_nil, List.mem_append,
      List.mem_singleton, not_or]
    exact ⟨hnz, fun e => hz e.symm⟩

theorem chain_ok_cons (root : List (node T)) (a : Nat) (x : T) (hc : chain_ok root)
    (hz : a ≠ 0) (hf : a ∉ addrs root) : chain_ok (⟨a, x⟩ :: root) := by
  obtain ⟨hnd, hnz⟩ := hc
  refine ⟨?_, ?_⟩
  · simp only [addrs, List.map_cons, List.nodup_cons]
    exact ⟨hf, hnd⟩
  · simp only [addrs, List.map_cons, List.mem_cons, not_or]
    exact ⟨fun e => hz e.symm, hnz⟩

theorem chain_ok_sub (root sub : List (node T)) (hc : chain_ok root)
    (hs : sub.Sublist root) : chain_ok sub := by
  have hsa : (addrs sub).Sublist (addrs root) := List.Sublist.map _ hs
  exact ⟨hsa.nodup hc.1, fun h0 => hc.2 (hsa.subset h0)⟩

theorem settled_ok (vs : List T) (p : Nat) (l : list T) (h : settled vs p l) :
    chain_ok l.m_RootNode := by
  obtain ⟨_, _, _, _, _, hc⟩ := h
  exact hc

theorem settled_grown (vs : List T) (p : Nat) (l : list T) (f : coro_frame T)
    (hs : settled vs p l) (hh : l.m_Handler = some f) (hd : f.done = false)
    (hz : l.heap l.allocs ≠ 0) (hf : l.heap l.allocs ∉ addrs l.m_RootNode) :
    settled vs p (l.grown f) := by
  obtain ⟨h, hh1, hpc, hle, hpend, hc⟩ := hs
  rw [hh] at hh1
  cases hh1
  have hlt : f.pc < vs.length := by
    by_contra hge
    rw [List.drop_eq_nil_of_le (by omega)] at hpend
    simp only [pending] at hpend
    rw [hd] at hpend
    cases hpend
  rw [List.drop_eq_getElem_cons hlt] at hpend
  refine ⟨f.resume, rfl, ?_, ?_, ?_, chain_ok_grown l f hc hz hf⟩
  · rw [resume_pc]
    simp only [list.grown]
    omega
  · rw [resume_pc]
    omega
  · rw [resume_pc]
    exact pending_resume f _ _ hpend

theorem settled_sub (vs : List T) (p : Nat) (l : list T) (root : List (node T))
    (hs : settled vs p l) (hsub : root.Sublist l.m_RootNode) :
    settled vs p { l with m_RootNode := root } := by
  obtain ⟨h, hh, hpc, hle, hpend, hc⟩ := hs
  exact ⟨h, hh, hpc, hle, hpend, chain_ok_sub _ _ hc hsub⟩

theorem settled_push_front (vs : List T) (p : Nat) (l : list T) (x : T)
    (hs : settled vs p l) (hz : l.heap l.allocs ≠ 0)
    (hf : l.heap l.allocs ∉ addrs l.m_RootNode) : settled vs (p + 1) (l.push_front x) := by
  obtain ⟨h, hh, hpc, hle, hpend, hc⟩ := hs
  rw [push_front_eq]
  exact ⟨h, hh, by simp only; omega, hle, hpend, chain_ok_cons _ _ x hc hz hf⟩

theorem settled_push_back (vs : List T) (p : Nat) (l l1 : list T) (x : T)
    (hs : settled vs p l) (hb : l.push_back x = some l1) (hz : l.heap l.allocs ≠ 0)
    (hf : l.heap l.allocs ∉ addrs l.m_RootNode) : settled vs (p + 1) l1 := by
  obtain ⟨h, hh, hpc, hle, hpend, hc⟩ := hs
  rw [push_back_eq l x hc] at hb
  cases hb
  exact ⟨h, hh, by simp only; omega, hle, hpend, chain_ok_snoc _ _ x hc hz hf⟩

theorem settled_erase (vs : List T) (p : Nat) (l l1 : list T) (it : iterator)
    (hs : settled vs p l) (he : l.erase it = some l1) : settled vs p l1 := by
  obtain ⟨root, hsub, rfl⟩ := remove_some l l1 it.m_NodePtr (settled_ok vs p l hs).1 he
  exact settled_sub vs p l root hs hsub

theorem settled_erase_loop (vs : List T) (p : Nat) :
    ∀ (fuel : Nat) (l l1 : list T) (a b : Nat), settled vs p l →
      erase_loop fuel l a b = some l1 → settled vs p l1 ∧ l1.allocs = l.allocs := by
  intro fuel
  induction fuel with
  | zero =>
    intro l l1 a b hr he
    simp only [erase_loop] at he
    split at he
    · cases he; exact ⟨hr, rfl⟩
    · cases he
  | succ fuel ih =>
    intro l l1 a b hr he
    simp only [erase_loop] at he
    split at he
    · cases he; exact ⟨hr, rfl⟩
    · split at he
      · cases he
      · split at he
        · cases he
        · rename_i l2 hl2
          obtain ⟨root, _, e⟩ := remove_some l l2 a (settled_ok vs p l hr).1 hl2
          obtain ⟨h1, h2⟩ := ih l2 l1 _ b (settled_erase vs p l l2 ⟨a⟩ hr hl2) he
          refine ⟨h1, ?_⟩
          rw [h2, e]

theorem settled_construct [Inhabited T] (vs : List T) (heap : Nat → Nat) :
    settled vs 0 (list.construct (yields vs) heap) := by
  cases vs with
  | nil =>
    rw [construct_nil]
    exact ⟨_, rfl, rfl, Nat.le_refl _, rfl, by simp [addrs], by simp [addrs]⟩
  | cons v R =>
    rw [construct_cons]
    refine ⟨_, rfl, rfl, Nat.zero_le _, ⟨rfl, rfl, ?_⟩, by simp [addrs], by simp [addrs]⟩
    intro i
    simp [yields, Nat.add_comm]

theorem settled_apply [DecidableEq T] (vs : List T) (p fuel : Nat) (l l1 : list T)
    (o : op T) (hs : settled vs p l) (ha : l.apply fuel o = some l1)
    (hf : fresh_for l (l1.allocs - l.allocs)) : settled vs (p + o.inserts) l1 := by
  have hok := settled_ok vs p
  have hgrow := settled_grown vs p
  cases o with
  | begin =>
    simp only [list.apply, Option.map_eq_some'] at ha
    obtain ⟨⟨it, l2⟩, hb, rfl⟩ := ha
    exact keeps_begin _ hok hgrow l l2 it hs hb hf
  | advance it =>
    simp only [list.apply, Option.map_eq_some'] at ha
    obtain ⟨⟨it1, l2⟩, hb, rfl⟩ := ha
    exact keeps_operator_inc _ hok hgrow l l2 it it1 hs hb hf
  | find data =>
    simp only [list.apply, Option.map_eq_some'] at ha
    obtain ⟨⟨it1, l2⟩, hb, rfl⟩ := ha
    exact keeps_find _ hok hgrow data fuel it1 l l2 hs hb hf
  | index i =>
    simp only [list.apply, list.call, Option.map_eq_some'] at ha
    obtain ⟨⟨a, l2⟩, ⟨r, _, hb⟩, rfl⟩ := ha
    cases hb
    exact hs
  | size =>
    simp only [list.apply, list.call, Option.map_some', Option.some.injEq] at ha
    rw [← ha]
    exact hs
  | erase position => exact settled_erase vs p l l1 position hs ha
  | erase_range first last =>
    simp only [list.apply, list.erase_range] at ha
    split at ha
    · exact settled_erase vs p l l1 first hs ha
    · exact (settled_erase_loop vs p _ l l1 _ _ hs ha).1
  | clear =>
    simp only [list.apply, Option.some.injEq] at ha
    rw [← ha, clear_eq]
    exact settled_sub vs p l [] hs (List.nil_sublist _)
  | push_front data =>
    simp only [list.apply, Option.some.injEq] at ha
    subst ha
    obtain ⟨hz, hn⟩ := fresh_for_first l _ hf (by simp [push_front_eq])
    exact settled_push_front vs p l data hs hz hn
  | push_back data =>
    have hal := push_back_allocs l l1 data ha
    obtain ⟨hz, hn⟩ := fresh_for_first l _ hf (by omega)
    exact settled_push_back vs p l l1 data hs ha hz hn
  | emplace_front data =>
    simp only [list.apply, Option.some.injEq] at ha
    subst ha
    obtain ⟨hz, hn⟩ := fresh_for_first l _ hf
      (by simp [list.emplace_front, list.new_node, list.place_front])
    exact settled_push_front vs p l data hs hz hn
  | emplace_back data raw =>
    simp only [list.apply, list.emplace_back, list.new_node, Option.map_eq_some'] at ha
    obtain ⟨⟨d, l2⟩, hb, rfl⟩ := ha
    split at hb
    · cases hb
    · simp only [Option.map_eq_some', Prod.mk.injEq] at hb
      obtain ⟨l3, hpb, _, rfl⟩ := hb
      have hal := push_back_allocs l l3 data hpb
      obtain ⟨hz, hn⟩ := fresh_for_first l _ hf (by simp only; omega)
      exact settled_push_back vs p l l3 data hs hpb hz hn

theorem settled_run [DecidableEq T] (vs : List T) (fuel : Nat) :
    ∀ (ops : List (op T)) (p : Nat) (l l1 : list T), settled vs p l →
      list.run fuel ops l = some l1 → sound_run fuel ops l →
      settled vs (p + (ops.map op.inserts).sum) l1 := by
  intro ops
  induction ops with
  | nil =>
    intro p l l1 hr h _
    simp only [list.run, Option.some.injEq] at h
    rw [← h]
    simpa using hr
  | cons o ops ih =>
    intro p l l1 hr h hsound
    simp only [list.run] at h
    simp only [sound_run] at hsound
    split at h
    · cases h
    · rename_i l2 hl2
      rw [hl2] at hsound
      have h2 := ih (p + o.inserts) l2 l1 (settled_apply vs p fuel l l2 o hr hl2 hsound.1) h
        hsound.2
      simpa [Nat.add_assoc] using h2

theorem sound_run_of_reached [DecidableEq T] (vs : List T) (heap : Nat → Nat) (fuel : Nat) :
    ∀ (ops : List (op T)) (p : Nat) (l : list T), reached vs heap p l →
      sound_run fuel ops l := by
  intro ops
  induction ops with
  | nil => intro p l _; trivial
  | cons o ops ih =>
    intro p l hr
    simp only [sound_run]
    cases ha : l.apply fuel o with
    | none => trivial
    | some l1 =>
      have hheap : heap_ok l := by
        obtain ⟨_, _, _, _, _, hok, _⟩ := hr
        exact hok.2.1
      exact ⟨fresh_for_of_heap_ok l _ hheap, ih _ l1 (reached_apply vs heap p fuel l l1 o hr ha)⟩

/-! ## The chain along a sequence of calls without insertions -/

theorem position_of_split (p : Nat) (n : node T) (post : List (node T)) (hn : n.addr = p) :
    ∀ (pre : List (node T)), p ∉ addrs pre →
      position_of p (pre ++ n :: post) = pre.length := by
  intro pre
  induction pre with
  | nil => intro _; simp [position_of, hn]
  | cons a pre ih =>
    intro hp
    simp only [addrs, List.map_cons, List.mem_cons, not_or] at hp
    have ha : ¬ a.addr = p := fun e => hp.1 e.symm
    rw [List.cons_append]
    simp only [position_of, ha, if_false, List.length_cons]
    rw [ih hp.2]
    omega

theorem eraseIdx_split (pre post : List (node T)) (n : node T) :
    (pre ++ n :: post).eraseIdx pre.length = pre ++ post := by
  induction pre with
  | nil => rfl
  | cons a pre ih => simpa using ih

theorem remove_exact (l l1 : list T) (p : Nat) (hnd : (addrs l.m_RootNode).Nodup)
    (hr : l.remove p = some l1) :
    l1 = { l with m_RootNode := l.m_RootNode.eraseIdx (position_of p l.m_RootNode) } := by
  by_cases hp : p ∈ addrs l.m_RootNode
  · obtain ⟨pre, n, post, hc, hn⟩ := first_addr_split p _ hp
    subst hn
    have hpre : n.addr ∉ addrs pre := by
      intro hm
      rw [hc] at hnd
      simp only [addrs, List.map_append, List.map_cons] at hnd
      exact (List.nodup_append.mp hnd).2.2 hm (by simp)
    rw [remove_split l pre n post hc hnd] at hr
    cases hr
    rw [hc, position_of_split n.addr n post rfl pre hpre, eraseIdx_split]
  · exfalso
    have h2 := remove_loop_absent p l.m_RootNode (ptr l.m_RootNode) hp
    unfold list.remove at hr
    generalize remove_loop p (ptr l.m_RootNode) l.m_RootNode = r at h2 hr
    obtain ⟨a, b⟩ := r
    simp only at h2
    subst h2
    cases hr

theorem range_map_getD (vs : List T) (d : T) :
    ∀ k, k ≤ vs.length → (List.range k).map (fun i => vs.getD i d) = vs.take k := by
  intro k
  induction k with
  | zero => intro _; rfl
  | succ k ih =>
    intro hk
    have hlt : k < vs.length := hk
    rw [List.range_succ, List.map_append, ih (Nat.le_of_lt hlt)]
    simp only [List.map_cons, List.map_nil]
    rw [List.take_succ, List.getElem?_eq_getElem hlt, List.getD_eq_getElem vs d hlt]
    rfl

theorem nodes_at_eraseIdx [Inhabited T] (vs : List T) (heap : Nat → Nat) (kept : List Nat)
    (j : Nat) : (nodes_at vs heap kept).eraseIdx j = nodes_at vs heap (kept.eraseIdx j) := by
  simp only [nodes_at]
  rw [List.eraseIdx_eq_take_drop_succ, List.eraseIdx_eq_take_drop_succ, List.map_append,
    List.map_take, List.map_drop]

theorem values_nodes_at [Inhabited T] (vs : List T) (heap : Nat → Nat) (kept : List Nat) :
    values (nodes_at vs heap kept) = kept.map (fun i => vs.getD i default) := by
  simp [values, nodes_at]

theorem tracked_ok [Inhabited T] (vs : List T) (heap : Nat → Nat) (kept : List Nat)
    (l : list T) (h : tracked vs heap kept l) : chain_ok l.m_RootNode := by
  obtain ⟨_, _, _, _, _, _, _, hc, _⟩ := h
  exact hc

theorem tracked_grown [Inhabited T] (vs : List T) (heap : Nat → Nat) (kept : List Nat)
    (l : list T) (f : coro_frame T) (ht : tracked vs heap kept l)
    (hh : l.m_Handler = some f) (hd : f.done = false) (hz : l.heap l.allocs ≠ 0)
    (hf : l.heap l.allocs ∉ addrs l.m_RootNode) :
    tracked vs heap (kept ++ [l.allocs]) (l.grown f) := by
  obtain ⟨h, hh1, hpc, hle, hpend, hheap, hroot, hc, hsub⟩ := ht
  rw [hh] at hh1
  cases hh1
  have hlt : l.allocs < vs.length := by
    by_contra hge
    rw [List.drop_eq_nil_of_le (by omega)] at hpend
    simp only [pending] at hpend
    rw [hd] at hpend
    cases hpend
  rw [List.drop_eq_getElem_cons hlt] at hpend
  have hdata : f.m_Data = vs.getD l.allocs default := by
    rw [List.getD_eq_getElem vs default hlt]
    exact hpend.2.1
  refine ⟨f.resume, rfl, ?_, hlt, pending_resume f _ _ hpend, hheap, ?_,
    chain_ok_grown l f hc hz hf, ?_⟩
  · rw [resume_pc, hpc]
    rfl
  · simp only [list.grown, hroot, nodes_at, List.map_append, List.map_cons, List.map_nil,
      hdata, hheap]
  · show (kept ++ [l.allocs]).Sublist (List.range (l.allocs + 1))
    rw [List.range_succ]
    exact List.Sublist.append hsub (List.Sublist.refl _)

theorem tracked_grown_from [Inhabited T] (vs : List T) (heap : Nat → Nat) (kept : List Nat)
    (a0 : Nat) (l : list T) (f : coro_frame T)
    (ht : a0 ≤ l.allocs ∧ tracked vs heap (kept ++ List.range' a0 (l.allocs - a0)) l)
    (hh : l.m_Handler = some f) (hd : f.done = false) (hz : l.heap l.allocs ≠ 0)
    (hf : l.heap l.allocs ∉ addrs l.m_RootNode) :
    a0 ≤ (l.grown f).allocs ∧
      tracked vs heap (kept ++ List.range' a0 ((l.grown f).allocs - a0)) (l.grown f) := by
  obtain ⟨hle, ht⟩ := ht
  have h1 := tracked_grown vs heap _ l f ht hh hd hz hf
  refine ⟨by simp only [list.grown]; omega, ?_⟩
  have e : List.range' a0 ((l.grown f).allocs - a0)
      = List.range' a0 (l.allocs - a0) ++ [l.allocs] := by
    rw [show (l.grown f).allocs - a0 = (l.allocs - a0) + 1 from by
      simp only [list.grown]; omega, List.range'_concat]
    congr 2
    omega
  rw [e, ← List.append_assoc]
  exact h1

theorem tracked_erase [Inhabited T] (vs : List T) (heap : Nat → Nat) (kept : List Nat)
    (l l1 : list T) (it : iterator) (ht : tracked vs heap kept l)
    (he : l.erase it = some l1) :
    tracked vs heap (kept.eraseIdx (position_of it.m_NodePtr l.m_RootNode)) l1 := by
  have hex := remove_exact l l1 it.m_NodePtr (tracked_ok vs heap kept l ht).1 he
  obtain ⟨h, hh, hpc, hle, hpend, hheap, hroot, hc, hsub⟩ := ht
  subst hex
  refine ⟨h, hh, hpc, hle, hpend, hheap, ?_, chain_ok_sub _ _ hc (List.eraseIdx_sublist _ _),
    (List.eraseIdx_sublist _ _).trans hsub⟩
  show l.m_RootNode.eraseIdx _ = _
  rw [← nodes_at_eraseIdx, ← hroot]

theorem tracked_clear [Inhabited T] (vs : List T) (heap : Nat → Nat) (kept : List Nat)
    (l : list T) (ht : tracked vs heap kept l) : tracked vs heap [] l.clear := by
  obtain ⟨h, hh, hpc, hle, hpend, hheap, _, _, _⟩ := ht
  rw [clear_eq]
  exact ⟨h, hh, hpc, hle, hpend, hheap, rfl, ⟨by simp [addrs], by simp [addrs]⟩,
    List.nil_sublist _⟩

theorem tracked_construct [Inhabited T] (vs : List T) (heap : Nat → Nat) :
    tracked vs heap [] (list.construct (yields vs) heap) := by
  cases vs with
  | nil =>
    rw [construct_nil]
    exact ⟨_, rfl, rfl, Nat.le_refl _, rfl, rfl, rfl, ⟨by simp [addrs], by simp [addrs]⟩,
      List.nil_sublist _⟩
  | cons v R =>
    rw [construct_cons]
    refine ⟨_, rfl, rfl, Nat.zero_le _, ⟨rfl, rfl, ?_⟩, rfl, rfl,
      ⟨by simp [addrs], by simp [addrs]⟩, List.nil_sublist _⟩
    intro i
    simp [yields, Nat.add_comm]

theorem tracked_start [Inhabited T] (vs : List T) (heap : Nat → Nat) (kept : List Nat)
    (l : list T) (ht : tracked vs heap kept l) :
    l.allocs ≤ l.allocs ∧
      tracked vs heap (kept ++ List.range' l.allocs (l.allocs - l.allocs)) l := by
  refine ⟨Nat.le_refl _, ?_⟩
  simpa using ht

theorem tracked_apply [DecidableEq T] [Inhabited T] (vs : List T) (heap : Nat → Nat)
    (kept : List Nat) (fuel : Nat) (l l1 : list T) (o : op T)
    (ht : tracked vs heap kept l) (hp : o.plain = true) (ha : l.apply fuel o = some l1)
    (hf : fresh_for l (l1.allocs - l.allocs)) :
    tracked vs heap (o.surviving l l1 kept) l1 := by
  have hok : ∀ l2 : list T, (l.allocs ≤ l2.allocs ∧
      tracked vs heap (kept ++ List.range' l.allocs (l2.allocs - l.allocs)) l2) →
      chain_ok l2.m_RootNode := fun l2 h => tracked_ok vs heap _ l2 h.2
  have hgrow := tracked_grown_from vs heap kept l.allocs
  have h0 := tracked_start vs heap kept l ht
  cases o with
  | begin =>
    simp only [list.apply, Option.map_eq_some'] at ha
    obtain ⟨⟨it, l2⟩, hb, rfl⟩ := ha
    exact (keeps_begin _ hok hgrow l l2 it h0 hb hf).2
  | advance it =>
    simp only [list.apply, Option.map_eq_some'] at ha
    obtain ⟨⟨it1, l2⟩, hb, rfl⟩ := ha
    exact (keeps_operator_inc _ hok hgrow l l2 it it1 h0 hb hf).2
  | find data =>
    simp only [list.apply, Option.map_eq_some'] at ha
    obtain ⟨⟨it1, l2⟩, hb, rfl⟩ := ha
    exact (keeps_find _ hok hgrow data fuel it1 l l2 h0 hb hf).2
  | index i =>
    simp only [list.apply, list.call, Option.map_eq_some'] at ha
    obtain ⟨⟨a, l2⟩, ⟨r, _, hb⟩, rfl⟩ := ha
    cases hb
    exact h0.2
  | size =>
    simp only [list.apply, list.call, Option.map_some', Option.some.injEq] at ha
    subst ha
    exact h0.2
  | erase position => exact tracked_erase vs heap kept l l1 position ht ha
  | clear =>
    simp only [list.apply, Option.some.injEq] at ha
    subst ha
    exact tracked_clear vs heap kept l ht
  | erase_range first last => cases hp
  | push_front data => cases hp
  | push_back data => cases hp
  | emplace_front data => cases hp
  | emplace_back data raw => cases hp

theorem tracked_run [DecidableEq T] [Inhabited T] (vs : List T) (heap : Nat → Nat)
    (fuel : Nat) :
    ∀ (ops : List (op T)) (kept : List Nat) (l l1 : list T), tracked vs heap kept l →
      ops.all op.plain = true → list.run fuel ops l = some l1 → sound_run fuel ops l →
      tracked vs heap (l.surviving fuel ops kept) l1 := by
  intro ops
  induction ops with
  | nil =>
    intro kept l l1 ht _ h _
    simp only [list.run, Option.some.injEq] at h
    subst h
    exact ht
  | cons o ops ih =>
    intro kept l l1 ht hp h hsound
    simp only [List.all_cons, Bool.and_eq_true] at hp
    cases hl2 : l.apply fuel o with
    | none => simp [list.run, hl2] at h
    | some l2 =>
      simp only [list.run, hl2] at h
      simp only [sound_run, hl2] at hsound
      simp only [list.surviving, hl2]
      exact ih _ l2 l1 (tracked_apply vs heap kept fuel l l2 o ht hp.1 hl2 hsound.1) hp.2 h
        hsound.2

/-! ## The step in which `done()` turns true -/

theorem done_false_frame (l : list T) (h : coro_frame T) (hh : l.m_Handler = some h)
    (hd : l.done = some false) : h.done = false := by
  simpa [list.done, hh] using hd

theorem grown_last (vs : List T) (p : Nat) (l : list T) (h : coro_frame T)
    (hs : settled vs p l) (hh : l.m_Handler = some h) (hd : h.done = false)
    (hd2 : (l.grown h).done = some true) (hz : l.heap l.allocs ≠ 0)
    (hf : l.heap l.allocs ∉ addrs l.m_RootNode) :
    iterator.deref ⟨l.heap l.allocs⟩ (l.grown h) = vs.getLast? := by
  have hg := settled_grown vs p l h hs hh hd hz hf
  obtain ⟨h1, hh1, _, hle, hpend, _⟩ := hs
  rw [hh] at hh1
  cases hh1
  have hlt : h.pc < vs.length := by
    by_contra hge
    rw [List.drop_eq_nil_of_le (by omega)] at hpend
    simp only [pending] at hpend
    rw [hd] at hpend
    cases hpend
  rw [List.drop_eq_getElem_cons hlt] at hpend
  have hlast : h.pc + 1 = vs.length := by
    obtain ⟨h2, hh2, _, _, hpend2, _⟩ := hg
    have e : h2 = h.resume := by
      simp only [list.grown, Option.some.injEq] at hh2
      exact hh2.symm
    subst e
    have hdone : h.resume.done = true := by
      simpa [list.done, list.grown] using hd2
    rw [resume_pc] at hpend2
    by_contra hne
    have hlt2 : h.pc + 1 < vs.length := by omega
    rw [List.drop_eq_getElem_cons hlt2] at hpend2
    rw [hpend2.1] at hdone
    cases hdone
  have hat : node_at (l.grown h).m_RootNode (l.heap l.allocs)
      = some (⟨l.heap l.allocs, h.m_Data⟩, []) :=
    node_at_append l.m_RootNode ⟨l.heap l.allocs, h.m_Data⟩ [] hf
  rw [iterator.deref, hat, List.getLast?_eq_getElem?]
  simp only [Option.map_some']
  rw [show vs.length - 1 = h.pc from by omega, List.getElem?_eq_getElem hlt, hpend.2.1]

theorem flip_operator_inc (vs : List T) (p : Nat) (l l2 : list T) (it it2 : iterator)
    (hs : settled vs p l) (hi : it.operator_inc l = some (it2, l2))
    (hd1 : l.done = some false) (hd2 : l2.done = some true) (hf : fresh_for l 1) :
    it2 ≠ l2.end_ ∧ it2.deref l2 = vs.getLast? ∧ l2.allocs = l.allocs + 1 := by
  obtain ⟨hz, hn⟩ := fresh_for_first l 1 hf (by omega)
  have hc := settled_ok vs p l hs
  obtain ⟨h, hh, hrest⟩ := hs
  have hd := done_false_frame l h hh hd1
  cases hat : node_at l.m_RootNode it.m_NodePtr with
  | none => simp [iterator.operator_inc, iterator.Next, hat] at hi
  | some r =>
    obtain ⟨n, next⟩ := r
    obtain ⟨pre, hsplit, hna, _⟩ := node_at_split hat
    have hnz : it.m_NodePtr ≠ 0 := by
      rw [← hna]
      exact (mem_addrs_of_split hsplit hc).2
    have heq := operator_inc_eq l it.m_NodePtr n next hat hnz
    rw [show iterator.operator_inc ⟨it.m_NodePtr⟩ l = it.operator_inc l from rfl, hi] at heq
    cases next with
    | cons m rest =>
      simp only [Option.some.injEq, Prod.mk.injEq] at heq
      rw [heq.2, hd1] at hd2
      cases hd2
    | nil =>
      rw [hh] at heq
      simp only [hd, Bool.false_eq_true, if_false, Option.some.injEq, Prod.mk.injEq] at heq
      obtain ⟨rfl, rfl⟩ := heq
      refine ⟨fun e => hz (congrArg iterator.m_NodePtr e), ?_, rfl⟩
      exact grown_last vs p l h ⟨h, hh, hrest⟩ hh hd hd2 hz hn

theorem flip_begin (vs : List T) (p : Nat) (l l2 : list T) (it2 : iterator)
    (hs : settled vs p l) (hb : l.begin = some (it2, l2))
    (hd1 : l.done = some false) (hd2 : l2.done = some true) (hf : fresh_for l 1) :
    it2 ≠ l2.end_ ∧ it2.deref l2 = vs.getLast? ∧ l2.allocs = l.allocs + 1 := by
  obtain ⟨hz, hn⟩ := fresh_for_first l 1 hf (by omega)
  have hc := settled_ok vs p l hs
  obtain ⟨h, hh, hrest⟩ := hs
  have hd := done_false_frame l h hh hd1
  cases hroot : l.m_RootNode with
  | cons n rest =>
    simp only [list.begin, hroot, Option.some.injEq, Prod.mk.injEq] at hb
    rw [← hb.2, hd1] at hd2
    cases hd2
  | nil =>
    simp only [list.begin, hroot, resume_eq l h hh hd hc, Option.some.injEq,
      Prod.mk.injEq] at hb
    obtain ⟨e1, e2⟩ := hb
    subst e2
    have hp : ptr (l.grown h).m_RootNode = l.heap l.allocs := by
      simp [list.grown, hroot, ptr]
    rw [hp] at e1
    subst e1
    refine ⟨fun e => hz (congrArg iterator.m_NodePtr e), ?_, rfl⟩
    exact grown_last vs p l h ⟨h, hh, hrest⟩ hh hd hd2 hz hn

/-! ## Step-by-step traversal of a fresh list, allocator sound for the nodes it makes -/

theorem fresh_construct [Inhabited T] (vs : List T) (heap : Nat → Nat) (m : Nat)
    (hf : fresh_for (list.construct (yields vs) heap) m) :
    (∀ i, i < m → heap i ≠ 0) ∧ ∀ i j, i < m → j < m → heap i = heap j → i = j := by
  have e : (list.construct (yields vs) heap).heap = heap
      ∧ (list.construct (yields vs) heap).allocs = 0 := by
    cases vs with
    | nil => rw [construct_nil]; exact ⟨rfl, rfl⟩
    | cons v R => rw [construct_cons]; exact ⟨rfl, rfl⟩
  unfold fresh_for at hf
  rw [e.1, e.2] at hf
  simp only [Nat.zero_add] at hf
  exact ⟨fun i hi => (hf i hi).1, fun i j hi hj => (hf i hi).2.2 j hj⟩

theorem steps_fresh [Inhabited T] (vs : List T) (heap : Nat → Nat)
    (hnz : ∀ i, i < vs.length → heap i ≠ 0)
    (hinj : ∀ i j, i < vs.length → j < vs.length → heap i = heap j → i = j) :
    ∀ k, k ≤ vs.length →
      ∃ c l, traversal_steps k (list.construct (yields vs) heap) = some (c, l) ∧
        tracked vs heap (List.range k) l ∧ l.allocs = k ∧
        ((c = none ∧ l.m_RootNode = []) ∨
          ∃ pre n, c = some ⟨n.addr⟩ ∧ l.m_RootNode = pre ++ [n]) := by
  intro k
  induction k with
  | zero =>
    intro _
    refine ⟨none, _, rfl, tracked_construct vs heap, ?_, Or.inl ⟨rfl, construct_chain _ _⟩⟩
    cases vs with
    | nil => rw [construct_nil]
    | cons v R => rw [construct_cons]
  | succ k ih =>
    intro hk
    obtain ⟨c, l, hs, ht, hal, hc⟩ := ih (Nat.le_of_succ_le hk)
    have hlt : k < vs.length := hk
    have hcok := tracked_ok vs heap _ l ht
    obtain ⟨h, hh, hpc, hle, hpend, hheap, hroot, _, hsub⟩ := ht
    have ht : tracked vs heap (List.range k) l :=
      ⟨h, hh, hpc, hle, hpend, hheap, hroot, hcok, hsub⟩
    rw [hal, List.drop_eq_getElem_cons hlt] at hpend
    obtain ⟨hdone, hdata, _⟩ := hpend
    have hz : l.heap l.allocs ≠ 0 := by
      rw [hheap, hal]
      exact hnz k hlt
    have hfr : l.heap l.allocs ∉ addrs l.m_RootNode := by
      rw [hheap, hal, hroot]
      intro hm
      simp only [addrs, nodes_at, List.map_map, List.mem_map, List.mem_range,
        Function.comp_apply] at hm
      obtain ⟨i, hi, e⟩ := hm
      have := hinj i k (by omega) hlt e
      omega
    have hg := tracked_grown vs heap _ l h ht hh hdone hz hfr
    rw [hal, ← List.range_succ] at hg
    refine ⟨some ⟨l.heap l.allocs⟩, l.grown h, ?_, hg, by simp [list.grown, hal],
      Or.inr ⟨l.m_RootNode, ⟨l.heap l.allocs, h.m_Data⟩, rfl, rfl⟩⟩
    rcases hc with ⟨rfl, hnil⟩ | ⟨pre, n, rfl, hcn⟩
    · simp [traversal_steps, hs, list.begin, hnil, resume_eq l h hh hdone hcok, list.grown, ptr]
    · obtain ⟨hp, hz2⟩ := chain_ok_concat (hcn ▸ hcok)
      have hat : node_at l.m_RootNode n.addr = some (n, []) := by
        rw [hcn]; exact node_at_append pre n [] hp
      have hinc := operator_inc_eq l n.addr n [] hat hz2
      rw [hh] at hinc
      simp only [hdone] at hinc
      simp only [traversal_steps, hs]
      rw [show (({ m_NodePtr := n.addr } : iterator).operator_inc l)
        = some (⟨l.heap l.allocs⟩, l.grown h) from by simpa using hinc]
      rfl

/-! ## Move assignment -/

theorem move_assign_apart (mem : Nat → list T) (target source : Nat)
    (hne : target ≠ source) :
    list.move_assign mem target source target
        = { mem target with m_RootNode := (mem source).m_RootNode,
                            m_Handler := (mem source).m_Handler } ∧
      list.move_assign mem target source source
        = { mem source with m_RootNode := [], m_Handler := none } ∧
      ∀ j, j ≠ target → j ≠ source → list.move_assign mem target source j = mem j := by
  have hne2 : source ≠ target := fun e => hne e.symm
  refine ⟨?_, ?_, ?_⟩
  · simp [list.move_assign, Function.update, hne, hne2]
  · simp [list.move_assign, Function.update, hne, hne2]
  · intro j h1 h2
    simp [list.move_assign, Function.update, h1, h2]

theorem move_assign_same (mem : Nat → list T) (x : Nat) :
    list.move_assign mem x x x = { mem x with m_RootNode := [], m_Handler := none } := by
  simp [list.move_assign, Function.update]

/-! ## The claims -/

/-- C1 (exhaustion).  On a freshly constructed list whose generator yields exactly `vs`,
with an allocator that hands out distinct non-null addresses, the range-`for` traversal
from `begin()` terminates (any fuel above `vs.length` is enough), reads exactly `vs` in
order, leaves the cursor equal to `end()`, and afterwards `size()` is `vs.length` and
`done()` is true; step by step, the step after the one that reached the last value is the
one that returns the end cursor. -/
theorem C1_full_traversal [Inhabited T] (vs : List T) (heap : Nat → Nat)
    (hinj : Function.Injective heap) (hnz : ∀ n, heap n ≠ 0) (fuel : Nat)
    (hf : vs.length < fuel) :
    (∃ l1, (list.construct (yields vs) heap).traverse fuel = some (vs, l1.end_, l1) ∧
      l1.size = vs.length ∧ l1.done = some true) ∧
    (∃ l2, traversal_steps (vs.length + 1) (list.construct (yields vs) heap)
        = some (some l2.end_, l2) ∧ l2.size = vs.length ∧ l2.done = some true) := by
  refine ⟨?_, traversal_steps_end vs heap hinj hnz⟩
  obtain ⟨l1, h1, h2, h3⟩ := traverse_ok (list.construct (yields vs) heap) vs fuel
    (ok_construct vs heap hinj hnz) (by rw [construct_chain]; simpa using hf)
  rw [construct_chain] at h1 h3
  simp only [values, List.map_nil, List.nil_append] at h1 h3
  exact ⟨l1, h1, by rw [list_size_eq, values, h3], done_of_ok_nil h2⟩

/-- C1, on the demonstration generator `0, 10, ..., 90`: the full traversal reads the ten
values and leaves `size() == 10` and `done() == true`. -/
theorem C1_full_traversal_witness :
    ∃ l1, (do_something bump_heap).traverse 11
        = some ([0, 10, 20, 30, 40, 50, 60, 70, 80, 90], l1.end_, l1) ∧
      l1.size = 10 ∧ l1.done = some true :=
  (C1_full_traversal ((List.range 10).map (fun i => i * 10)) bump_heap bump_heap_injective
    bump_heap_ne_zero 11 (by decide)).1

/-- C2 (lazy growth).  On a freshly constructed list whose generator yields exactly `vs`,
for every `k < vs.length` the first `k` traversal steps succeed and leave `size() == k`
with the chain holding exactly the first `k` generated values, and each of those steps
raised `size()` by at most one. -/
theorem C2_lazy_growth [Inhabited T] (vs : List T) (heap : Nat → Nat)
    (hinj : Function.Injective heap) (hnz : ∀ n, heap n ≠ 0) (k : Nat) (hk : k < vs.length) :
    ∃ c l, traversal_steps k (list.construct (yields vs) heap) = some (c, l) ∧
      l.size = k ∧ values l.m_RootNode = vs.take k ∧
      ∀ j, j < k → ∃ c1 l1 c2 l2,
        traversal_steps j (list.construct (yields vs) heap) = some (c1, l1) ∧
        traversal_steps (j + 1) (list.construct (yields vs) heap) = some (c2, l2) ∧
        l2.size ≤ l1.size + 1 := by
  have size_at : ∀ j, j ≤ vs.length → ∃ c l,
      traversal_steps j (list.construct (yields vs) heap) = some (c, l) ∧ l.size = j ∧
        values l.m_RootNode = vs.take j := by
    intro j hj
    obtain ⟨c, l, hs, _, hv, _⟩ := traversal_steps_ok vs heap hinj hnz j hj
    exact ⟨c, l, hs, by rw [list_size_eq, hv, List.length_take]; omega, hv⟩
  obtain ⟨c, l, hs, hsz, hv⟩ := size_at k (Nat.le_of_lt hk)
  refine ⟨c, l, hs, hsz, hv, ?_⟩
  intro j hj
  obtain ⟨c1, l1, hs1, hsz1, _⟩ := size_at j (by omega)
  obtain ⟨c2, l2, hs2, hsz2, _⟩ := size_at (j + 1) (by omega)
  exact ⟨c1, l1, c2, l2, hs1, hs2, by omega⟩

/-- C2, on the demonstration generator: after three steps `size() == 3` and the chain is
`[0, 10, 20]`. -/
theorem C2_lazy_growth_witness :
    ∃ c l, traversal_steps 3 (do_something bump_heap) = some (c, l) ∧
      l.size = 3 ∧ values l.m_RootNode = [0, 10, 20] := by
  obtain ⟨c, l, h1, h2, h3, _⟩ := C2_lazy_growth ((List.range 10).map (fun i => i * 10))
    bump_heap bump_heap_injective bump_heap_ne_zero 3 (by decide)
  exact ⟨c, l, h1, h2, h3⟩

/-- C3 (trigger on boundary).  For a cursor standing on the node `n` of the chain, whose
`m_Next` owns `next`: if `n` has a successor, `operator++` moves the cursor to it and
leaves the list as it is; if `n` is the last node and the generator is finished, the
cursor becomes the end cursor and the list is left as it is; if `n` is the last node and
the generator is not finished, exactly one node holding the pending value `m_Data` is
linked behind the chain, the generator is resumed once, and the cursor stands on the new
node.  (On a null handle the advance off the last node is undefined.) -/
theorem C3_trigger_on_boundary (l : list T) (it : iterator) (n : node T)
    (next : List (node T)) (hat : node_at l.m_RootNode it.m_NodePtr = some (n, next))
    (hz : it.m_NodePtr ≠ 0) :
    it.operator_inc l =
      if next.isEmpty then
        match l.m_Handler with
        | none => none
        | some h =>
          if h.done then some (l.end_, l)
          else some (⟨l.heap l.allocs⟩,
            { m_Handler := some h.resume
              m_RootNode := l.m_RootNode ++ [⟨l.heap l.allocs, h.m_Data⟩]
              heap := l.heap
              allocs := l.allocs + 1 })
      else some (⟨ptr next⟩, l) := by
  have h := operator_inc_eq l it.m_NodePtr n next hat hz
  cases next with
  | nil =>
    rw [show it.operator_inc l = iterator.operator_inc ⟨it.m_NodePtr⟩ l from rfl, h]
    simp only [List.isEmpty_nil, if_true]
    cases l.m_Handler <;> rfl
  | cons m rest =>
    rw [show it.operator_inc l = iterator.operator_inc ⟨it.m_NodePtr⟩ l from rfl, h]
    rfl

/-- C3 at work on the demonstration list with three values materialised: the cursor on
the last node (address 48) advances onto a new node holding the pending value `30`. -/
theorem C3_trigger_on_boundary_witness :
    values (demo_state 3).m_RootNode = [0, 10, 20] ∧
      node_at (demo_state 3).m_RootNode 48 = some (⟨48, 20⟩, []) ∧
      (iterator.operator_inc ⟨48⟩ (demo_state 3)).map
          (fun r => (r.1.m_NodePtr, values r.2.m_RootNode))
        = some (64, [0, 10, 20, 30]) := by
  refine ⟨rfl, rfl, ?_⟩
  rw [C3_trigger_on_boundary (demo_state 3) ⟨48⟩ ⟨48, 20⟩ [] rfl (by decide)]
  rfl

/-- C4, where the code departs from it.  With four values materialised, chain
`[0, 10, 20, 30]`, `operator[](2)` returns `30`, the payload of the last node, while the
element at position 2 of the chain is `20`: the loop of `operator[]` never advances
`currentIndex`, so for an index of 2 or more it walks to the last node. -/
theorem C4_index_two_reads_last :
    values (demo_state 4).m_RootNode = [0, 10, 20, 30] ∧
      (demo_state 4).index 2 = some (Except.ok 30) ∧
      (values (demo_state 4).m_RootNode)[2]? = some 20 := by
  refine ⟨rfl, rfl, rfl⟩

/-- C5 (index bound).  `operator[](i)` throws the out-of-range error exactly when
`i >= size()`, the number of materialised nodes, whatever the generator still holds; it
never runs into undefined behaviour. -/
theorem C5_index_out_of_range (l : list T) (i : Nat) :
    (l.index i = some (Except.error "Out of the range!") ↔ l.size ≤ i) ∧
      l.index i ≠ none := by
  refine ⟨⟨?_, ?_⟩, index_ne_none l i⟩
  · intro h
    by_contra hlt
    rw [index_eq l i (by omega), Option.map_eq_some'] at h
    obtain ⟨_, _, ha⟩ := h
    cases ha
  · intro h
    have hge : i ≥ l.size := h
    simp [list.index, hge]

/-- C5 on the demonstration list with three values materialised: `operator[](5)` throws,
although the generator would go on to produce a sixth value. -/
theorem C5_index_out_of_range_witness :
    (demo_state 3).size = 3 ∧ (demo_state 3).done = some false ∧
      (demo_state 3).index 5 = some (Except.error "Out of the range!") :=
  ⟨rfl, rfl, (C5_index_out_of_range (demo_state 3) 5).1.mpr (by decide)⟩

/-- C6 (last index).  When at least one node is materialised, `operator[](size() - 1)`
returns normally, with the payload of the last node of the chain. -/
theorem C6_index_last (l : list T) (hk : 1 ≤ l.size) :
    ∃ v, (values l.m_RootNode).getLast? = some v ∧
      l.index (l.size - 1) = some (Except.ok v) := by
  have hlen : l.size = (values l.m_RootNode).length := list_size_eq l
  have hne : values l.m_RootNode ≠ [] := by
    intro e
    rw [e] at hlen
    simp only [List.length_nil] at hlen
    omega
  obtain ⟨v, hv⟩ := Option.isSome_iff_exists.mp (List.getLast?_isSome.mpr hne)
  refine ⟨v, hv, ?_⟩
  rw [index_eq l (l.size - 1) (by omega)]
  by_cases h1 : l.size - 1 ≤ 1
  · simp only [h1, if_true]
    rw [hlen, ← List.getLast?_eq_getElem?, hv]
    rfl
  · simp only [h1, if_false, hv]
    rfl

/-- C6 on the demonstration list with four values materialised: `operator[](3)` returns
`30`, the payload of the last node. -/
theorem C6_index_last_witness :
    (demo_state 4).size - 1 = 3 ∧
      ∃ v, (values (demo_state 4).m_RootNode).getLast? = some v ∧
        (demo_state 4).index ((demo_state 4).size - 1) = some (Except.ok v) :=
  ⟨rfl, C6_index_last (demo_state 4) (by decide)⟩

/-- C7 (pure reads).  `size()` and `operator[](i)`, whether the latter returns or throws,
leave the list exactly as it was: same chain, same generator frame (finished flag, pending
value, position in the body). -/
theorem C7_queries_leave_list (l : list T) (q : query) :
    (l.call q).map Prod.snd = some l := by
  cases q with
  | size => rfl
  | index i =>
    cases h : l.index i with
    | none => exact absurd h (index_ne_none l i)
    | some r => simp [list.call, h]

/-- C8 (single erase).  In a chain whose nodes have distinct addresses, `erase` of the
cursor on the node at position `i` returns normally and leaves the chain without that
node, the others in their order; `size()` drops by exactly one and the generator frame is
untouched. -/
theorem C8_erase_position (l : list T) (i : Nat) (n : node T)
    (hnd : (addrs l.m_RootNode).Nodup) (hi : l.m_RootNode[i]? = some n) :
    ∃ l1, l.erase ⟨n.addr⟩ = some l1 ∧
      l1.m_RootNode = l.m_RootNode.eraseIdx i ∧
      values l1.m_RootNode = (values l.m_RootNode).eraseIdx i ∧
      l1.size + 1 = l.size ∧ l1.m_Handler = l.m_Handler := by
  have hlt : i < l.m_RootNode.length := by
    by_contra hge
    rw [List.getElem?_eq_none (by omega)] at hi
    cases hi
  refine ⟨_, erase_at_index l i n hnd hi, rfl, ?_, ?_, rfl⟩
  · simp only [values]
    rw [List.eraseIdx_eq_take_drop_succ, List.eraseIdx_eq_take_drop_succ, List.map_append,
      List.map_take, List.map_drop]
  · simp only [list.size, size_from_eq_length]
    exact List.length_eraseIdx_add_one hlt

/-- C8 on the demonstration list with three values materialised: erasing the cursor on
the middle node (address 32, payload 10) leaves `[0, 20]`. -/
theorem C8_erase_position_witness :
    values (demo_state 3).m_RootNode = [0, 10, 20] ∧
      ∃ l1, (demo_state 3).erase ⟨32⟩ = some l1 ∧ values l1.m_RootNode = [0, 20] ∧
        l1.size + 1 = (demo_state 3).size := by
  obtain ⟨l1, h1, _, h3, h4, _⟩ :=
    C8_erase_position (demo_state 3) 1 ⟨32, 10⟩ (by decide) rfl
  exact ⟨rfl, l1, h1, h3, h4⟩

/-- C9, where the code departs from it.  `erase(first, last)` decides whether `first`
comes before `last` by comparing node addresses (`first >= last`), not chain positions.
The end cursor is the null address, so no cursor on a node is below it: on the chain
`[0, 10, 20]`, `erase(begin(), end())` removes the first node only and leaves `[10, 20]`
instead of the empty chain.  Likewise on a chain built by `push_front`, where addresses
fall along the chain (`[9, 8, 7]` at 48, 32, 16), erasing from the cursor on `9` up to the
cursor on `7` leaves `[8, 7]` instead of `[7]`. -/
theorem C9_erase_range_compares_addresses :
    (values (demo_state 3).m_RootNode = [0, 10, 20] ∧
      (demo_state 3).begin.map (fun r => r.1) = some ⟨16⟩ ∧
      ((demo_state 3).erase_range ⟨16⟩ (demo_state 3).end_).map
          (fun r => values r.m_RootNode) = some [10, 20]) ∧
    (addrs ((((do_something bump_heap).push_front 7).push_front 8).push_front 9).m_RootNode
        = [48, 32, 16] ∧
      values ((((do_something bump_heap).push_front 7).push_front 8).push_front 9).m_RootNode
        = [9, 8, 7] ∧
      (((((do_something bump_heap).push_front 7).push_front 8).push_front 9).erase_range
          ⟨48⟩ ⟨16⟩).map (fun r => values r.m_RootNode) = some [8, 7]) := by
  refine ⟨⟨rfl, rfl, rfl⟩, rfl, rfl, rfl⟩

/-- C10 (head insertion).  `push_front(x)` and `emplace_front(x)` put one new node holding
`x` in front of the chain and leave the generator frame untouched; and on a freshly
constructed list whose generator yields exactly `vs`, `push_front(a)`, `push_front(b)` and
then a full traversal from `begin()` reads `b`, `a` and then `vs` in order, ending on
`end()`. -/
theorem C10_push_front [Inhabited T] (l : list T) (x : T) (vs : List T) (a b : T)
    (heap : Nat → Nat) (hinj : Function.Injective heap) (hnz : ∀ n, heap n ≠ 0)
    (fuel : Nat) (hf : vs.length + 2 < fuel) :
    (values (l.push_front x).m_RootNode = x :: values l.m_RootNode ∧
      (l.push_front x).m_Handler = l.m_Handler) ∧
    ((l.emplace_front x).1 = x ∧
      values (l.emplace_front x).2.m_RootNode = x :: values l.m_RootNode ∧
      (l.emplace_front x).2.m_Handler = l.m_Handler) ∧
    ∃ l1, (((list.construct (yields vs) heap).push_front a).push_front b).traverse fuel
        = some (b :: a :: vs, l1.end_, l1) ∧
      values l1.m_RootNode = b :: a :: vs ∧ l1.done = some true := by
  refine ⟨⟨rfl, rfl⟩, ⟨rfl, rfl, rfl⟩, ?_⟩
  have hok := ok_push_front _ b vs (ok_push_front _ a vs (ok_construct vs heap hinj hnz))
  have hch : (((list.construct (yields vs) heap).push_front a).push_front b).m_RootNode
      = [⟨heap 1, b⟩, ⟨heap 0, a⟩] := by
    cases vs with
    | nil => rw [construct_nil]; rfl
    | cons v R => rw [construct_cons]; rfl
  obtain ⟨l1, h1, h2, h3⟩ := traverse_ok _ vs fuel hok
    (by rw [hch]; simp only [List.length_cons, List.length_nil]; omega)
  rw [hch] at h1 h3
  exact ⟨l1, h1, h3, done_of_ok_nil h2⟩

/-- C10 on the demonstration generator: after `push_front(7)` and `push_front(8)` the
traversal reads `8, 7, 0, 10, ..., 90`. -/
theorem C10_push_front_witness :
    ∃ l1, (((do_something bump_heap).push_front 7).push_front 8).traverse 13
        = some ([8, 7, 0, 10, 20, 30, 40, 50, 60, 70, 80, 90], l1.end_, l1) :=
  let ⟨l1, h1, _⟩ := (C10_push_front (do_something bump_heap) 0
    ((List.range 10).map (fun i => i * 10)) 7 8 bump_heap bump_heap_injective
    bump_heap_ne_zero 13 (by decide)).2.2
  ⟨l1, h1⟩

/-- C11, where the code departs from it.  `push_back(99)` on the chain `[0, 10, 20]` leaves
`[0, 10, 20, 99]`, but `emplace_back(99)` does so only if the raw storage of the new node
happens to hold a null `m_Next`: `EMPLACE_NODE` constructs `m_Data` alone and `place_back`
does not write the new node's `m_Next`, so with any other word in the storage the chain is
left ending in a wild link. -/
theorem C11_emplace_back_leaves_wild_link :
    values (demo_state 3).m_RootNode = [0, 10, 20] ∧
      ((demo_state 3).push_back 99).map (fun r => values r.m_RootNode)
        = some [0, 10, 20, 99] ∧
      ((demo_state 3).emplace_back 99 0).map (fun r => values r.2.m_RootNode)
        = some [0, 10, 20, 99] ∧
      ((demo_state 3).emplace_back 99 57005).map (fun r => values r.2.m_RootNode) = none := by
  refine ⟨rfl, rfl, rfl, rfl⟩

/-- C12 (find).  On a list in good order whose generator has exactly `R` left to hand
over, `find(v)` returns (any fuel above the length of chain plus `R` is enough).  If `v`
occurs in the chain followed by `R`, the cursor returned stands on the node at the position
of the first occurrence, a node holding `v`, and is not the end cursor; if `v` does not
occur, the end cursor is returned.  The chain `find` leaves has pairwise distinct non-null
addresses, so the cursor denotes that node only. -/
theorem C12_find_first_match [DecidableEq T] (l : list T) (R : List T) (v : T) (fuel : Nat)
    (hok : l.ok R) (hf : l.m_RootNode.length + R.length + 1 ≤ fuel) :
    ∃ it l1, l.find v fuel = some (it, l1) ∧ chain_ok l1.m_RootNode ∧
      (∀ A B, values l.m_RootNode ++ R = A ++ v :: B → v ∉ A →
        ∃ m, l1.m_RootNode[A.length]? = some m ∧ m.m_Data = v ∧ it = ⟨m.addr⟩ ∧
          it ≠ l1.end_) ∧
      (v ∉ values l.m_RootNode ++ R → it = l1.end_) := by
  rcases find_ok l R v fuel hok hf with
    ⟨w, m, rest, hc, hw, hm, hfind⟩ | ⟨hin, A0, B0, l1, pre1, m, hR, hA0, hfind, hc1, hm, hv, hok1⟩ |
    ⟨hin, hinR, l1, hfind, hv, hok1⟩
  · refine ⟨⟨m.addr⟩, l, hfind, hok.1, ?_, ?_⟩
    · intro A B hsplit hA
      have hsplit2 : values w ++ v :: (values rest ++ R) = A ++ v :: B := by
        rw [← hsplit, hc, ← hm]
        simp [values]
      have hAw : values w = A := first_split_unique v _ _ _ _ hsplit2 hw hA
      have hlen : A.length = w.length := by rw [← hAw]; simp [values]
      refine ⟨m, ?_, hm, rfl, ?_⟩
      · rw [hlen, hc]
        exact getElem?_split w m rest
      · intro e
        have hz := (mem_addrs_of_split hc hok.1).2
        exact hz (congrArg iterator.m_NodePtr e)
    · intro hnot
      exfalso
      apply hnot
      rw [hc, ← hm]
      simp [values]
  · refine ⟨⟨m.addr⟩, l1, hfind, hok1.1, ?_, ?_⟩
    · intro A B hsplit hA
      have hsplit2 : (values l.m_RootNode ++ A0) ++ v :: B0 = A ++ v :: B := by
        rw [← hsplit, hR]
        simp
      have hnot : v ∉ values l.m_RootNode ++ A0 := by
        simp only [List.mem_append, not_or]
        exact ⟨hin, hA0⟩
      have hAeq : values l.m_RootNode ++ A0 = A := first_split_unique v _ _ _ _ hsplit2 hnot hA
      have hlen : A.length = pre1.length := by
        have h1 : (values l1.m_RootNode).length = pre1.length + 1 := by
          rw [hc1]; simp [values]
        rw [hv, hAeq] at h1
        simpa using h1
      refine ⟨m, ?_, hm, rfl, ?_⟩
      · rw [hlen, hc1]
        exact getElem?_split pre1 m []
      · intro e
        have hz := (chain_ok_concat (hc1 ▸ hok1.1)).2
        exact hz (congrArg iterator.m_NodePtr e)
    · intro hnot
      exfalso
      apply hnot
      rw [hR]
      simp
  · refine ⟨⟨0⟩, l1, hfind, hok1.1, ?_, fun _ => rfl⟩
    intro A B hsplit _
    exfalso
    have hmem : v ∈ values l.m_RootNode ++ R := by rw [hsplit]; simp
    rcases List.mem_append.mp hmem with h | h
    · exact hin h
    · exact hinR h

/-- C12 on the demonstration list with three values materialised: `find(50)` returns a
cursor, not the end cursor, on the node at position 5, which holds `50`. -/
theorem C12_find_first_match_witness :
    ∃ it l1, (demo_state 3).find 50 11 = some (it, l1) ∧
      ∃ m, l1.m_RootNode[5]? = some m ∧ m.m_Data = 50 ∧ it = ⟨m.addr⟩ ∧ it ≠ l1.end_ := by
  obtain ⟨it, l1, h1, _, h2, _⟩ := C12_find_first_match (demo_state 3) _ 50 11
    (demo_state_ok 3 (by decide)) (by decide)
  exact ⟨it, l1, h1, h2 [0, 10, 20, 30, 40] [60, 70, 80, 90] rfl (by decide)⟩

/-- C13 (clear).  `clear()` leaves the chain empty and `size() == 0`, and leaves the
generator frame as it was, so `done()` answers as before; if the generator is finished,
`begin()` on the cleared list is `end()`.  When the generator has exactly `R` left to hand
over and the allocator from now on hands out distinct non-null addresses (those of the
freed nodes may come back), a full traversal of the cleared list reads exactly `R`, in
order, and none of the values materialised before the `clear()`. -/
theorem C13_clear (l : list T) (R : List T) (fuel : Nat)
    (hp : ∃ h, l.m_Handler = some h ∧ pending h R)
    (hheap : ∀ n, l.allocs ≤ n →
      l.heap n ≠ 0 ∧ ∀ m, l.allocs ≤ m → l.heap n = l.heap m → n = m)
    (hf : R.length < fuel) :
    (l.clear.m_RootNode = [] ∧ l.clear.size = 0 ∧ l.clear.m_Handler = l.m_Handler ∧
      l.clear.done = l.done) ∧
    (l.done = some true → l.clear.begin = some (l.clear.end_, l.clear)) ∧
    ∃ l1, l.clear.traverse fuel = some (R, l1.end_, l1) ∧ values l1.m_RootNode = R ∧
      l1.done = some true := by
  have hok : l.clear.ok R := by
    rw [clear_eq]
    refine ⟨⟨by simp [addrs], by simp [addrs]⟩, ?_, hp⟩
    intro n hn
    exact ⟨(hheap n hn).1, by simp [addrs], (hheap n hn).2⟩
  refine ⟨⟨by rw [clear_eq], by rw [clear_eq]; rfl, by rw [clear_eq], by rw [clear_eq]; rfl⟩,
    ?_, ?_⟩
  · intro hd
    obtain ⟨h, hh, _⟩ := hp
    have hdone : h.done = true := by
      simpa [list.done, hh] using hd
    rw [clear_eq]
    have hr := resume_done { l with m_RootNode := [] } h hh hdone
    simp only [list.begin, hr, ptr, list.end_]
  · obtain ⟨l1, h1, h2, h3⟩ := traverse_ok l.clear R fuel hok
      (by rw [clear_eq]; simp; omega)
    rw [clear_eq] at h1 h3
    simp only [values, List.map_nil, List.nil_append] at h1 h3
    rw [← clear_eq] at h1
    exact ⟨l1, h1, h3, done_of_ok_nil h2⟩

/-- C13 on the demonstration list with three values materialised: after `clear()` the
traversal reads `30, 40, ..., 90`. -/
theorem C13_clear_witness :
    (demo_state 3).clear.size = 0 ∧
      ∃ l1, (demo_state 3).clear.traverse 8
        = some ([30, 40, 50, 60, 70, 80, 90], l1.end_, l1) :=
  let ⟨h0, _, l1, h1, _⟩ := C13_clear (demo_state 3) [30, 40, 50, 60, 70, 80, 90] 8
    (demo_state_ok 3 (by decide)).2.2
    (fun n _ => ⟨bump_heap_ne_zero n, fun _ _ e => bump_heap_injective e⟩) (by decide)
  ⟨h0.2.1, l1, h1⟩

/-- C14 as stated fails: the list `do_something()` returns has `size() == 0`, not 1; its
first value `0` waits in the promise and no node exists yet. -/
theorem C14_first_value_not_materialised :
    ¬ ((do_something bump_heap).size = 1 ∧ values (do_something bump_heap).m_RootNode = [0]) := by
  intro h
  exact absurd h.1 (by decide)

/-- C14 (construction), amended.  The list returned by construction has an empty chain and
`size() == 0` whatever the generator; `done()` is true exactly when the body yields
nothing.  When the body yields `v` first, `v` is held in the promise and the first
`begin()` materialises it as the only node. -/
theorem C14_construction [Inhabited T] (body : Nat → Option T) (heap : Nat → Nat) (v : T)
    (R : List T) :
    ((list.construct body heap).m_RootNode = [] ∧ (list.construct body heap).size = 0 ∧
      (list.construct body heap).done = some (body 0).isNone) ∧
    ((list.construct (yields (v :: R)) heap).done = some false ∧
      (list.construct (yields (v :: R)) heap).m_Handler.map coro_frame.m_Data = some v ∧
      ((list.construct (yields (v :: R)) heap).begin).map (fun r => values r.2.m_RootNode)
        = some [v]) ∧
    ((list.construct (yields ([] : List T)) heap).size = 0 ∧
      (list.construct (yields ([] : List T)) heap).done = some true) := by
  refine ⟨⟨construct_chain body heap, ?_, ?_⟩, ⟨?_, ?_, ?_⟩, ?_, ?_⟩
  · rw [list.size, construct_chain]; rfl
  · unfold list.construct
    cases body 0 <;> rfl
  · rw [construct_cons]; rfl
  · rw [construct_cons]; rfl
  · rw [construct_cons]; rfl
  · rw [construct_nil]; rfl
  · rw [construct_nil]; rfl

/-- C15 as stated fails: after the demonstration list is moved from, by the move
constructor or by move assignment into another object, `done()` on it is not `true`; its
handle is the null handle, on which `done()` is undefined.  And move assignment of an
object to itself transfers nothing: the list at place 1, of size 3, is left with size 0
and the null handle. -/
theorem C15_moved_from_done_undefined :
    (demo_state 3).move.2.done ≠ some true ∧
      (list.move_assign demo_mem 0 1 1).done ≠ some true ∧
      ((demo_mem 1).size = 3 ∧ (list.move_assign demo_mem 1 1 1).size = 0 ∧
        (list.move_assign demo_mem 1 1 1).m_Handler = none) := by
  refine ⟨?_, ?_, rfl, ?_, ?_⟩
  · intro h
    cases h
  · rw [(move_assign_apart demo_mem 0 1 (by decide)).2.1]
    intro h
    cases h
  · rw [move_assign_same]
    rfl
  · rw [move_assign_same]

/-- C15 (move), amended.  Move construction gives the new list exactly the list the source
was.  Move assignment into another object (`target` and `source` different places) gives
the target the chain and the generator frame of the source, hence its `size()`, and, the
two seeing the same allocator, exactly the list the source was, so that every later call
behaves on it as it would have on the source.  In both cases the moved-from list is left
with an empty chain, `size() == 0`, and the null handle, on which `done()` is undefined.
Move assignment of an object to itself is no transfer: the body makes no test for it, and
the object is left as a moved-from list, empty and with the null handle. -/
theorem C15_move (o : list T) (mem : Nat → list T) (target source : Nat)
    (hne : target ≠ source) :
    (o.move.1 = o ∧ o.move.1.size = o.size) ∧
    (o.move.2.m_RootNode = [] ∧ o.move.2.size = 0 ∧ o.move.2.m_Handler = none ∧
      o.move.2.done = none) ∧
    ((list.move_assign mem target source target).m_RootNode = (mem source).m_RootNode ∧
      (list.move_assign mem target source target).m_Handler = (mem source).m_Handler ∧
      (list.move_assign mem target source target).size = (mem source).size ∧
      ((mem target).heap = (mem source).heap → (mem target).allocs = (mem source).allocs →
        list.move_assign mem target source target = mem source)) ∧
    ((list.move_assign mem target source source).m_RootNode = [] ∧
      (list.move_assign mem target source source).size = 0 ∧
      (list.move_assign mem target source source).m_Handler = none ∧
      (list.move_assign mem target source source).done = none) ∧
    ((list.move_assign mem source source source).m_RootNode = [] ∧
      (list.move_assign mem source source source).size = 0 ∧
      (list.move_assign mem source source source).m_Handler = none ∧
      (list.move_assign mem source source source).done = none) := by
  obtain ⟨ht, hs, _⟩ := move_assign_apart mem target source hne
  have hself := move_assign_same mem source
  refine ⟨⟨?_, ?_⟩, ⟨rfl, rfl, rfl, rfl⟩, ⟨?_, ?_, ?_, ?_⟩, ⟨?_, ?_, ?_, ?_⟩,
    by rw [hself], by rw [hself]; rfl, by rw [hself], by rw [hself]; rfl⟩
  · cases o; rfl
  · cases o; rfl
  · rw [ht]
  · rw [ht]
  · rw [ht]; rfl
  · intro hh ha
    rw [ht]
    cases hm : mem source with
    | mk h1 r1 hp1 a1 =>
      rw [hm] at hh ha
      simp only at hh ha
      cases ht2 : mem target with
      | mk h2 r2 hp2 a2 =>
        rw [ht2] at hh ha
        simp only at hh ha
        subst hh
        subst ha
        rfl
  · rw [hs]
  · rw [hs]; rfl
  · rw [hs]
  · rw [hs]; rfl

/-- C15 in the sample program: the fresh list at place 0 is assigned the list at place 1,
which has three values materialised; place 0 then holds the chain `[0, 10, 20]` and place 1
an empty chain and the null handle. -/
theorem C15_move_witness :
    values (list.move_assign demo_mem 0 1 0).m_RootNode = [0, 10, 20] ∧
      (list.move_assign demo_mem 0 1 1).size = 0 ∧
      (list.move_assign demo_mem 0 1 1).m_Handler = none := by
  obtain ⟨_, _, h3, h4, _⟩ := C15_move (demo_state 3) demo_mem 0 1 (by decide)
  exact ⟨by rw [h3.1]; rfl, h4.2.1, h4.2.2.1⟩

/-- C16 as stated fails: on the demonstration list with three values materialised and the
cursor on the last node (address 48), `c + 1` is the end cursor and nothing is
materialised, while one `operator++` materialises `30` and lands on its node. -/
theorem C16_add_walks_materialised_only :
    iterator.operator_add ⟨48⟩ (demo_state 3) 1 = some (demo_state 3).end_ ∧
      (iterator.inc_times 1 ⟨48⟩ (demo_state 3)).map
          (fun r => (r.1, values r.2.m_RootNode)) = some (⟨64⟩, [0, 10, 20, 30]) ∧
      iterator.operator_add ⟨48⟩ (demo_state 3) 1
        ≠ (iterator.inc_times 1 ⟨48⟩ (demo_state 3)).map Prod.fst := by
  refine ⟨rfl, rfl, by decide⟩

/-- C16 (advance by `n`), amended.  For a cursor on the node `n` of a chain with distinct
non-null addresses, followed in the chain by the nodes `post`: if `k` does not exceed the
number of materialised successors, `c + k` is the cursor `k` nodes further on, and `k`
applications of `operator++` give the same cursor and leave the list as it is; for every
larger count `c + j` is the end cursor.  `operator+` returns a cursor only: it never
resumes the generator and cannot change the list. -/
theorem C16_add_within_chain (l : list T) (pre post : List (node T)) (n : node T) (k : Nat)
    (hc : l.m_RootNode = pre ++ n :: post) (hok : chain_ok l.m_RootNode)
    (hk : k ≤ post.length) :
    iterator.operator_add ⟨n.addr⟩ l k = some ⟨ptr ((n :: post).drop k)⟩ ∧
      iterator.inc_times k ⟨n.addr⟩ l = some (⟨ptr ((n :: post).drop k)⟩, l) ∧
      ∀ j, post.length < j → iterator.operator_add ⟨n.addr⟩ l j = some l.end_ := by
  refine ⟨?_, ?_, ?_⟩
  · have h := add_loop_inside l.m_RootNode hok k pre (n :: post) hc
      (by simp only [List.length_cons]; omega)
    simp only [iterator.operator_add]
    rw [show n.addr = ptr (n :: post) from rfl, h]
    rfl
  · exact inc_times_inside l hok k pre (n :: post) hc (by simp only [List.length_cons]; omega)
  · intro j hj
    have h := add_loop_beyond l.m_RootNode hok (n :: post) pre j hc
      (by simp only [List.length_cons]; omega)
    simp only [iterator.operator_add]
    rw [show n.addr = ptr (n :: post) from rfl, h]
    simp [list.end_]

/-- C16 on the demonstration list with three values materialised: from the first node,
`c + 2` and two `operator++` both reach the node at address 48 and leave three nodes. -/
theorem C16_add_within_chain_witness :
    iterator.operator_add ⟨16⟩ (demo_state 3) 2 = some ⟨48⟩ ∧
      (iterator.inc_times 2 ⟨16⟩ (demo_state 3)).map (fun r => (r.1, r.2.size))
        = some (⟨48⟩, 3) := by
  obtain ⟨h1, h2, _⟩ := C16_add_within_chain (demo_state 3) [] [⟨32, 10⟩, ⟨48, 20⟩] ⟨16, 0⟩ 2
    rfl (demo_state_ok 3 (by decide)).1 (by decide)
  exact ⟨h1, by rw [h2]; rfl⟩

/-- C17 (find materialises on demand).  On a list in good order whose generator has
exactly `R` left to hand over, `find(v)` returns (any fuel above the length of chain plus
`R` is enough) and: if `v` is in the chain, the list is left exactly as it was; if `v` is
not in the chain and `A` is what `R` yields before its first `v`, the chain is left as the
old values followed by `A` and `v`, with the rest of `R` still to come; if `v` is in
neither, the chain is left as the old values followed by all of `R` and `done()` is true.
In every case at most `R.length` nodes are added. -/
theorem C17_find_materialises_on_demand [DecidableEq T] (l : list T) (R : List T) (v : T)
    (fuel : Nat) (hok : l.ok R) (hf : l.m_RootNode.length + R.length + 1 ≤ fuel) :
    ∃ it l1, l.find v fuel = some (it, l1) ∧
      (v ∈ values l.m_RootNode → l1 = l) ∧
      (v ∉ values l.m_RootNode → ∀ A B, R = A ++ v :: B → v ∉ A →
        values l1.m_RootNode = values l.m_RootNode ++ A ++ [v] ∧ l1.ok B) ∧
      (v ∉ values l.m_RootNode → v ∉ R →
        values l1.m_RootNode = values l.m_RootNode ++ R ∧ l1.done = some true) ∧
      l1.size ≤ l.size + R.length := by
  rcases find_ok l R v fuel hok hf with
    ⟨w, m, rest, hc, hw, hm, hfind⟩ | ⟨hin, A0, B0, l1, pre1, m, hR, hA0, hfind, hc1, hm, hv, hok1⟩ |
    ⟨hin, hinR, l1, hfind, hv, hok1⟩
  · have hin : v ∈ values l.m_RootNode := by
      rw [hc, ← hm]
      simp [values]
    exact ⟨_, l, hfind, fun _ => rfl, fun h => absurd hin h, fun h => absurd hin h, by omega⟩
  · refine ⟨_, l1, hfind, fun h => absurd h hin, ?_, ?_, ?_⟩
    · intro _ A B hsplit hA
      have hAeq : A0 = A := first_split_unique v A0 A B0 B (hR ▸ hsplit) hA0 hA
      subst hAeq
      have hBeq : B0 = B := by
        have h2 : A0 ++ v :: B0 = A0 ++ v :: B := hR ▸ hsplit
        simpa using h2
      subst hBeq
      exact ⟨hv, hok1⟩
    · intro _ hnot
      exfalso
      apply hnot
      rw [hR]
      simp
    · rw [list_size_eq, list_size_eq, hv, hR]
      simp only [List.length_append, List.length_cons, List.length_nil]
      omega
  · refine ⟨_, l1, hfind, fun h => absurd h hin, ?_, ?_, ?_⟩
    · intro _ A B hsplit _
      exfalso
      apply hinR
      rw [hsplit]
      simp
    · intro _ _
      exact ⟨hv, done_of_ok_nil hok1⟩
    · rw [list_size_eq, list_size_eq, hv]
      simp

/-- C17 on the demonstration list with three values materialised: `find(50)` leaves the
chain `[0, 10, 20, 30, 40, 50]`, three nodes more and not all seven that were to come. -/
theorem C17_find_materialises_on_demand_witness :
    ∃ it l1, (demo_state 3).find 50 11 = some (it, l1) ∧
      values l1.m_RootNode = [0, 10, 20, 30, 40, 50] := by
  obtain ⟨it, l1, h1, _, h2, _⟩ := C17_find_materialises_on_demand (demo_state 3) _ 50 11
    (demo_state_ok 3 (by decide)) (by decide)
  exact ⟨it, l1, h1, (h2 (by decide) [30, 40] [60, 70, 80, 90] rfl (by decide)).1⟩

/-- C19, where the code departs from it.  On the chain `[9, 8, 7]` built by `push_front`
(addresses 48, 32, 16), take `first` on `8` and `last` on `9`, so that `first` comes after
`last` in the chain.  `erase(first)` alone leaves `[9, 7]`.  But the guard of
`erase(first, last)` compares addresses, 32 is below 48, and the loop runs: it erases `8`,
then `7`, and then reads `m_Next` through the null pointer.  With `first == last` the
guard holds and only that node goes. -/
theorem C19_erase_range_walks_off_the_chain :
    (addrs demo_pushed.m_RootNode = [48, 32, 16] ∧ values demo_pushed.m_RootNode = [9, 8, 7]) ∧
      (demo_pushed.erase ⟨32⟩).map (fun r => values r.m_RootNode) = some [9, 7] ∧
      (demo_pushed.erase_range ⟨32⟩ ⟨48⟩).map (fun r => values r.m_RootNode) = none ∧
      (demo_pushed.erase_range ⟨32⟩ ⟨32⟩).map (fun r => values r.m_RootNode) = some [9, 7] := by
  refine ⟨⟨rfl, rfl⟩, rfl, rfl, rfl⟩

/-- C18 (materialised prefix).  Take the fresh list of a generator yielding exactly `vs`
and any sequence of the calls `begin`, advance, `find`, `operator[]`, `size`, `erase` of
one cursor and `clear`, each of which returns, the allocator having been sound in each
call for the nodes that call made (it may hand out again the addresses of nodes already
released).  Let `k` be the number of nodes allocated so far, which is the position of the
frame: one node per value materialised, `k <= vs.length`, and the values of indices
`0, ..., k - 1` are the first `k` values of `vs`.  Keep the record `surviving` of indices:
a call appends the indices it materialises, `erase` strikes the index at the place of the
cursor in the chain, `clear` strikes all.  Then the chain is exactly the nodes of the
recorded indices, in order, index `i` carrying the value `vs[i]` in the node of
allocation `i`; the record is a strictly ascending selection of `0, ..., k - 1`, so no
value sits in the chain twice, and the addresses are pairwise distinct.  Hence the values
of the chain are a subsequence of `vs` and `size() <= vs.length`.  The sequence being
arbitrary, this holds after each call. -/
theorem C18_chain_of_generated [DecidableEq T] [Inhabited T] (vs : List T)
    (heap : Nat → Nat) (fuel : Nat) (ops : List (op T)) (l1 : list T)
    (hops : ops.all op.plain = true)
    (hrun : (list.construct (yields vs) heap).run fuel ops = some l1)
    (hsound : sound_run fuel ops (list.construct (yields vs) heap)) :
    (∃ h, l1.m_Handler = some h ∧ h.pc = l1.allocs) ∧ l1.allocs ≤ vs.length ∧
      (List.range l1.allocs).map (fun i => vs.getD i default) = vs.take l1.allocs ∧
      l1.m_RootNode
        = nodes_at vs heap ((list.construct (yields vs) heap).surviving fuel ops []) ∧
      values l1.m_RootNode
        = ((list.construct (yields vs) heap).surviving fuel ops []).map
            (fun i => vs.getD i default) ∧
      ((list.construct (yields vs) heap).surviving fuel ops []).Sublist
        (List.range l1.allocs) ∧
      ((list.construct (yields vs) heap).surviving fuel ops []).Nodup ∧
      (addrs l1.m_RootNode).Nodup ∧
      (values l1.m_RootNode).Sublist vs ∧ l1.size ≤ vs.length := by
  have ht := tracked_run vs heap fuel ops [] _ l1 (tracked_construct vs heap) hops hrun hsound
  have hc := tracked_ok vs heap _ l1 ht
  obtain ⟨h, hh, hpc, hle, _, _, hroot, _, hsub⟩ := ht
  have hr := range_map_getD vs default l1.allocs hle
  have hv : values l1.m_RootNode
      = ((list.construct (yields vs) heap).surviving fuel ops []).map
          (fun i => vs.getD i default) := by
    rw [hroot, values_nodes_at]
  have hsv : (values l1.m_RootNode).Sublist vs := by
    have h1 : (values l1.m_RootNode).Sublist
        ((List.range l1.allocs).map (fun i => vs.getD i default)) := by
      rw [hv]
      exact List.Sublist.map _ hsub
    rw [hr] at h1
    exact h1.trans (List.take_sublist _ vs)
  refine ⟨⟨h, hh, hpc⟩, hle, hr, hroot, hv, hsub, (List.nodup_range _).sublist hsub, hc.1,
    hsv, ?_⟩
  rw [list_size_eq]
  exact hsv.length_le

/-- C18 on two sample sessions.  The first walks to the value `40`, erases the node of the
value `10`, clears and walks to the end: the indices it leaves are `5, ..., 9` and the
chain holds the values `50, ..., 90`.  In the second the allocator hands out the address
16 twice, the node first put there having been erased in between: the indices left are
`1, 2` and the chain holds the values `2, 3`, at the addresses 32 and 16. -/
theorem C18_chain_of_generated_witness :
    ((do_something bump_heap).surviving 20 (demo_calls.take 4) [] = [0, 2, 3, 4] ∧
      (do_something bump_heap).surviving 20 demo_calls [] = [5, 6, 7, 8, 9] ∧
      (demo_after demo_calls).m_RootNode
        = nodes_at ((List.range 10).map (fun i => i * 10)) bump_heap [5, 6, 7, 8, 9] ∧
      values (demo_after demo_calls).m_RootNode = [50, 60, 70, 80, 90] ∧
      (demo_after demo_calls).size ≤ 10) ∧
    (reuse_heap 0 = reuse_heap 2 ∧
      (list.construct (yields [1, 2, 3]) reuse_heap).surviving 5 reuse_calls [] = [1, 2] ∧
      (reuse_after reuse_calls).m_RootNode = nodes_at [1, 2, 3] reuse_heap [1, 2] ∧
      values (reuse_after reuse_calls).m_RootNode = [2, 3] ∧
      addrs (reuse_after reuse_calls).m_RootNode = [32, 16]) := by
  obtain ⟨_, _, _, a4, _, _, _, _, _, a10⟩ := C18_chain_of_generated
    ((List.range 10).map (fun i => i * 10)) bump_heap 20
    demo_calls (demo_after demo_calls) rfl (demo_after_run demo_calls rfl)
    (sound_run_of_reached _ bump_heap 20 demo_calls 0 _
      (reached_construct _ bump_heap bump_heap_injective bump_heap_ne_zero))
  obtain ⟨_, _, _, b4, _⟩ := C18_chain_of_generated [1, 2, 3] reuse_heap 5
    reuse_calls (reuse_after reuse_calls) rfl (reuse_after_run reuse_calls rfl) (by decide)
  exact ⟨⟨rfl, rfl, a4, rfl, a10⟩, rfl, rfl, b4, rfl, rfl⟩

/-- C20 (timing of `done()`).  Take the fresh list of a generator yielding exactly `vs`
and any sequence of calls, insertions, `erase` and `clear` among them, each of which
returns, the allocator having been sound in each call for the nodes that call made (it
may hand out again the addresses of nodes already released).  In the state reached, the
number of values materialised so far is the position `pc` of the frame, which is the
number of nodes allocated less the nodes the calls inserted, erased nodes counting;
`done()` is true exactly when `pc` is `vs.length`, and while it is false the promise holds
the value of index `pc`, the first one not yet materialised.  From that state, a step of
a cursor, `operator++` or `begin()`, that finds `done()` false and leaves it true has
allocated one node, and the cursor it returns is not the end cursor and stands on a node
holding the last value of `vs`.  Such a step exists: on the fresh list, the allocator
being sound for the `vs.length` nodes of a plain traversal, `done()` is false after fewer
than `vs.length` steps, and after `vs.length` steps it is true, all of `vs` is in the
chain and, if `vs` is not empty, the cursor still stands on the node of the last value
and is not the end cursor. -/
theorem C20_done_timing [DecidableEq T] [Inhabited T] (vs : List T)
    (heap : Nat → Nat) (fuel : Nat) (ops : List (op T)) (l1 : list T)
    (hrun : (list.construct (yields vs) heap).run fuel ops = some l1)
    (hsound : sound_run fuel ops (list.construct (yields vs) heap)) :
    (∃ h, l1.m_Handler = some h ∧ h.pc ≤ vs.length ∧
      l1.allocs = h.pc + (ops.map op.inserts).sum ∧
      l1.done = some (decide (h.pc = vs.length)) ∧
      (h.pc < vs.length → vs[h.pc]? = some h.m_Data)) ∧
    (∀ (it it2 : iterator) (l2 : list T), it.operator_inc l1 = some (it2, l2) →
      l1.done = some false →
      l2.done = some true → fresh_for l1 1 →
      it2 ≠ l2.end_ ∧ it2.deref l2 = vs.getLast? ∧ l2.allocs = l1.allocs + 1) ∧
    (∀ (it2 : iterator) (l2 : list T), l1.begin = some (it2, l2) → l1.done = some false →
      l2.done = some true → fresh_for l1 1 →
      it2 ≠ l2.end_ ∧ it2.deref l2 = vs.getLast? ∧ l2.allocs = l1.allocs + 1) ∧
    (fresh_for (list.construct (yields vs) heap) vs.length →
      (∀ k, k < vs.length → ∃ c l,
        traversal_steps k (list.construct (yields vs) heap) = some (c, l) ∧
          l.done = some false) ∧
      ∃ c l, traversal_steps vs.length (list.construct (yields vs) heap) = some (c, l) ∧
        l.done = some true ∧ values l.m_RootNode = vs ∧
        (vs ≠ [] → ∃ it, c = some it ∧ it ≠ l.end_ ∧ it.deref l = vs.getLast?)) := by
  have hs := settled_run vs fuel ops 0 _ l1 (settled_construct vs heap) hrun hsound
  refine ⟨?_, ?_, ?_, ?_⟩
  · obtain ⟨h, hh, hal, hk, hpend, _⟩ := hs
    refine ⟨h, hh, hk, by omega, ?_, ?_⟩
    · by_cases hlt : h.pc < vs.length
      · rw [List.drop_eq_getElem_cons hlt] at hpend
        have hne : ¬ h.pc = vs.length := by omega
        simp [list.done, hh, hpend.1, hne]
      · have heq : h.pc = vs.length := by omega
        rw [List.drop_eq_nil_of_le (by omega)] at hpend
        simp only [pending] at hpend
        simp [list.done, hh, hpend, heq]
    · intro hlt
      rw [List.drop_eq_getElem_cons hlt] at hpend
      rw [List.getElem?_eq_getElem hlt, hpend.2.1]
  · intro it it2 l2 hi hd1 hd2 hf
    exact flip_operator_inc vs _ l1 l2 it it2 hs hi hd1 hd2 hf
  · intro it2 l2 hb hd1 hd2 hf
    exact flip_begin vs _ l1 l2 it2 hs hb hd1 hd2 hf
  · intro hfresh
    obtain ⟨hnz, hinj⟩ := fresh_construct vs heap vs.length hfresh
    constructor
    · intro k hk
      obtain ⟨c, l, hst, ht, hal, _⟩ := steps_fresh vs heap hnz hinj k (Nat.le_of_lt hk)
      refine ⟨c, l, hst, ?_⟩
      obtain ⟨h, hh, _, _, hpend, _⟩ := ht
      rw [hal, List.drop_eq_getElem_cons hk] at hpend
      simp [list.done, hh, hpend.1]
    · obtain ⟨c, l, hst, ht, hal, hc⟩ := steps_fresh vs heap hnz hinj vs.length (Nat.le_refl _)
      have hcok := tracked_ok vs heap _ l ht
      obtain ⟨h, hh, _, _, hpend, _, hroot, _, _⟩ := ht
      rw [hal, List.drop_length] at hpend
      simp only [pending] at hpend
      have hv : values l.m_RootNode = vs := by
        rw [hroot, values_nodes_at, range_map_getD vs default vs.length (Nat.le_refl _),
          List.take_length]
      refine ⟨c, l, hst, by simp [list.done, hh, hpend], hv, ?_⟩
      intro hne
      rcases hc with ⟨_, hnil⟩ | ⟨pre, n, rfl, hcn⟩
      · exfalso
        apply hne
        rw [← hv, hnil]
        rfl
      · obtain ⟨hd, _, hz⟩ := deref_split l pre [] n hcn hcok
        refine ⟨⟨n.addr⟩, rfl, fun e => hz (congrArg iterator.m_NodePtr e), ?_⟩
        rw [hd, ← hv, hcn]
        simp [values]

/-- C20 on two sample sessions.  The first, the sample session with a `push_front(7)` put
first, erases a node and clears before it walks to the end: `done()` is true with all ten
values materialised, eleven nodes having been allocated; and on the fresh list `done()`
is true after ten traversal steps.  In the second, on the generator of `1, 2, 3`, two
values are materialised and the node at address 16 erased, `done()` being false; the next
advance materialises `3` in a node at address 16, handed out again, and leaves `done()`
true with the cursor on that node. -/
theorem C20_done_timing_witness :
    ((∃ h, (demo_after (op.push_front 7 :: demo_calls)).m_Handler = some h ∧
        (demo_after (op.push_front 7 :: demo_calls)).allocs = h.pc + 1 ∧
        (demo_after (op.push_front 7 :: demo_calls)).done = some (decide (h.pc = 10))) ∧
      ∃ c l, traversal_steps 10 (do_something bump_heap) = some (c, l) ∧
        l.done = some true ∧
        values l.m_RootNode = [0, 10, 20, 30, 40, 50, 60, 70, 80, 90]) ∧
    (reuse_heap 0 = reuse_heap 2 ∧
      (reuse_after (reuse_calls.take 3)).done = some false ∧
      iterator.operator_inc ⟨32⟩ (reuse_after (reuse_calls.take 3))
        = some (⟨16⟩, reuse_after reuse_calls) ∧
      (reuse_after reuse_calls).done = some true ∧
      (⟨16⟩ : iterator) ≠ (reuse_after reuse_calls).end_ ∧
      iterator.deref ⟨16⟩ (reuse_after reuse_calls) = some 3 ∧
      (reuse_after reuse_calls).allocs = (reuse_after (reuse_calls.take 3)).allocs + 1) :=
  let t := C20_done_timing ((List.range 10).map (fun i => i * 10))
    bump_heap 20 (op.push_front 7 :: demo_calls)
    (demo_after (op.push_front 7 :: demo_calls))
    (demo_after_run (op.push_front 7 :: demo_calls) rfl)
    (sound_run_of_reached _ bump_heap 20 (op.push_front 7 :: demo_calls) 0 _
      (reached_construct _ bump_heap bump_heap_injective bump_heap_ne_zero))
  let ⟨h, h1, _, h3, h4, _⟩ := t.1
  let ⟨c, l, s1, s2, s3, _⟩ := (t.2.2.2 (fresh_for_of_heap_ok _ _
    (ok_construct _ bump_heap bump_heap_injective bump_heap_ne_zero).2.1)).2
  let u := (C20_done_timing [1, 2, 3] reuse_heap 5 (reuse_calls.take 3)
    (reuse_after (reuse_calls.take 3)) (reuse_after_run (reuse_calls.take 3) rfl)
    (by decide)).2.1 ⟨32⟩ ⟨16⟩ (reuse_after reuse_calls) rfl rfl rfl (by decide)
  ⟨⟨⟨h, h1, h3, h4⟩, c, l, s1, s2, s3⟩, rfl, rfl, rfl, rfl, u.1, u.2.1, u.2.2⟩

end lazy
